import Mathlib

/-!
# etceteras::pyramid

A shallow embedding of `include/etceteras/pyramid.hpp`.

* `Ptr` stands for `detail::pyramid_node<T>*`: the two sentinel members of the
  arena and the nodes of the pages (`new_page->nodes + index`).
* `pyramid T` carries the members of the class; the storage of the nodes, the
  two sentinels included, is the field `memory`.
* `size_type` is `std::size_t`; its width is the parameter `w` and every
  arithmetic step on it is taken modulo `2 ^ w`.
* `F` is the template parameter of the class.
* `Layout T` gives `sizeof(detail::pyramid_node<T>)` and
  `sizeof(detail::pyramid_page<T>)`; the bytes asked of `std::malloc` are computed
  from them as in lines 286-288, in `size_type`.
* Where the language defines no behaviour, a call ends as `undefined`: an `insert`
  that writes to nodes outside the block it was given, and a copy assignment that
  reaches the end of its body, which holds no `return` statement.
-/

namespace etceteras

/-- Values of type `detail::pyramid_node<T>*`. `null` stands for a link that was
never written (storage that no page holds, or a node fresh from `malloc`). -/
inductive Ptr where
  | null
  | free_nodes_
  | occupied_nodes_
  | nodes (page : Nat) (index : Nat)
deriving DecidableEq, Repr

/-- The struct `detail::pyramid_node<T>`; `item` is `none` while no object lives in
the union `data`. -/
structure pyramid_node (T : Type) where
  item : Option T
  previous_node : Ptr
  next_node : Ptr

/-- The header of `detail::pyramid_page<T>`: `base` names the block `malloc`
returned, `capacity` is the member of the same name. The link `next_page` is the
order of the list `pyramid.pages_`; the nodes live in `pyramid.memory`. -/
structure pyramid_page where
  base : Nat
  capacity : Nat
deriving DecidableEq, Repr

/-- Node storage. -/
abbrev Memory (T : Type) := Ptr → pyramid_node T

/-- Storage that holds no node. -/
def blank (T : Type) : pyramid_node T := ⟨none, Ptr.null, Ptr.null⟩

/-- The members of `class pyramid`. `pages_` is the chain that starts at
`pages_.next_page` (newest page first); `free_nodes_` and `occupied_nodes_` are the
cells of `memory` at the pointers of the same name. The member `pages_.capacity` of
the sentinel page is written by `init` and read nowhere; it is left out. -/
structure pyramid (T : Type) where
  capacity_ : Nat
  size_ : Nat
  pages_ : List pyramid_page
  next_page_estimate_ : Nat
  memory : Memory T

/-- The only exception type the class throws. -/
inductive Exception where
  | bad_alloc
deriving DecidableEq, Repr

/-- How a call of `insert` ends; the arena as the call left it is part of each.
`undefined`: the call wrote to nodes outside the block `std::malloc` gave it, so the
language defines no behaviour from there on; `s` is the arena when the page was
requested. -/
inductive Outcome (T : Type) where
  | returned (s : pyramid T) (node : Ptr)
  | thrown (e : Exception) (s : pyramid T)
  | undefined (s : pyramid T)

/-- How a run of calls ends that does not run to a `return`: a call threw, or the
behaviour of the program became undefined; `s` is the arena at that point. -/
inductive Failure (T : Type) where
  | thrown (e : Exception) (s : pyramid T)
  | undefined (s : pyramid T)

/-- The arena a run left when it failed. -/
def Failure.arena {T : Type} : Failure T → pyramid T
  | Failure.thrown _ s => s
  | Failure.undefined s => s

/-- The sizes the compiler gives the structs over the element type `T`,
`sizeof(detail::pyramid_node<T>)` and `sizeof(detail::pyramid_page<T>)`. A node is not
empty, and a page ends with its array `nodes[1]` of one node, so that the array
starts `sizeof_page - sizeof_node` bytes into the page. -/
class Layout (T : Type) where
  sizeof_node : Nat
  sizeof_page : Nat
  node_pos : 0 < sizeof_node
  node_le_page : sizeof_node ≤ sizeof_page

/-- The sizes for `int` where a pointer and `std::size_t` take 8 bytes: the node is
the item, padded to 8 bytes, and two pointers; the page is a pointer, a size and one
node. -/
instance layout_int : Layout Int := ⟨24, 40, by decide, by decide⟩

/-- The sizes for `unsigned` where a pointer and `std::size_t` take 8 bytes. -/
instance layout_unsigned : Layout Nat := ⟨24, 40, by decide, by decide⟩

variable {T : Type}

/-- The assignment `p->previous_node = q`. -/
def set_previous_node (m : Memory T) (p q : Ptr) : Memory T :=
  fun x => if x = p then { m p with previous_node := q } else m x

/-- The assignment `p->next_node = q`. -/
def set_next_node (m : Memory T) (p q : Ptr) : Memory T :=
  fun x => if x = p then { m p with next_node := q } else m x

/-- Placement construction (`some v`) or destruction (`none`) of `p->data.item`. -/
def set_item (m : Memory T) (p : Ptr) (v : Option T) : Memory T :=
  fun x => if x = p then { m p with item := v } else m x

/-- The function `std::free(page)`: the nodes of the block are storage no more. -/
def free (m : Memory T) (page : pyramid_page) : Memory T :=
  fun x => match x with
    | Ptr.nodes b _ => if b = page.base then blank T else m x
    | _ => m x

namespace pyramid

/-- An object before its constructor has run. -/
def raw (T : Type) : pyramid T :=
  { capacity_ := 0, size_ := 0, pages_ := [], next_page_estimate_ := 0,
    memory := fun _ => blank T }

/-- Lines 266-276, `init`. -/
def init (F : Nat) (s : pyramid T) : pyramid T :=
  let m1 := set_previous_node s.memory Ptr.free_nodes_ Ptr.free_nodes_
  let m2 := set_next_node m1 Ptr.free_nodes_ Ptr.free_nodes_
  let m3 := set_previous_node m2 Ptr.occupied_nodes_ Ptr.occupied_nodes_
  let m4 := set_next_node m3 Ptr.occupied_nodes_ Ptr.occupied_nodes_
  { capacity_ := 0, size_ := 0, pages_ := [], next_page_estimate_ := F, memory := m4 }

/-- Lines 165-167, the default constructor. -/
def new (T : Type) (F : Nat) : pyramid T := init F (raw T)

/-- Lines 189-191. -/
def size (s : pyramid T) : Nat := s.size_

/-- Lines 194-196. -/
def capacity (s : pyramid T) : Nat := s.capacity_

/-- Lines 199-201. -/
def empty (s : pyramid T) : Bool := s.size_ == 0

/-- Lines 219-221 and 229-231, `begin`. -/
def begin (s : pyramid T) : Ptr := (s.memory Ptr.occupied_nodes_).next_node

/-- Lines 224-226 and 234-236, `end`. -/
def end_ (_s : pyramid T) : Ptr := Ptr.occupied_nodes_

/-- Lines 80-82, `operator*` of an iterator on `node`, read. -/
def deref (s : pyramid T) (node : Ptr) : Option T := (s.memory node).item

/-- Lines 80-82, `*it = v`: assignment through the reference `operator*` returns. -/
def assign (s : pyramid T) (node : Ptr) (v : T) : pyramid T :=
  { s with memory := set_item s.memory node (some v) }

/-- Lines 88-91, `operator++`. -/
def next (s : pyramid T) (node : Ptr) : Ptr := (s.memory node).next_node

/-- Lines 99-102, `operator--`. -/
def prev (s : pyramid T) (node : Ptr) : Ptr := (s.memory node).previous_node

/-- Lines 294-297: the loop over the nodes of the new page, `is` being the
indices still to visit. For index 0 the pointer `node - 1` lies before the array;
it is written as `nodes page 0` here and line 298 overwrites it. -/
def link_page (page : Nat) : List Nat → Memory T → Memory T
  | [], m => m
  | i :: is, m =>
    let m1 := set_previous_node m (Ptr.nodes page i) (Ptr.nodes page (i - 1))
    let m2 := set_next_node m1 (Ptr.nodes page i) (Ptr.nodes page (i + 1))
    link_page page is m2

/-- Lines 291-302: the page `malloc` returned is chained and its nodes become the
free list. The block is named by the number of pages the arena holds; `last` is the
index `page_capacity - 1` of lines 300-301, an unsigned difference. -/
def append_page (w : Nat) (page_capacity : Nat) (s : pyramid T) : pyramid T :=
  let new_page := s.pages_.length
  let m1 := link_page new_page (List.range page_capacity) s.memory
  let m2 := set_previous_node m1 (Ptr.nodes new_page 0) Ptr.free_nodes_
  let m3 := set_next_node m2 Ptr.free_nodes_ (Ptr.nodes new_page 0)
  let last := (page_capacity + 2 ^ w - 1) % 2 ^ w
  let m4 := set_next_node m3 (Ptr.nodes new_page last) Ptr.free_nodes_
  let m5 := set_previous_node m4 Ptr.free_nodes_ (Ptr.nodes new_page last)
  { s with
    pages_ := { base := new_page, capacity := page_capacity } :: s.pages_
    memory := m5
    capacity_ := (s.capacity_ + page_capacity) % 2 ^ w }

/-- Lines 305-306: the allocated node leaves the list it is in. -/
def unlink_allocated (m : Memory T) (allocated_node : Ptr) : Memory T :=
  let m1 := set_previous_node m (m allocated_node).next_node (m allocated_node).previous_node
  set_next_node m1 (m1 allocated_node).previous_node (m1 allocated_node).next_node

/-- Lines 307-310: the allocated node becomes the tail of the occupied list. -/
def link_occupied (m : Memory T) (allocated_node : Ptr) : Memory T :=
  let m1 := set_next_node m allocated_node Ptr.occupied_nodes_
  let m2 := set_previous_node m1 allocated_node (m1 Ptr.occupied_nodes_).previous_node
  let m3 := set_next_node m2 (m2 Ptr.occupied_nodes_).previous_node allocated_node
  set_previous_node m3 Ptr.occupied_nodes_ allocated_node

/-- Lines 304-312: the head of the free list moves to the tail of the occupied
list. -/
def take_node (w : Nat) (s : pyramid T) : pyramid T × Ptr :=
  let allocated_node := (s.memory Ptr.free_nodes_).next_node
  let m := link_occupied (unlink_allocated s.memory allocated_node) allocated_node
  ({ s with memory := m, size_ := (s.size_ + 1) % 2 ^ w }, allocated_node)

/-- Line 281, `next_page_estimate_ - size_`. -/
def page_capacity (w : Nat) (s : pyramid T) : Nat :=
  (s.next_page_estimate_ + 2 ^ w - s.size_) % 2 ^ w

/-- Line 287, `(page_capacity - 1) * sizeof(detail::pyramid_node<T>)` in `size_type`;
the size of a node is the parameter `sizeof_node`. -/
def nodes_size (w sizeof_node page_capacity : Nat) : Nat :=
  (page_capacity + 2 ^ w - 1) % 2 ^ w * sizeof_node % 2 ^ w

/-- Lines 286-288, the number of bytes asked of `std::malloc`:
`page_size + nodes_size` in `size_type`. -/
def page_bytes (T : Type) [Layout T] (w page_capacity : Nat) : Nat :=
  (Layout.sizeof_page T + nodes_size w (Layout.sizeof_node T) page_capacity) % 2 ^ w

/-- The node `nodes[index]` of a page lies inside a block of `bytes` bytes that
starts with the page: the node ends `index + 1` nodes after the start of the array
`nodes`. -/
def node_in_block (T : Type) [Layout T] (bytes index : Nat) : Bool :=
  decide (Layout.sizeof_page T - Layout.sizeof_node T + (index + 1) * Layout.sizeof_node T
    ≤ bytes)

/-- The writes of lines 294-301 stay inside the block of line 288. They go to the
nodes `0 .. page_capacity - 1` of the new page and, whatever the capacity, to the
node `nodes[page_capacity - 1]` with the index taken in `size_type`, which is the
farthest of them; the block has the `page_bytes` asked for. -/
def page_fits (T : Type) [Layout T] (w page_capacity : Nat) : Bool :=
  node_in_block T (page_bytes T w page_capacity) ((page_capacity + 2 ^ w - 1) % 2 ^ w)

/-- Lines 279-313, `allocate_node`. `malloc_ok` tells whether `std::malloc` at line
288 returns a block. When the block does not hold the nodes that lines 294-301
write, the call has written outside it and ends as `undefined`. -/
def allocate_node [Layout T] (F w : Nat) (malloc_ok : Bool) (s : pyramid T) : Outcome T :=
  if s.capacity_ = s.size_ then
    let page_capacity := page_capacity w s
    let next_page_estimate := (s.next_page_estimate_ * F) % 2 ^ w
    if next_page_estimate < s.next_page_estimate_ then
      Outcome.thrown Exception.bad_alloc s
    else
      let s1 := { s with next_page_estimate_ := next_page_estimate }
      if malloc_ok then
        if page_fits T w page_capacity then
          let r := take_node w (append_page w page_capacity s1)
          Outcome.returned r.1 r.2
        else
          Outcome.undefined s1
      else
        Outcome.thrown Exception.bad_alloc s1
  else
    let r := take_node w s
    Outcome.returned r.1 r.2

/-- Lines 319-320: the node leaves the list it is in. -/
def unlink_freed (m : Memory T) (node : Ptr) : Memory T :=
  let m1 := set_next_node m (m node).previous_node (m node).next_node
  set_previous_node m1 (m1 node).next_node (m1 node).previous_node

/-- Lines 321-324: the node becomes the head of the free list. -/
def link_free (m : Memory T) (node : Ptr) : Memory T :=
  let m1 := set_previous_node m node Ptr.free_nodes_
  let m2 := set_next_node m1 node (m1 Ptr.free_nodes_).next_node
  let m3 := set_previous_node m2 (m2 Ptr.free_nodes_).next_node node
  set_next_node m3 Ptr.free_nodes_ node

/-- Lines 316-327, `free_node`. -/
def free_node (w : Nat) (s : pyramid T) (node : Ptr) : pyramid T × Ptr :=
  let next_node := (s.memory node).next_node
  let m0 := set_item s.memory node none
  let m := link_free (unlink_freed m0 node) node
  ({ s with memory := m, size_ := (s.size_ + 2 ^ w - 1) % 2 ^ w }, next_node)

/-- Lines 240-251, `insert`. -/
def insert [Layout T] (F w : Nat) (malloc_ok : Bool) (item : T) (s : pyramid T) :
    Outcome T :=
  match allocate_node F w malloc_ok s with
  | Outcome.returned s1 node =>
    Outcome.returned { s1 with memory := set_item s1.memory node (some item) } node
  | Outcome.thrown e s1 => Outcome.thrown e s1
  | Outcome.undefined s1 => Outcome.undefined s1

/-- Lines 254-261, `erase`. -/
def erase (w : Nat) (s : pyramid T) (it : Ptr) : pyramid T × Ptr := free_node w s it

/-- The loop `for(it = begin(); it != end(); ++it)` that reads `*it`, started at
`it` and given `fuel` steps; `none` when the steps run out or a node holds no
object. -/
def collect (s : pyramid T) : Nat → Ptr → Option (List T)
  | 0, it => if it = end_ s then some [] else none
  | fuel + 1, it =>
    if it = end_ s then some []
    else match deref s it with
      | none => none
      | some v => (collect s fuel (next s it)).map (fun l => v :: l)

/-- The elements `begin()..end()` yields. -/
def elements (fuel : Nat) (s : pyramid T) : Option (List T) := collect s fuel (begin s)

/-- The handles `begin()..end()` passes through, at most `fuel` of them. -/
def walk (s : pyramid T) : Nat → Ptr → List Ptr
  | 0, _ => []
  | fuel + 1, it => if it = end_ s then [] else it :: walk s fuel (next s it)

/-- The handles of the live elements, in iteration order. -/
def handles (s : pyramid T) : List Ptr := walk s s.size_ (begin s)

/-- Lines 205-208: the loop of `clear` that destroys the live items, at `node`
with `fuel` steps left; `none` when the steps run out. -/
def destroy_items : Nat → Ptr → Memory T → Option (Memory T)
  | 0, node, m => if node = Ptr.occupied_nodes_ then some m else none
  | fuel + 1, node, m =>
    if node = Ptr.occupied_nodes_ then some m
    else
      let m1 := set_item m node none
      destroy_items fuel (m1 node).next_node m1

/-- Lines 209-214: the loop of `clear` that frees the page chain. -/
def free_pages : List pyramid_page → Memory T → Memory T
  | [], m => m
  | page :: rest, m => free_pages rest (free m page)

/-- Lines 204-216, `clear`. -/
def clear (F : Nat) (fuel : Nat) (s : pyramid T) : Option (pyramid T) :=
  match destroy_items fuel (s.memory Ptr.occupied_nodes_).next_node s.memory with
  | none => none
  | some m => some (init F { s with memory := free_pages s.pages_ m })

/-- A run of `insert` calls, one per value and in order, as in lines 76-80 and
105-109 of the tests. `malloc_ok k` tells whether the request for the page number
`k` of the arena succeeds. The run stops at the first call that does not return. -/
def insert_each [Layout T] (F w : Nat) (malloc_ok : Nat → Bool) :
    List T → pyramid T → Except (Failure T) (pyramid T)
  | [], s => Except.ok s
  | v :: vs, s =>
    match insert F w (malloc_ok s.pages_.length) v s with
    | Outcome.returned s1 _ => insert_each F w malloc_ok vs s1
    | Outcome.thrown e s1 => Except.error (Failure.thrown e s1)
    | Outcome.undefined s1 => Except.error (Failure.undefined s1)

/-- The arena of the test scenarios (lines 77-80, 94-97, 106-109 of the tests): a
default-constructed arena after one `insert` per value, `malloc` never failing. -/
def filled [Layout T] (F w : Nat) (vs : List T) : pyramid T :=
  match insert_each F w (fun _ => true) vs (new T F) with
  | Except.ok s => s
  | Except.error e => e.arena

/-- Lines 177-178 and 184-185: `for(auto const& item: other) insert(item);` with
the iterator over `other` at `it`; `none` when `fuel` runs out or `it` holds no
object. -/
def insert_range [Layout T] (F w : Nat) (malloc_ok : Nat → Bool) (other : pyramid T) :
    Nat → Ptr → pyramid T → Option (Except (Failure T) (pyramid T))
  | 0, it, s => if it = end_ other then some (Except.ok s) else none
  | fuel + 1, it, s =>
    if it = end_ other then some (Except.ok s)
    else match deref other it with
      | none => none
      | some item =>
        match insert F w (malloc_ok s.pages_.length) item s with
        | Outcome.returned s1 _ => insert_range F w malloc_ok other fuel (next other it) s1
        | Outcome.thrown e s1 => some (Except.error (Failure.thrown e s1))
        | Outcome.undefined s1 => some (Except.error (Failure.undefined s1))

/-- Lines 175-179, the copy constructor; the result is the new object. -/
def copy_construct [Layout T] (F w : Nat) (malloc_ok : Nat → Bool) (fuel : Nat)
    (other : pyramid T) : Option (Except (Failure T) (pyramid T)) :=
  insert_range F w malloc_ok other fuel (begin other) (init F (raw T))

/-- Lines 182-186, copy assignment to the object `s`. The function is declared to
return `pyramid&` and its body, lines 183-185, holds no `return` statement: when the
loop is done control flows off the end of the function, and the language defines no
behaviour for that. The call never ends as `Except.ok`; where the loop runs to its
end the result is `Failure.undefined` with the arena as the loop left it. -/
def copy_assign [Layout T] (F w : Nat) (malloc_ok : Nat → Bool) (fuel : Nat)
    (other s : pyramid T) : Option (Except (Failure T) (pyramid T)) :=
  match clear F fuel s with
  | none => none
  | some s0 =>
    match insert_range F w malloc_ok other fuel (begin other) s0 with
    | none => none
    | some (Except.ok s1) => some (Except.error (Failure.undefined s1))
    | some (Except.error e) => some (Except.error e)

/-- The construction `pyramid{std::move(source)}` of lines 66-73 of the tests. The
class declares a copy constructor (line 175) and no move constructor, so the
argument binds to `pyramid const&` and lines 175-179 run. The result pairs the
source after the call with the new object. -/
def move_construct [Layout T] (F w : Nat) (malloc_ok : Nat → Bool) (fuel : Nat)
    (source : pyramid T) : Option (Except (Failure T) (pyramid T × pyramid T)) :=
  match copy_construct F w malloc_ok fuel source with
  | none => none
  | some (Except.ok target) => some (Except.ok (source, target))
  | some (Except.error e) => some (Except.error e)

end pyramid

/-! ## Well-formed arenas -/

/-- Node `a` is followed by `b`, and `b` preceded by `a`. -/
def Linked (m : Memory T) (a b : Ptr) : Prop :=
  (m a).next_node = b ∧ (m b).previous_node = a

/-- The nodes `l` lie between `a` and `z`, doubly linked. -/
def Path (m : Memory T) : Ptr → List Ptr → Ptr → Prop
  | a, [], z => Linked m a z
  | a, x :: xs, z => Linked m a x ∧ Path m x xs z

/-- The nodes of a page. -/
def slots (page : pyramid_page) : List Ptr :=
  (List.range page.capacity).map (Ptr.nodes page.base)

/-- The nodes of a page chain. -/
def all_slots : List pyramid_page → List Ptr
  | [] => []
  | page :: rest => slots page ++ all_slots rest

/-- The blocks of a page chain are numbered in the order of allocation. -/
def Chained : List pyramid_page → Prop
  | [] => True
  | page :: rest => page.base = rest.length ∧ Chained rest

/-- The representation invariant: `occ` is the occupied list and `fre` the free
list of the arena `s`. -/
structure WellFormed (F w : Nat) (s : pyramid T) (occ fre : List Ptr) : Prop where
  occupied : Path s.memory Ptr.occupied_nodes_ occ Ptr.occupied_nodes_
  free : Path s.memory Ptr.free_nodes_ fre Ptr.free_nodes_
  perm : (occ ++ fre).Perm (all_slots s.pages_)
  chained : Chained s.pages_
  size_eq : s.size_ = occ.length
  capacity_eq : s.capacity_ = occ.length + fre.length
  estimate_gt : s.capacity_ < s.next_page_estimate_
  estimate_lt : s.next_page_estimate_ < 2 ^ w
  parity : F % 2 = 1 → s.next_page_estimate_ % 2 = 1
  live : ∀ p ∈ occ, ((s.memory p).item).isSome = true
  unmapped : ∀ b i, s.pages_.length ≤ b → s.memory (Ptr.nodes b i) = blank T
  null_blank : s.memory Ptr.null = blank T
  free_item : (s.memory Ptr.free_nodes_).item = none
  occupied_item : (s.memory Ptr.occupied_nodes_).item = none

/-- The states an arena can be in: a default-constructed arena, and what `insert`
(returning or throwing), `erase` of a live handle, assignment through a live
handle and `clear` make of such a state. A call that ends as `undefined` leaves no
state to go on from. -/
inductive Reachable [Layout T] (F w : Nat) : pyramid T → Prop where
  | new : Reachable F w (pyramid.new T F)
  | insert_returned {s s1 : pyramid T} {ok : Bool} {v : T} {node : Ptr} :
      Reachable F w s → pyramid.insert F w ok v s = Outcome.returned s1 node →
      Reachable F w s1
  | insert_thrown {s s1 : pyramid T} {ok : Bool} {v : T} {e : Exception} :
      Reachable F w s → pyramid.insert F w ok v s = Outcome.thrown e s1 →
      Reachable F w s1
  | erase {s : pyramid T} {h : Ptr} :
      Reachable F w s → h ∈ pyramid.handles s → Reachable F w (pyramid.erase w s h).1
  | assign {s : pyramid T} {h : Ptr} {v : T} :
      Reachable F w s → h ∈ pyramid.handles s → Reachable F w (pyramid.assign s h v)
  | clear {s s1 : pyramid T} {fuel : Nat} :
      Reachable F w s → pyramid.clear F fuel s = some s1 → Reachable F w s1

/-- What can happen to an arena while the handle `h` stays in use: `insert`
(returning or throwing), `erase` of a live handle other than `h`, and assignment
through a live handle. `Survives F w h s v s1 v1`: such calls lead from `s` to `s1`,
and `v1` is the value last assigned through `h` on the way, `v` when there was
none. -/
inductive Survives [Layout T] (F w : Nat) (h : Ptr) (s : pyramid T) (v : T) :
    pyramid T → T → Prop where
  | refl : Survives F w h s v s v
  | insert_returned {s1 s2 : pyramid T} {v1 x : T} {ok : Bool} {node : Ptr} :
      Survives F w h s v s1 v1 → pyramid.insert F w ok x s1 = Outcome.returned s2 node →
      Survives F w h s v s2 v1
  | insert_thrown {s1 s2 : pyramid T} {v1 x : T} {ok : Bool} {e : Exception} :
      Survives F w h s v s1 v1 → pyramid.insert F w ok x s1 = Outcome.thrown e s2 →
      Survives F w h s v s2 v1
  | erase {s1 : pyramid T} {v1 : T} {g : Ptr} :
      Survives F w h s v s1 v1 → g ∈ pyramid.handles s1 → g ≠ h →
      Survives F w h s v (pyramid.erase w s1 g).1 v1
  | assign_other {s1 : pyramid T} {v1 x : T} {g : Ptr} :
      Survives F w h s v s1 v1 → g ∈ pyramid.handles s1 → g ≠ h →
      Survives F w h s v (pyramid.assign s1 g x) v1
  | assign_self {s1 : pyramid T} {v1 x : T} :
      Survives F w h s v s1 v1 → Survives F w h s v (pyramid.assign s1 h x) x

/-- The sizes of an arena that holds `k` pages and whose growth target never
wrapped: the target is `F ^ (k + 1)`, the capacity `F ^ k` (none without a page),
and the last page was needed. -/
def Geometric (F w : Nat) (s : pyramid T) (k : Nat) : Prop :=
  s.pages_.length = k ∧ s.next_page_estimate_ = F ^ (k + 1) ∧ F ^ (k + 1) < 2 ^ w ∧
    s.capacity_ = (if k = 0 then 0 else F ^ k) ∧ s.size_ ≤ s.capacity_ ∧
    (k ≤ 1 ∨ F ^ (k - 1) < s.size_)

/-! ## More of the arena: both lists, backward iteration, self-assignment -/

/-- The arena a call left, however it ended. -/
def Outcome.arena : Outcome T → pyramid T
  | Outcome.returned s _ => s
  | Outcome.thrown _ s => s
  | Outcome.undefined s => s

/-- The exception a call threw, if it threw. -/
def Outcome.exception : Outcome T → Option Exception
  | Outcome.returned _ _ => none
  | Outcome.thrown e _ => some e
  | Outcome.undefined _ => none

/-- The nodes of the circular list of `sentinel` from `it` on, by `next_node` until
the sentinel comes back; `none` when `fuel` steps do not reach it. -/
def list_from (m : Memory T) (sentinel : Ptr) : Nat → Ptr → Option (List Ptr)
  | 0, it => if it = sentinel then some [] else none
  | fuel + 1, it =>
    if it = sentinel then some []
    else (list_from m sentinel fuel (m it).next_node).map (fun l => it :: l)

/-- The members of the occupied list, from `occupied_nodes_.next_node` on. -/
def pyramid.occupied_list (fuel : Nat) (s : pyramid T) : Option (List Ptr) :=
  list_from s.memory Ptr.occupied_nodes_ fuel (s.memory Ptr.occupied_nodes_).next_node

/-- The members of the free list, from `free_nodes_.next_node` on. -/
def pyramid.free_list (fuel : Nat) (s : pyramid T) : Option (List Ptr) :=
  list_from s.memory Ptr.free_nodes_ fuel (s.memory Ptr.free_nodes_).next_node

/-- The loop `while(it != begin()) { --it; read *it; }`, with `it` as given and
`fuel` steps; `none` when the steps run out or a node holds no object. -/
def pyramid.collect_back (s : pyramid T) : Nat → Ptr → Option (List T)
  | 0, it => if it = pyramid.begin s then some [] else none
  | fuel + 1, it =>
    if it = pyramid.begin s then some []
    else match pyramid.deref s (pyramid.prev s it) with
      | none => none
      | some v => (pyramid.collect_back s fuel (pyramid.prev s it)).map (fun l => v :: l)

/-- The elements met from `end()` back to `begin()` by `--`. -/
def pyramid.elements_back (fuel : Nat) (s : pyramid T) : Option (List T) :=
  pyramid.collect_back s fuel (pyramid.end_ s)

/-- Lines 184-185 when `other` is the object itself: the iterator walks the arena
the loop inserts into, so `*it` and `++it` read the arena as the calls left it. -/
def pyramid.insert_range_self [Layout T] (F w : Nat) (malloc_ok : Nat → Bool) :
    Nat → Ptr → pyramid T → Option (Except (Failure T) (pyramid T))
  | 0, it, s => if it = pyramid.end_ s then some (Except.ok s) else none
  | fuel + 1, it, s =>
    if it = pyramid.end_ s then some (Except.ok s)
    else match pyramid.deref s it with
      | none => none
      | some item =>
        match pyramid.insert F w (malloc_ok s.pages_.length) item s with
        | Outcome.returned s1 _ =>
          pyramid.insert_range_self F w malloc_ok fuel (pyramid.next s1 it) s1
        | Outcome.thrown e s1 => some (Except.error (Failure.thrown e s1))
        | Outcome.undefined s1 => some (Except.error (Failure.undefined s1))

/-- Lines 182-186 for the self-assignment `p = p`: `clear()` runs on the object, then
the loop runs over the same object. As in `copy_assign` the body holds no `return`
statement, so where the loop runs to its end the result is `Failure.undefined` with
the arena as the loop left it. -/
def pyramid.copy_assign_self [Layout T] (F w : Nat) (malloc_ok : Nat → Bool) (fuel : Nat)
    (s : pyramid T) : Option (Except (Failure T) (pyramid T)) :=
  match pyramid.clear F fuel s with
  | none => none
  | some s0 =>
    match pyramid.insert_range_self F w malloc_ok fuel (pyramid.begin s0) s0 with
    | none => none
    | some (Except.ok s1) => some (Except.error (Failure.undefined s1))
    | some (Except.error e) => some (Except.error e)

/-- A default-constructed arena after `n` calls of `insert(v)` that found no
memory. -/
def pyramid.starved [Layout T] (F w : Nat) (v : T) : Nat → pyramid T
  | 0 => pyramid.new T F
  | n + 1 => (pyramid.insert F w false v (pyramid.starved F w v n)).arena

/-- The states of an arena for which `malloc` never failed: as `Reachable`, without
the calls of `insert` that found no memory. -/
inductive Built [Layout T] (F w : Nat) : pyramid T → Prop where
  | new : Built F w (pyramid.new T F)
  | insert_returned {s s1 : pyramid T} {v : T} {node : Ptr} :
      Built F w s → pyramid.insert F w true v s = Outcome.returned s1 node → Built F w s1
  | erase {s : pyramid T} {h : Ptr} :
      Built F w s → h ∈ pyramid.handles s → Built F w (pyramid.erase w s h).1
  | assign {s : pyramid T} {h : Ptr} {v : T} :
      Built F w s → h ∈ pyramid.handles s → Built F w (pyramid.assign s h v)
  | clear {s s1 : pyramid T} {fuel : Nat} :
      Built F w s → pyramid.clear F fuel s = some s1 → Built F w s1

/-- The capacity of the page appended as number `i` when the growth target never
wrapped and `malloc` never failed: lines 281-282 starting from `init`. -/
def page_size (F : Nat) (i : Nat) : Nat :=
  if i = 0 then F else F ^ (i + 1) - F ^ i

/-! # etceteras::expected

A shallow embedding of `include/etceteras/expected.hpp`, the primary template
`expected<T, E>`. -/

/-- The class `unexpected<E>`, lines 11-25 of expected.hpp. -/
structure unexpected (E : Type) where
  value_ : E

/-- Lines 21-23, `unexpected::value`. -/
def unexpected.value {E : Type} (u : unexpected E) : E := u.value_

/-- Lines 28-30, `make_unexpected`. -/
def make_unexpected {E : Type} (e : E) : unexpected E := ⟨e⟩

/-- The union `data` of lines 38-45: the object that lives in it, a `T` or an `E`. -/
inductive expected_data (T E : Type) where
  | value (v : T)
  | error (e : E)

/-- The members of `class expected`, lines 37-45. -/
structure expected (T E : Type) where
  has_value_ : Bool
  data_ : expected_data T E

namespace expected

variable {E : Type}

/-- Lines 123-124 with 41-42: construction from a value. -/
def of_value (v : T) : expected T E := ⟨true, expected_data.value v⟩

/-- Lines 125-126 with 43-44: construction from an `unexpected<E>`. -/
def of_unexpected (u : unexpected E) : expected T E :=
  ⟨false, expected_data.error (unexpected.value u)⟩

/-- Line 138, `has_value`. -/
def has_value (x : expected T E) : Bool := x.has_value_

/-- Line 139, `operator bool`. -/
def to_bool (x : expected T E) : Bool := x.has_value_

/-- Lines 132-134, `value()`: the member `value` of the union, `none` when no `T`
lives there. -/
def value (x : expected T E) : Option T :=
  match x.data_ with
  | expected_data.value v => some v
  | expected_data.error _ => none

/-- Lines 129-131, `operator*`. -/
def star (x : expected T E) : Option T :=
  match x.data_ with
  | expected_data.value v => some v
  | expected_data.error _ => none

/-- Lines 135-137, `error()`: the member `error` of the union, `none` when no `E`
lives there. -/
def error (x : expected T E) : Option E :=
  match x.data_ with
  | expected_data.value _ => none
  | expected_data.error e => some e

end expected

namespace expected

variable {E : Type}

/-- The object in the union is the one `has_value_` announces: a `T` when it is
true, an `E` when it is false. -/
def valid (x : expected T E) : Bool :=
  match x.has_value_, x.data_ with
  | true, expected_data.value _ => true
  | false, expected_data.error _ => true
  | _, _ => false

/-- Lines 57-63, the copy constructor. Line 60 copies the value as a `T`; line 62
builds a `T` from `other.data_.error` in the storage of the union, `T_of_E` being the
constructor of `T` it calls. `none` when `other` holds no object of the member
read. -/
def copy_construct (T_of_E : E → T) (other : expected T E) : Option (expected T E) :=
  if other.has_value_ then
    match value other with
    | some v => some ⟨other.has_value_, expected_data.value v⟩
    | none => none
  else
    match error other with
    | some e => some ⟨other.has_value_, expected_data.value (T_of_E e)⟩
    | none => none

/-- Lines 66-83, copy assignment to the object `x`. Lines 69 and 71 assign member to
member; line 75 builds an `E` from `other.data_.error`; line 78 builds an `E` from
`other.data_.value` in the storage of the union, `E_of_T` being the constructor of
`E` it calls. `none` when `x` or `other` holds no object of a member used. -/
def copy_assign (E_of_T : T → E) (other x : expected T E) : Option (expected T E) :=
  if x.has_value_ = other.has_value_ then
    if x.has_value_ then
      match value x, value other with
      | some _, some v => some ⟨x.has_value_, expected_data.value v⟩
      | _, _ => none
    else
      match error x, error other with
      | some _, some e => some ⟨x.has_value_, expected_data.error e⟩
      | _, _ => none
  else
    if x.has_value_ then
      match value x, error other with
      | some _, some e => some ⟨other.has_value_, expected_data.error e⟩
      | _, _ => none
    else
      match error x, value other with
      | some _, some v => some ⟨other.has_value_, expected_data.error (E_of_T v)⟩
      | _, _ => none

end expected

/-! # Theorems -/

open pyramid

set_option maxRecDepth 100000

/-! ## Reading memory after a write -/

@[simp] theorem set_previous_node_next (m : Memory T) (p q x : Ptr) :
    (set_previous_node m p q x).next_node = (m x).next_node := by
  unfold set_previous_node; split_ifs with h <;> simp [h]

@[simp] theorem set_previous_node_item (m : Memory T) (p q x : Ptr) :
    (set_previous_node m p q x).item = (m x).item := by
  unfold set_previous_node; split_ifs with h <;> simp [h]

@[simp] theorem set_previous_node_previous (m : Memory T) (p q x : Ptr) :
    (set_previous_node m p q x).previous_node = if x = p then q else (m x).previous_node := by
  unfold set_previous_node; split_ifs with h <;> simp

@[simp] theorem set_next_node_previous (m : Memory T) (p q x : Ptr) :
    (set_next_node m p q x).previous_node = (m x).previous_node := by
  unfold set_next_node; split_ifs with h <;> simp [h]

@[simp] theorem set_next_node_item (m : Memory T) (p q x : Ptr) :
    (set_next_node m p q x).item = (m x).item := by
  unfold set_next_node; split_ifs with h <;> simp [h]

@[simp] theorem set_next_node_next (m : Memory T) (p q x : Ptr) :
    (set_next_node m p q x).next_node = if x = p then q else (m x).next_node := by
  unfold set_next_node; split_ifs with h <;> simp

@[simp] theorem set_item_previous (m : Memory T) (p x : Ptr) (v : Option T) :
    (set_item m p v x).previous_node = (m x).previous_node := by
  unfold set_item; split_ifs with h <;> simp [h]

@[simp] theorem set_item_next (m : Memory T) (p x : Ptr) (v : Option T) :
    (set_item m p v x).next_node = (m x).next_node := by
  unfold set_item; split_ifs with h <;> simp [h]

@[simp] theorem set_item_item (m : Memory T) (p x : Ptr) (v : Option T) :
    (set_item m p v x).item = if x = p then v else (m x).item := by
  unfold set_item; split_ifs with h <;> simp

theorem node_ext {a b : pyramid_node T} (h1 : a.item = b.item)
    (h2 : a.previous_node = b.previous_node) (h3 : a.next_node = b.next_node) : a = b := by
  cases a; cases b; simp_all

/-! ## Doubly linked paths -/

theorem path_congr {m m1 : Memory T} {a z : Ptr} {l : List Ptr} (h : Path m a l z)
    (hn : ∀ y ∈ a :: l, (m1 y).next_node = (m y).next_node)
    (hp : ∀ y ∈ l ++ [z], (m1 y).previous_node = (m y).previous_node) : Path m1 a l z := by
  induction l generalizing a with
  | nil =>
    obtain ⟨h1, h2⟩ := h
    exact ⟨by rw [hn a (by simp), h1], by rw [hp z (by simp), h2]⟩
  | cons b t ih =>
    obtain ⟨⟨h1, h2⟩, h3⟩ := h
    refine ⟨⟨by rw [hn a (by simp), h1], by rw [hp b (by simp), h2]⟩, ih h3 ?_ ?_⟩
    · intro y hy; exact hn y (List.mem_cons_of_mem _ hy)
    · intro y hy; exact hp y (by simp at hy ⊢; tauto)

theorem path_prev_mem {m : Memory T} {a z : Ptr} {l : List Ptr} (h : Path m a l z) :
    (m z).previous_node ∈ a :: l := by
  induction l generalizing a with
  | nil => simp [h.2]
  | cons b t ih => exact List.mem_cons_of_mem _ (ih h.2)

theorem path_next_mem {m : Memory T} {a z : Ptr} {l : List Ptr} (h : Path m a l z) :
    (m a).next_node ∈ l ++ [z] := by
  cases l with
  | nil => simp [h.1]
  | cons b t => simp [h.1.1]

theorem path_append {m : Memory T} {a x z : Ptr} {l1 l2 : List Ptr} :
    Path m a (l1 ++ x :: l2) z ↔ Path m a l1 x ∧ Path m x l2 z := by
  induction l1 generalizing a with
  | nil => simp [Path]
  | cons b t ih => simp [Path, ih, and_assoc]

/-- Taking `x` out of a path: its two neighbours are linked to each other. -/
theorem path_unlink {m m1 : Memory T} {a x z : Ptr} {l1 l2 : List Ptr}
    (h1 : Path m a l1 x) (h2 : Path m x l2 z)
    (hl : (a :: l1 ++ x :: l2).Nodup) (hr : (l1 ++ x :: l2 ++ [z]).Nodup)
    (hn : ∀ y, (m1 y).next_node =
      if y = (m x).previous_node then (m x).next_node else (m y).next_node)
    (hp : ∀ y, (m1 y).previous_node =
      if y = (m x).next_node then (m x).previous_node else (m y).previous_node) :
    Path m1 a (l1 ++ l2) z := by
  induction l1 generalizing a with
  | nil =>
    obtain ⟨ha1, ha2⟩ := h1
    cases l2 with
    | nil =>
      obtain ⟨hx1, hx2⟩ := h2
      exact ⟨by rw [hn, ha2]; simp [hx1], by rw [hp, hx1]; simp [ha2]⟩
    | cons y t =>
      obtain ⟨⟨hx1, hx2⟩, h3⟩ := h2
      refine ⟨⟨by rw [hn, ha2]; simp [hx1], by rw [hp, hx1]; simp [ha2]⟩, ?_⟩
      refine path_congr h3 ?_ ?_
      · intro u hu
        rw [hn, ha2, if_neg]
        rintro rfl
        simp only [List.nil_append, List.cons_append, List.nodup_cons, List.mem_cons] at hl
        simp only [List.mem_cons] at hu
        tauto
      · intro u hu
        rw [hp, hx1, if_neg]
        rintro rfl
        simp only [List.nil_append, List.cons_append, List.nodup_cons, List.mem_cons] at hr
        tauto
  | cons b t ih =>
    obtain ⟨⟨ha1, ha2⟩, h3⟩ := h1
    have hl1 : (b :: t ++ x :: l2).Nodup := by
      simp only [List.cons_append, List.nodup_cons] at hl ⊢; exact hl.2
    have hr1 : (t ++ x :: l2 ++ [z]).Nodup := by
      simp only [List.cons_append, List.nodup_cons] at hr ⊢; exact hr.2
    refine ⟨⟨?_, ?_⟩, ih h3 hl1 hr1⟩
    · rw [hn, if_neg, ha1]
      intro hax
      have := path_prev_mem h3
      rw [← hax] at this
      simp only [List.cons_append, List.nodup_cons, List.mem_cons, List.mem_append] at hl
      simp only [List.mem_cons] at this
      tauto
    · rw [hp, if_neg, ha2]
      intro hbx
      have := path_next_mem h2
      rw [← hbx] at this
      simp only [List.cons_append, List.nodup_cons, List.mem_cons, List.mem_append,
        List.append_assoc] at hr
      simp only [List.mem_append, List.mem_singleton] at this
      tauto

/-- Linking `x` in front of `z`, the end of a path. -/
theorem path_push_back {m m1 : Memory T} {a x z : Ptr} {l : List Ptr}
    (h : Path m a l z) (hl : (a :: l).Nodup) (hx : x ∉ a :: l) (hxz : x ≠ z) (hz : z ∉ l)
    (hn : ∀ y, (m1 y).next_node =
      if y = (m z).previous_node then x else if y = x then z else (m y).next_node)
    (hp : ∀ y, (m1 y).previous_node =
      if y = z then x else if y = x then (m z).previous_node else (m y).previous_node) :
    Path m1 a (l ++ [x]) z := by
  induction l generalizing a with
  | nil =>
    obtain ⟨h1, h2⟩ := h
    have hxa : x ≠ a := by simpa using hx
    refine ⟨⟨by rw [hn, h2]; simp, by rw [hp, h2]; simp [hxz]⟩,
      ⟨by rw [hn, h2]; simp [hxa], by rw [hp]; simp⟩⟩
  | cons b t ih =>
    obtain ⟨⟨h1, h2⟩, h3⟩ := h
    have hmem := path_prev_mem h3
    simp only [List.nodup_cons, List.mem_cons, not_or] at hl hx hz hmem
    refine ⟨⟨?_, ?_⟩, ih h3 ?_ ?_ ?_⟩
    · rw [hn, if_neg, if_neg, h1]
      · intro h; exact hx.1 h.symm
      · intro h; rw [← h] at hmem; tauto
    · rw [hp, if_neg, if_neg, h2]
      · intro h; exact hx.2.1 h.symm
      · intro h; exact hz.1 h.symm
    · simp only [List.nodup_cons]; exact hl.2
    · simp only [List.mem_cons, not_or]; exact hx.2
    · exact hz.2

/-- Linking `x` behind `a`, the start of a path. -/
theorem path_push_front {m m1 : Memory T} {a x z : Ptr} {l : List Ptr}
    (h : Path m a l z) (hr : (l ++ [z]).Nodup) (hx : x ∉ l ++ [z]) (hxa : x ≠ a) (ha : a ∉ l)
    (hn : ∀ y, (m1 y).next_node =
      if y = a then x else if y = x then (m a).next_node else (m y).next_node)
    (hp : ∀ y, (m1 y).previous_node =
      if y = (m a).next_node then x else if y = x then a else (m y).previous_node) :
    Path m1 a (x :: l) z := by
  cases l with
  | nil =>
    obtain ⟨h1, h2⟩ := h
    have hxz : x ≠ z := by simpa using hx
    exact ⟨⟨by rw [hn]; simp, by rw [hp, h1]; simp [hxz]⟩,
      ⟨by rw [hn, h1]; simp [hxa], by rw [hp, h1]; simp⟩⟩
  | cons b t =>
    obtain ⟨⟨h1, h2⟩, h3⟩ := h
    simp only [List.cons_append, List.nodup_cons, List.mem_cons, not_or, List.mem_append,
      List.mem_singleton] at hr hx ha
    refine ⟨⟨by rw [hn]; simp, by rw [hp, h1]; simp [hx.1]⟩,
      ⟨by rw [hn, h1]; simp [hxa], by rw [hp, h1]; simp⟩, ?_⟩
    refine path_congr h3 ?_ ?_
    · intro u hu
      simp only [List.mem_cons] at hu
      rw [hn, if_neg, if_neg]
      · rintro rfl; tauto
      · rintro rfl; tauto
    · intro u hu
      simp only [List.mem_append, List.mem_singleton] at hu
      rw [hp, h1, if_neg, if_neg]
      · rintro rfl; tauto
      · rintro rfl; tauto

/-! ## The four list moves, field by field -/

theorem unlink_allocated_next (m : Memory T) (x y : Ptr) :
    (unlink_allocated m x y).next_node =
      if y = (m x).previous_node then (m x).next_node else (m y).next_node := by
  simp only [unlink_allocated, set_next_node_next, set_previous_node_next,
    set_previous_node_previous, ite_self]

theorem unlink_allocated_previous (m : Memory T) (x y : Ptr) :
    (unlink_allocated m x y).previous_node =
      if y = (m x).next_node then (m x).previous_node else (m y).previous_node := by
  simp only [unlink_allocated, set_next_node_previous, set_previous_node_previous]

@[simp] theorem unlink_allocated_item (m : Memory T) (x y : Ptr) :
    (unlink_allocated m x y).item = (m y).item := by
  simp only [unlink_allocated, set_next_node_item, set_previous_node_item]

theorem unlink_freed_next (m : Memory T) (x y : Ptr) :
    (unlink_freed m x y).next_node =
      if y = (m x).previous_node then (m x).next_node else (m y).next_node := by
  simp only [unlink_freed, set_next_node_next, set_previous_node_next]

theorem unlink_freed_previous (m : Memory T) (x y : Ptr) :
    (unlink_freed m x y).previous_node =
      if y = (m x).next_node then (m x).previous_node else (m y).previous_node := by
  simp only [unlink_freed, set_next_node_previous, set_previous_node_previous,
    set_next_node_next, ite_self]

@[simp] theorem unlink_freed_item (m : Memory T) (x y : Ptr) :
    (unlink_freed m x y).item = (m y).item := by
  simp only [unlink_freed, set_next_node_item, set_previous_node_item]

theorem link_occupied_next (m : Memory T) (x y : Ptr) :
    (link_occupied m x y).next_node =
      if y = (m Ptr.occupied_nodes_).previous_node then x
      else if y = x then Ptr.occupied_nodes_ else (m y).next_node := by
  simp only [link_occupied, set_next_node_next, set_previous_node_next,
    set_previous_node_previous, set_next_node_previous, ite_self]

theorem link_occupied_previous (m : Memory T) (x y : Ptr) :
    (link_occupied m x y).previous_node =
      if y = Ptr.occupied_nodes_ then x
      else if y = x then (m Ptr.occupied_nodes_).previous_node else (m y).previous_node := by
  simp only [link_occupied, set_next_node_previous, set_previous_node_previous]

@[simp] theorem link_occupied_item (m : Memory T) (x y : Ptr) :
    (link_occupied m x y).item = (m y).item := by
  simp only [link_occupied, set_next_node_item, set_previous_node_item]

theorem link_free_next (m : Memory T) (x y : Ptr) :
    (link_free m x y).next_node =
      if y = Ptr.free_nodes_ then x
      else if y = x then (m Ptr.free_nodes_).next_node else (m y).next_node := by
  simp only [link_free, set_next_node_next, set_previous_node_next]

theorem link_free_previous (m : Memory T) (x y : Ptr) :
    (link_free m x y).previous_node =
      if y = (m Ptr.free_nodes_).next_node then x
      else if y = x then Ptr.free_nodes_ else (m y).previous_node := by
  simp only [link_free, set_next_node_previous, set_previous_node_previous,
    set_next_node_next, set_previous_node_next, ite_self]

@[simp] theorem link_free_item (m : Memory T) (x y : Ptr) :
    (link_free m x y).item = (m y).item := by
  simp only [link_free, set_next_node_item, set_previous_node_item]

/-! ## Growth arithmetic -/

/-- A growth step never leaves the estimate where it was. -/
theorem estimate_step_ne {F w x : Nat} (hF : 2 ≤ F) (hFw : F < 2 ^ w) (hx0 : 0 < x)
    (hxw : x < 2 ^ w) (hpar : F % 2 = 1 → x % 2 = 1) : x * F % 2 ^ w ≠ x := by
  intro h
  have hmod : x * F ≡ x [MOD 2 ^ w] := by
    unfold Nat.ModEq; rw [h, Nat.mod_eq_of_lt hxw]
  have hle : x ≤ x * F := Nat.le_mul_of_pos_right x (by omega)
  have hdvd : 2 ^ w ∣ x * F - x := (Nat.modEq_iff_dvd' hle).mp hmod.symm
  have hfac : x * F - x = x * (F - 1) := by
    rw [Nat.mul_sub, Nat.mul_one]
  rw [hfac] at hdvd
  rcases Nat.mod_two_eq_zero_or_one F with hev | hod
  · have hcop : Nat.Coprime (2 ^ w) (F - 1) := by
      apply Nat.Coprime.pow_left
      rw [Nat.coprime_two_left]
      rw [Nat.odd_iff]; omega
    have := hcop.dvd_of_dvd_mul_right hdvd
    have := Nat.le_of_dvd hx0 this
    omega
  · have hcop : Nat.Coprime (2 ^ w) x := by
      apply Nat.Coprime.pow_left
      rw [Nat.coprime_two_left]
      rw [Nat.odd_iff]; exact hpar hod
    have := hcop.dvd_of_dvd_mul_left hdvd
    have := Nat.le_of_dvd (by omega) this
    omega

theorem estimate_step_odd {F w x : Nat} (hFw : F < 2 ^ w) (hF : F % 2 = 1) (hx : x % 2 = 1) :
    x * F % 2 ^ w % 2 = 1 := by
  have hw : 1 ≤ w := by
    rcases Nat.eq_zero_or_pos w with h | h
    · subst h; simp at hFw; omega
    · exact h
  have h2 : 2 ∣ 2 ^ w := dvd_pow_self 2 (by omega)
  rw [Nat.mod_mod_of_dvd _ h2, Nat.mul_mod, hF, hx]

/-! ## The nodes of a page chain -/

theorem mem_slots {page : pyramid_page} {p : Ptr} :
    p ∈ slots page ↔ ∃ i, i < page.capacity ∧ p = Ptr.nodes page.base i := by
  simp only [slots, List.mem_map, List.mem_range]
  constructor
  · rintro ⟨i, hi, rfl⟩; exact ⟨i, hi, rfl⟩
  · rintro ⟨i, hi, rfl⟩; exact ⟨i, hi, rfl⟩

theorem slots_nodup (page : pyramid_page) : (slots page).Nodup := by
  unfold slots
  refine List.Nodup.map ?_ (List.nodup_range _)
  intro i j h
  simpa using h

theorem slots_length (page : pyramid_page) : (slots page).length = page.capacity := by
  simp [slots]

theorem mem_all_slots {pages : List pyramid_page} (hc : Chained pages) {p : Ptr}
    (hp : p ∈ all_slots pages) : ∃ b i, p = Ptr.nodes b i ∧ b < pages.length := by
  induction pages with
  | nil => simp [all_slots] at hp
  | cons page rest ih =>
    simp only [all_slots, List.mem_append] at hp
    rcases hp with hp | hp
    · obtain ⟨i, _, rfl⟩ := mem_slots.mp hp
      exact ⟨page.base, i, rfl, by rw [hc.1]; simp⟩
    · obtain ⟨b, i, rfl, hb⟩ := ih hc.2 hp
      exact ⟨b, i, rfl, by simp; omega⟩

theorem all_slots_nodup {pages : List pyramid_page} (hc : Chained pages) :
    (all_slots pages).Nodup := by
  induction pages with
  | nil => simp [all_slots]
  | cons page rest ih =>
    simp only [all_slots]
    rw [List.nodup_append]
    refine ⟨slots_nodup page, ih hc.2, ?_⟩
    intro p hp1 hp2
    obtain ⟨i, _, rfl⟩ := mem_slots.mp hp1
    obtain ⟨b, j, hbj, hb⟩ := mem_all_slots hc.2 hp2
    simp only [Ptr.nodes.injEq] at hbj
    have := hc.1
    omega

/-! ## The loop over a new page -/

theorem link_page_next (p : Nat) (is : List Nat) (m : Memory T) (q j : Nat) :
    (link_page p is m (Ptr.nodes q j)).next_node =
      if q = p ∧ j ∈ is then Ptr.nodes p (j + 1) else (m (Ptr.nodes q j)).next_node := by
  induction is generalizing m with
  | nil => simp [link_page]
  | cons i t ih =>
    simp only [link_page, ih, set_next_node_next, set_previous_node_next, Ptr.nodes.injEq,
      List.mem_cons]
    by_cases h1 : q = p ∧ j ∈ t
    · simp [h1]
    · by_cases h2 : q = p ∧ j = i
      · obtain ⟨rfl, rfl⟩ := h2; simp
      · rw [if_neg h1, if_neg h2, if_neg]; tauto

theorem link_page_previous (p : Nat) (is : List Nat) (m : Memory T) (q j : Nat) :
    (link_page p is m (Ptr.nodes q j)).previous_node =
      if q = p ∧ j ∈ is then Ptr.nodes p (j - 1) else (m (Ptr.nodes q j)).previous_node := by
  induction is generalizing m with
  | nil => simp [link_page]
  | cons i t ih =>
    simp only [link_page, ih, set_next_node_previous, set_previous_node_previous,
      Ptr.nodes.injEq, List.mem_cons]
    by_cases h1 : q = p ∧ j ∈ t
    · simp [h1]
    · by_cases h2 : q = p ∧ j = i
      · obtain ⟨rfl, rfl⟩ := h2; simp
      · rw [if_neg h1, if_neg h2, if_neg]; tauto

theorem link_page_item (p : Nat) (is : List Nat) (m : Memory T) (y : Ptr) :
    (link_page p is m y).item = (m y).item := by
  induction is generalizing m with
  | nil => simp [link_page]
  | cons i t ih => simp [link_page, ih]

theorem link_page_other (p : Nat) (is : List Nat) (m : Memory T) (y : Ptr)
    (hy : ∀ i ∈ is, y ≠ Ptr.nodes p i) : link_page p is m y = m y := by
  induction is generalizing m with
  | nil => simp [link_page]
  | cons i t ih =>
    simp only [link_page]
    rw [ih _ (fun i hi => hy i (List.mem_cons_of_mem _ hi))]
    have := hy i (by simp)
    simp [set_next_node, set_previous_node, this]

/-! ## The list moves on well-formed lists -/

/-- What lines 304-310 do to the two lists: the head `x` of the free list becomes
the tail of the occupied list. -/
theorem take_lists {m : Memory T} {occ fre : List Ptr} {x : Ptr}
    (hocc : Path m Ptr.occupied_nodes_ occ Ptr.occupied_nodes_)
    (hfree : Path m Ptr.free_nodes_ (x :: fre) Ptr.free_nodes_)
    (hnd : (occ ++ x :: fre).Nodup)
    (hslot : ∀ p ∈ occ ++ x :: fre, ∃ b i, p = Ptr.nodes b i) :
    Path (link_occupied (unlink_allocated m x) x) Ptr.occupied_nodes_ (occ ++ [x])
        Ptr.occupied_nodes_ ∧
      Path (link_occupied (unlink_allocated m x) x) Ptr.free_nodes_ fre Ptr.free_nodes_ ∧
      ∀ y, y ≠ Ptr.occupied_nodes_ → y ≠ Ptr.free_nodes_ → y ∉ occ ++ x :: fre →
        link_occupied (unlink_allocated m x) x y = m y := by
  have hnS : ∀ p ∈ occ ++ x :: fre, p ≠ Ptr.occupied_nodes_ ∧ p ≠ Ptr.free_nodes_ := by
    intro p hp
    obtain ⟨b, i, rfl⟩ := hslot p hp
    simp
  rw [List.nodup_append] at hnd
  obtain ⟨hndo, hndf, hdisj⟩ := hnd
  have hxo : x ∉ occ := fun h => hdisj h (by simp)
  have hpx : (m x).previous_node = Ptr.free_nodes_ := hfree.1.2
  have hnx := path_next_mem hfree.2
  have hpo := path_prev_mem hocc
  set m2 := unlink_allocated m x with hm2
  -- the free list without its head
  have hfree2 : Path m2 Ptr.free_nodes_ fre Ptr.free_nodes_ := by
    have := @path_unlink T m m2 Ptr.free_nodes_ x Ptr.free_nodes_ [] fre hfree.1 hfree.2
      (by
        simp only [List.nil_append, List.cons_append, List.nodup_cons]
        refine ⟨?_, List.nodup_cons.mp hndf⟩
        intro h
        exact (hnS _ (List.mem_append_right _ h)).2 rfl)
      (by
        simp only [List.nil_append]
        rw [List.nodup_append]
        refine ⟨hndf, by simp, ?_⟩
        intro p hp hp2
        simp only [List.mem_singleton] at hp2
        exact (hnS _ (List.mem_append_right _ hp)).2 hp2)
      (fun y => unlink_allocated_next m x y) (fun y => unlink_allocated_previous m x y)
    simpa using this
  have hocc2 : Path m2 Ptr.occupied_nodes_ occ Ptr.occupied_nodes_ := by
    refine path_congr hocc ?_ ?_
    · intro y hy
      rw [hm2, unlink_allocated_next, hpx, if_neg]
      rintro rfl
      simp only [List.mem_cons] at hy
      rcases hy with hy | hy
      · cases hy
      · exact (hnS _ (List.mem_append_left _ hy)).2 rfl
    · intro y hy
      rw [hm2, unlink_allocated_previous, if_neg]
      rintro rfl
      simp only [List.mem_append, List.mem_singleton] at hy hnx
      rcases hy with hy | hy <;> rcases hnx with hx | hx
      · exact hdisj hy (List.mem_cons_of_mem _ hx)
      · rw [hx] at hy; exact (hnS _ (List.mem_append_left _ hy)).2 rfl
      · rw [hy] at hx; exact (hnS _ (List.mem_append_right _ (List.mem_cons_of_mem _ hx))).1 rfl
      · rw [hx] at hy; cases hy
  have hpo2 : (m2 Ptr.occupied_nodes_).previous_node ∈ Ptr.occupied_nodes_ :: occ :=
    path_prev_mem hocc2
  refine ⟨?_, ?_, ?_⟩
  · refine path_push_back hocc2 ?_ ?_ ?_ ?_ (fun y => link_occupied_next m2 x y)
      (fun y => link_occupied_previous m2 x y)
    · rw [List.nodup_cons]
      exact ⟨fun h => (hnS _ (List.mem_append_left _ h)).1 rfl, hndo⟩
    · simp only [List.mem_cons, not_or]
      exact ⟨(hnS x (by simp)).1, hxo⟩
    · exact (hnS x (by simp)).1
    · exact fun h => (hnS _ (List.mem_append_left _ h)).1 rfl
  · refine path_congr hfree2 ?_ ?_
    · intro y hy
      rw [link_occupied_next, if_neg, if_neg]
      · intro hyx; rw [hyx] at hy
        simp only [List.mem_cons] at hy
        rcases hy with hy | hy
        · exact (hnS x (by simp)).2 hy
        · exact (List.nodup_cons.mp hndf).1 hy
      · rintro rfl
        simp only [List.mem_cons] at hy hpo2
        rcases hy with hy | hy <;> rcases hpo2 with h | h
        · rw [hy] at h; cases h
        · rw [hy] at h; exact (hnS _ (List.mem_append_left _ h)).2 rfl
        · rw [h] at hy
          exact (hnS _ (List.mem_append_right _ (List.mem_cons_of_mem _ hy))).1 rfl
        · exact hdisj h (List.mem_cons_of_mem _ hy)
    · intro y hy
      rw [link_occupied_previous, if_neg, if_neg]
      · intro hyx; rw [hyx] at hy
        simp only [List.mem_append, List.mem_singleton] at hy
        rcases hy with hy | hy
        · exact (List.nodup_cons.mp hndf).1 hy
        · exact (hnS x (by simp)).2 hy
      · rintro rfl
        simp only [List.mem_append, List.mem_singleton] at hy
        rcases hy with hy | hy
        · exact (hnS _ (List.mem_append_right _ (List.mem_cons_of_mem _ hy))).1 rfl
        · cases hy
  · intro y hy1 hy2 hy3
    have hyx : y ≠ x := fun h => hy3 (by simp [h])
    have hyn : y ≠ (m x).next_node := by
      rintro rfl
      simp only [List.mem_append, List.mem_singleton] at hnx
      rcases hnx with h | h
      · exact hy3 (List.mem_append_right _ (List.mem_cons_of_mem _ h))
      · exact hy2 h
    have hyp : y ≠ (m2 Ptr.occupied_nodes_).previous_node := by
      rintro rfl
      simp only [List.mem_cons] at hpo2
      rcases hpo2 with h | h
      · exact hy1 h
      · exact hy3 (List.mem_append_left _ h)
    apply node_ext
    · simp [hm2]
    · rw [link_occupied_previous, if_neg hy1, if_neg hyx, hm2, unlink_allocated_previous,
        if_neg hyn]
    · rw [link_occupied_next, if_neg hyp, if_neg hyx, hm2, unlink_allocated_next, hpx,
        if_neg hy2]

/-- What lines 319-324 do to the two lists: the node `x` leaves the occupied list
and becomes the head of the free list. -/
theorem give_lists {m : Memory T} {l1 l2 fre : List Ptr} {x : Ptr}
    (hocc : Path m Ptr.occupied_nodes_ (l1 ++ x :: l2) Ptr.occupied_nodes_)
    (hfree : Path m Ptr.free_nodes_ fre Ptr.free_nodes_)
    (hnd : ((l1 ++ x :: l2) ++ fre).Nodup)
    (hslot : ∀ p ∈ (l1 ++ x :: l2) ++ fre, ∃ b i, p = Ptr.nodes b i) :
    Path (link_free (unlink_freed m x) x) Ptr.occupied_nodes_ (l1 ++ l2)
        Ptr.occupied_nodes_ ∧
      Path (link_free (unlink_freed m x) x) Ptr.free_nodes_ (x :: fre) Ptr.free_nodes_ ∧
      ∀ y, y ≠ Ptr.occupied_nodes_ → y ≠ Ptr.free_nodes_ → y ∉ (l1 ++ x :: l2) ++ fre →
        link_free (unlink_freed m x) x y = m y := by
  have hnS : ∀ p ∈ (l1 ++ x :: l2) ++ fre, p ≠ Ptr.occupied_nodes_ ∧ p ≠ Ptr.free_nodes_ := by
    intro p hp
    obtain ⟨b, i, rfl⟩ := hslot p hp
    simp
  have hxm : x ∈ (l1 ++ x :: l2) ++ fre := by simp
  rw [List.nodup_append] at hnd
  obtain ⟨hndo, hndf, hdisj⟩ := hnd
  obtain ⟨h1, h2⟩ := path_append.mp hocc
  have hpx := path_prev_mem h1
  have hnx := path_next_mem h2
  have hxf : x ∉ fre := fun h => hdisj (by simp) h
  have hoS : Ptr.occupied_nodes_ ∉ l1 ++ x :: l2 :=
    fun h => (hnS _ (List.mem_append_left _ h)).1 rfl
  have hfS : Ptr.free_nodes_ ∉ fre := fun h => (hnS _ (List.mem_append_right _ h)).2 rfl
  have hfo : Ptr.free_nodes_ ∉ l1 ++ x :: l2 :=
    fun h => (hnS _ (List.mem_append_left _ h)).2 rfl
  have hof : Ptr.occupied_nodes_ ∉ fre := fun h => (hnS _ (List.mem_append_right _ h)).1 rfl
  have hsub1 : ∀ p ∈ l1, p ∈ l1 ++ x :: l2 := fun p hp => List.mem_append_left _ hp
  have hsub2 : ∀ p ∈ l2, p ∈ l1 ++ x :: l2 :=
    fun p hp => List.mem_append_right _ (List.mem_cons_of_mem _ hp)
  set m2 := unlink_freed m x with hm2
  have hocc2 : Path m2 Ptr.occupied_nodes_ (l1 ++ l2) Ptr.occupied_nodes_ := by
    refine path_unlink h1 h2 ?_ ?_ (fun y => unlink_freed_next m x y)
      (fun y => unlink_freed_previous m x y)
    · rw [List.cons_append, List.nodup_cons]; exact ⟨hoS, hndo⟩
    · rw [List.nodup_append]
      refine ⟨hndo, by simp, ?_⟩
      intro p hp hp2
      simp only [List.mem_singleton] at hp2
      rw [hp2] at hp; exact hoS hp
  have hfree2 : Path m2 Ptr.free_nodes_ fre Ptr.free_nodes_ := by
    refine path_congr hfree ?_ ?_
    · intro y hy
      rw [hm2, unlink_freed_next, if_neg]
      rintro rfl
      simp only [List.mem_cons] at hy hpx
      rcases hy with hy | hy <;> rcases hpx with h | h
      · rw [hy] at h; cases h
      · rw [hy] at h; exact hfo (hsub1 _ h)
      · rw [h] at hy; exact hof hy
      · exact hdisj (hsub1 _ h) hy
    · intro y hy
      rw [hm2, unlink_freed_previous, if_neg]
      rintro rfl
      simp only [List.mem_append, List.mem_singleton] at hy hnx
      rcases hy with hy | hy <;> rcases hnx with h | h
      · exact hdisj (hsub2 _ h) hy
      · rw [h] at hy; exact hof hy
      · rw [hy] at h; exact hfo (hsub2 _ h)
      · rw [hy] at h; cases h
  have hnf2 : (m2 Ptr.free_nodes_).next_node ∈ fre ++ [Ptr.free_nodes_] := path_next_mem hfree2
  have hxo2 : x ∉ l1 ++ l2 := by
    intro h
    have := List.nodup_middle.mp hndo
    exact (List.nodup_cons.mp this).1 h
  have hsub : ∀ p ∈ l1 ++ l2, p ∈ l1 ++ x :: l2 := by
    intro p hp
    simp only [List.mem_append, List.mem_cons] at hp ⊢
    tauto
  refine ⟨?_, ?_, ?_⟩
  · refine path_congr hocc2 ?_ ?_
    · intro y hy
      rw [link_free_next, if_neg, if_neg]
      · intro hyx; rw [hyx] at hy
        simp only [List.mem_cons] at hy
        rcases hy with hy | hy
        · exact (hnS x hxm).1 hy
        · exact hxo2 hy
      · rintro rfl
        simp only [List.mem_cons] at hy
        rcases hy with hy | hy
        · cases hy
        · exact hfo (hsub _ hy)
    · intro y hy
      rw [link_free_previous, if_neg, if_neg]
      · intro hyx; rw [hyx] at hy
        simp only [List.mem_append, List.mem_singleton] at hy
        rcases hy with hy | hy
        · exact hxo2 (by simpa using hy)
        · exact (hnS x hxm).1 hy
      · rintro rfl
        simp only [List.mem_append, List.mem_singleton] at hy hnf2
        rcases hy with hy | hy <;> rcases hnf2 with h | h
        · exact hdisj (hsub _ (by simpa using hy)) h
        · rw [h] at hy; exact hfo (hsub _ (by simpa using hy))
        · rw [hy] at h; exact hof h
        · rw [hy] at h; cases h
  · refine path_push_front hfree2 ?_ ?_ ?_ ?_ (fun y => link_free_next m2 x y)
      (fun y => link_free_previous m2 x y)
    · rw [List.nodup_append]
      refine ⟨hndf, by simp, ?_⟩
      intro p hp hp2
      simp only [List.mem_singleton] at hp2
      rw [hp2] at hp; exact hfS hp
    · simp only [List.mem_append, List.mem_singleton, not_or]
      exact ⟨hxf, (hnS x hxm).2⟩
    · exact (hnS x hxm).2
    · exact hfS
  · intro y hy1 hy2 hy3
    have hyx : y ≠ x := fun h => hy3 (by simp [h])
    have hyn : y ≠ (m x).next_node := by
      rintro rfl
      simp only [List.mem_append, List.mem_singleton] at hnx
      rcases hnx with h | h
      · exact hy3 (List.mem_append_left _ (hsub2 _ h))
      · exact hy1 h
    have hyp : y ≠ (m x).previous_node := by
      rintro rfl
      simp only [List.mem_cons] at hpx
      rcases hpx with h | h
      · exact hy1 h
      · exact hy3 (List.mem_append_left _ (hsub1 _ h))
    have hyf : y ≠ (m2 Ptr.free_nodes_).next_node := by
      rintro rfl
      simp only [List.mem_append, List.mem_singleton] at hnf2
      rcases hnf2 with h | h
      · exact hy3 (List.mem_append_right _ h)
      · exact hy2 h
    apply node_ext
    · simp [hm2]
    · rw [link_free_previous, if_neg hyf, if_neg hyx, hm2, unlink_freed_previous, if_neg hyn]
    · rw [link_free_next, if_neg hy2, if_neg hyx, hm2, unlink_freed_next, if_neg hyp]

theorem path_set_item {m : Memory T} {a z : Ptr} {l : List Ptr} (h : Path m a l z) (p : Ptr)
    (v : Option T) : Path (set_item m p v) a l z :=
  path_congr h (fun _ _ => by simp) (fun _ _ => by simp)

theorem path_next_head {m : Memory T} {a z : Ptr} {l : List Ptr} (h : Path m a l z) :
    (l ++ [z]).head? = some (m a).next_node := by
  cases l with
  | nil => simp [h.1]
  | cons b t => simp [h.1.1]

/-! ## A new page as free list -/

theorem path_run {m : Memory T} {n c : Nat}
    (hstep : ∀ i, i + 1 < c → (m (Ptr.nodes n i)).next_node = Ptr.nodes n (i + 1) ∧
      (m (Ptr.nodes n (i + 1))).previous_node = Ptr.nodes n i)
    (hl : (m (Ptr.nodes n (c - 1))).next_node = Ptr.free_nodes_)
    (hl1 : (m Ptr.free_nodes_).previous_node = Ptr.nodes n (c - 1)) :
    ∀ k i, i + k + 1 = c →
      Path m (Ptr.nodes n i) ((List.range' (i + 1) k).map (Ptr.nodes n)) Ptr.free_nodes_ := by
  intro k
  induction k with
  | zero =>
    intro i hi
    have : c - 1 = i := by omega
    rw [this] at hl hl1
    exact ⟨hl, hl1⟩
  | succ k ih =>
    intro i hi
    simp only [List.range'_succ, List.map_cons]
    exact ⟨hstep i (by omega), ih (i + 1) (by omega)⟩

theorem path_slots {m : Memory T} {n c : Nat} (hc : 1 ≤ c)
    (h0 : (m Ptr.free_nodes_).next_node = Ptr.nodes n 0)
    (h01 : (m (Ptr.nodes n 0)).previous_node = Ptr.free_nodes_)
    (hstep : ∀ i, i + 1 < c → (m (Ptr.nodes n i)).next_node = Ptr.nodes n (i + 1) ∧
      (m (Ptr.nodes n (i + 1))).previous_node = Ptr.nodes n i)
    (hl : (m (Ptr.nodes n (c - 1))).next_node = Ptr.free_nodes_)
    (hl1 : (m Ptr.free_nodes_).previous_node = Ptr.nodes n (c - 1)) :
    Path m Ptr.free_nodes_ (slots ⟨n, c⟩) Ptr.free_nodes_ := by
  obtain ⟨k, rfl⟩ : ∃ k, c = k + 1 := ⟨c - 1, by omega⟩
  simp only [slots, List.range_eq_range', List.range'_succ, List.map_cons]
  exact ⟨⟨h0, h01⟩, path_run hstep hl hl1 k 0 (by omega)⟩

theorem append_page_next {w c : Nat} (s : pyramid T) (hc : 1 ≤ c) (hcw : c < 2 ^ w)
    (y : Ptr) :
    ((append_page w c s).memory y).next_node =
      if y = Ptr.nodes s.pages_.length (c - 1) then Ptr.free_nodes_
      else if y = Ptr.free_nodes_ then Ptr.nodes s.pages_.length 0
      else (link_page s.pages_.length (List.range c) s.memory y).next_node := by
  have hlast : (c + 2 ^ w - 1) % 2 ^ w = c - 1 := by
    have : c + 2 ^ w - 1 = (c - 1) + 2 ^ w := by omega
    rw [this, Nat.add_mod_right, Nat.mod_eq_of_lt (by omega)]
  simp only [append_page, hlast, set_next_node_next, set_previous_node_next]

theorem append_page_previous {w c : Nat} (s : pyramid T) (hc : 1 ≤ c) (hcw : c < 2 ^ w)
    (y : Ptr) :
    ((append_page w c s).memory y).previous_node =
      if y = Ptr.free_nodes_ then Ptr.nodes s.pages_.length (c - 1)
      else if y = Ptr.nodes s.pages_.length 0 then Ptr.free_nodes_
      else (link_page s.pages_.length (List.range c) s.memory y).previous_node := by
  have hlast : (c + 2 ^ w - 1) % 2 ^ w = c - 1 := by
    have : c + 2 ^ w - 1 = (c - 1) + 2 ^ w := by omega
    rw [this, Nat.add_mod_right, Nat.mod_eq_of_lt (by omega)]
  simp only [append_page, hlast, set_next_node_previous, set_previous_node_previous]

theorem append_page_item {w c : Nat} (s : pyramid T) (y : Ptr) :
    ((append_page w c s).memory y).item = (s.memory y).item := by
  simp only [append_page, set_next_node_item, set_previous_node_item, link_page_item]

theorem append_page_other {w c : Nat} (s : pyramid T) (hc : 1 ≤ c) (hcw : c < 2 ^ w)
    (y : Ptr) (hy : y ≠ Ptr.free_nodes_) (hy2 : ∀ i, i < c → y ≠ Ptr.nodes s.pages_.length i) :
    (append_page w c s).memory y = s.memory y := by
  have hoth : link_page s.pages_.length (List.range c) s.memory y = s.memory y :=
    link_page_other _ _ _ _ (fun i hi => hy2 i (List.mem_range.mp hi))
  apply node_ext
  · rw [append_page_item]
  · rw [append_page_previous s hc hcw, if_neg hy, if_neg (hy2 0 (by omega)), hoth]
  · rw [append_page_next s hc hcw, if_neg (hy2 (c - 1) (by omega)), if_neg hy, hoth]

theorem append_page_free {w c : Nat} (s : pyramid T) (hc : 1 ≤ c) (hcw : c < 2 ^ w) :
    Path (append_page w c s).memory Ptr.free_nodes_ (slots ⟨s.pages_.length, c⟩)
      Ptr.free_nodes_ := by
  refine path_slots hc ?_ ?_ ?_ ?_ ?_
  · rw [append_page_next s hc hcw]; simp
  · rw [append_page_previous s hc hcw]; simp
  · intro i hi
    constructor
    · rw [append_page_next s hc hcw, if_neg, if_neg, link_page_next, if_pos]
      · exact ⟨rfl, List.mem_range.mpr (by omega)⟩
      · simp
      · simp only [Ptr.nodes.injEq, true_and]; omega
    · rw [append_page_previous s hc hcw, if_neg, if_neg, link_page_previous, if_pos]
      · simp
      · exact ⟨rfl, List.mem_range.mpr (by omega)⟩
      · simp
      · simp
  · rw [append_page_next s hc hcw]; simp
  · rw [append_page_previous s hc hcw]; simp

/-! ## The invariant is kept -/

theorem WellFormed.slot {F w : Nat} {s : pyramid T} {occ fre : List Ptr}
    (h : WellFormed F w s occ fre) {p : Ptr} (hp : p ∈ occ ++ fre) :
    ∃ b i, p = Ptr.nodes b i ∧ b < s.pages_.length :=
  mem_all_slots h.chained (h.perm.subset hp)

theorem WellFormed.nodup {F w : Nat} {s : pyramid T} {occ fre : List Ptr}
    (h : WellFormed F w s occ fre) : (occ ++ fre).Nodup :=
  h.perm.nodup_iff.mpr (all_slots_nodup h.chained)

theorem wf_new {F w : Nat} (hF : 1 ≤ F) (hFw : F < 2 ^ w) :
    WellFormed F w (pyramid.new T F) [] [] := by
  refine ⟨?_, ?_, ?_, ?_, rfl, rfl, ?_, hFw, fun h => h, ?_, ?_, ?_, ?_, ?_⟩
  · constructor <;> simp [pyramid.new, init]
  · constructor <;> simp [pyramid.new, init]
  · simp [pyramid.new, init, all_slots]
  · simp [pyramid.new, init, Chained]
  · simp only [pyramid.new, init]; omega
  · intro p hp; cases hp
  · intro b i _
    simp [pyramid.new, init, raw, set_next_node, set_previous_node]
  · simp [pyramid.new, init, raw, set_next_node, set_previous_node]
  · simp [pyramid.new, init, raw, blank]
  · simp [pyramid.new, init, raw, blank]

/-- A growth step that finds memory: the new page is the free list. -/
theorem wf_append_page {F w : Nat} {s : pyramid T} {occ : List Ptr} (hF : 2 ≤ F)
    (hFw : F < 2 ^ w) (h : WellFormed F w s occ [])
    (hge : ¬ s.next_page_estimate_ * F % 2 ^ w < s.next_page_estimate_) :
    1 ≤ page_capacity w s ∧
    WellFormed F w
      (append_page w (page_capacity w s)
        { s with next_page_estimate_ := s.next_page_estimate_ * F % 2 ^ w })
      occ (slots ⟨s.pages_.length, page_capacity w s⟩) := by
  have hsz := h.size_eq
  have hcap := h.capacity_eq
  have hgt := h.estimate_gt
  have hlt := h.estimate_lt
  simp only [List.length_nil, Nat.add_zero] at hcap
  have hc : page_capacity w s = s.next_page_estimate_ - s.size_ := by
    unfold page_capacity
    have : s.next_page_estimate_ + 2 ^ w - s.size_ =
        (s.next_page_estimate_ - s.size_) + 2 ^ w := by omega
    rw [this, Nat.add_mod_right, Nat.mod_eq_of_lt (by omega)]
  have hc1 : 1 ≤ page_capacity w s := by omega
  have hcw : page_capacity w s < 2 ^ w := by omega
  have hne := estimate_step_ne hF hFw (x := s.next_page_estimate_) (by omega) hlt h.parity
  refine ⟨hc1, ?_⟩
  set s1 : pyramid T := { s with next_page_estimate_ := s.next_page_estimate_ * F % 2 ^ w }
    with hs1
  have hslot : ∀ p ∈ occ, ∃ b i, p = Ptr.nodes b i ∧ b < s.pages_.length :=
    fun p hp => h.slot (List.mem_append_left _ hp)
  have hoth : ∀ p, (p = Ptr.occupied_nodes_ ∨ p ∈ occ) →
      (append_page w (page_capacity w s) s1).memory p = s.memory p := by
    intro p hp
    refine append_page_other s1 hc1 hcw p ?_ ?_
    · rcases hp with rfl | hp
      · simp
      · obtain ⟨b, i, rfl, _⟩ := hslot p hp; simp
    · intro i _
      rcases hp with rfl | hp
      · simp
      · obtain ⟨b, j, rfl, hb⟩ := hslot p hp
        simp only [hs1, ne_eq, Ptr.nodes.injEq, not_and]
        omega
  refine ⟨?_, append_page_free s1 hc1 hcw, ?_, ?_, ?_, ?_, ?_, ?_, ?_, ?_, ?_, ?_, ?_, ?_⟩
  · refine path_congr h.occupied ?_ ?_
    · intro y hy
      rw [hoth y (by simpa using hy)]
    · intro y hy
      rw [hoth y (by simp only [List.mem_append, List.mem_singleton] at hy; tauto)]
  · have := h.perm
    simp only [List.append_nil] at this
    simp only [append_page, all_slots, hs1]
    exact (List.perm_append_comm).trans (List.Perm.append_left _ this)
  · exact ⟨rfl, h.chained⟩
  · exact hsz
  · simp only [append_page, hs1, slots_length]
    rw [hc, hcap, Nat.mod_eq_of_lt (by omega)]
  · simp only [append_page, hs1]
    rw [hc, hcap, Nat.mod_eq_of_lt (by omega)]
    omega
  · simp only [append_page, hs1]
    exact Nat.mod_lt _ (by positivity)
  · intro hodd
    simp only [append_page, hs1]
    exact estimate_step_odd hFw hodd (h.parity hodd)
  · intro p hp
    rw [append_page_item]
    exact h.live p hp
  · intro b i hb
    simp only [append_page, List.length_cons] at hb
    rw [append_page_other s1 hc1 hcw _ (by simp)]
    · exact h.unmapped b i (by omega)
    · intro j _
      simp only [hs1, ne_eq, Ptr.nodes.injEq, not_and]
      omega
  · rw [append_page_other s1 hc1 hcw _ (by simp) (by simp)]
    exact h.null_blank
  · rw [append_page_item]; exact h.free_item
  · rw [append_page_item]; exact h.occupied_item

/-- Lines 304-312 followed by the placement construction of `insert`. -/
theorem wf_take_node {F w : Nat} {s : pyramid T} {occ fre : List Ptr} {x : Ptr}
    (h : WellFormed F w s occ (x :: fre)) (v : T) :
    (take_node w s).2 = x ∧
    WellFormed F w
      { (take_node w s).1 with memory := set_item (take_node w s).1.memory x (some v) }
      (occ ++ [x]) fre := by
  have hx : (s.memory Ptr.free_nodes_).next_node = x := h.free.1.1
  have hslot : ∀ p ∈ occ ++ x :: fre, ∃ b i, p = Ptr.nodes b i :=
    fun p hp => by obtain ⟨b, i, hp, _⟩ := h.slot hp; exact ⟨b, i, hp⟩
  obtain ⟨ho, hf, hoth⟩ := take_lists h.occupied h.free h.nodup hslot
  have hsz := h.size_eq
  have hcap := h.capacity_eq
  have hgt := h.estimate_gt
  have hlt := h.estimate_lt
  simp only [List.length_cons] at hcap
  have hxs : ∃ b i, x = Ptr.nodes b i ∧ b < s.pages_.length := h.slot (by simp)
  refine ⟨hx, ?_⟩
  simp only [take_node, hx]
  refine ⟨path_set_item ho _ _, path_set_item hf _ _, ?_, h.chained, ?_, ?_, hgt, hlt,
    h.parity, ?_, ?_, ?_, ?_, ?_⟩
  · refine List.Perm.trans ?_ h.perm
    simp only [List.append_assoc, List.singleton_append]
    exact List.Perm.refl _
  · simp only [List.length_append, List.length_singleton]
    rw [Nat.mod_eq_of_lt (by omega)]; omega
  · simp only [List.length_append, List.length_singleton]; omega
  · intro p hp
    simp only [set_item_item, link_occupied_item, unlink_allocated_item]
    split_ifs with hpx
    · rfl
    · simp only [List.mem_append, List.mem_singleton] at hp
      exact h.live p (by tauto)
  · intro b i hb
    obtain ⟨bx, ix, rfl, hbx⟩ := hxs
    replace hb : s.pages_.length ≤ b := hb
    have hne : Ptr.nodes b i ≠ Ptr.nodes bx ix := by
      simp only [ne_eq, Ptr.nodes.injEq, not_and]; omega
    simp only [set_item, if_neg hne]
    rw [hoth _ (by simp) (by simp)]
    · exact h.unmapped b i hb
    · intro hmem
      obtain ⟨b1, i1, h1, h2⟩ := h.slot hmem
      simp only [Ptr.nodes.injEq] at h1
      omega
  · obtain ⟨bx, ix, rfl, hbx⟩ := hxs
    simp only [set_item, if_neg (show Ptr.null ≠ Ptr.nodes bx ix by simp)]
    rw [hoth _ (by simp) (by simp)]
    · exact h.null_blank
    · intro hmem
      obtain ⟨b1, i1, h1, h2⟩ := h.slot hmem
      cases h1
  · obtain ⟨bx, ix, rfl, hbx⟩ := hxs
    simp only [set_item_item, link_occupied_item, unlink_allocated_item]
    rw [if_neg (by simp)]; exact h.free_item
  · obtain ⟨bx, ix, rfl, hbx⟩ := hxs
    simp only [set_item_item, link_occupied_item, unlink_allocated_item]
    rw [if_neg (by simp)]; exact h.occupied_item

/-- A failed growth step keeps the lists; only the estimate has moved. -/
theorem wf_estimate {F w : Nat} {s : pyramid T} {occ fre : List Ptr} (hFw : F < 2 ^ w)
    (h : WellFormed F w s occ fre)
    (hge : ¬ s.next_page_estimate_ * F % 2 ^ w < s.next_page_estimate_) :
    WellFormed F w { s with next_page_estimate_ := s.next_page_estimate_ * F % 2 ^ w }
      occ fre := by
  have hgt := h.estimate_gt
  refine ⟨h.occupied, h.free, h.perm, h.chained, h.size_eq, h.capacity_eq, ?_, ?_, ?_, h.live,
    h.unmapped, h.null_blank, h.free_item, h.occupied_item⟩
  · show s.capacity_ < s.next_page_estimate_ * F % 2 ^ w
    omega
  · exact Nat.mod_lt _ (by positivity)
  · intro hodd
    exact estimate_step_odd hFw hodd (h.parity hodd)

/-- The bytes asked for hold a page of at least one node exactly when their number
does not wrap. -/
theorem page_fits_iff [Layout T] {w c : Nat} (hc : c < 2 ^ w) :
    page_fits T w c = true ↔
      1 ≤ c ∧ Layout.sizeof_page T + (c - 1) * Layout.sizeof_node T < 2 ^ w := by
  have hn : 0 < Layout.sizeof_node T := Layout.node_pos
  have hp : Layout.sizeof_node T ≤ Layout.sizeof_page T := Layout.node_le_page
  have hpos : 0 < 2 ^ w := by positivity
  unfold page_fits node_in_block page_bytes nodes_size
  rw [decide_eq_true_iff]
  rcases Nat.eq_zero_or_pos c with h0 | h1
  · subst h0
    have hlast : (0 + 2 ^ w - 1) % 2 ^ w = 2 ^ w - 1 := by
      rw [Nat.zero_add]; exact Nat.mod_eq_of_lt (by omega)
    rw [hlast]
    have hb := Nat.mod_lt (Layout.sizeof_page T +
      (2 ^ w - 1) * Layout.sizeof_node T % 2 ^ w) hpos
    have hk : 2 ^ w - 1 + 1 = 2 ^ w := by omega
    have hm : 2 ^ w ≤ 2 ^ w * Layout.sizeof_node T := Nat.le_mul_of_pos_right _ hn
    rw [hk]
    constructor
    · intro h; omega
    · intro h; omega
  · have hlast : (c + 2 ^ w - 1) % 2 ^ w = c - 1 := by
      have : c + 2 ^ w - 1 = (c - 1) + 2 ^ w := by omega
      rw [this, Nat.add_mod_right, Nat.mod_eq_of_lt (by omega)]
    rw [hlast, Nat.add_mod_mod]
    have hk : c - 1 + 1 = (c - 1) + 1 := rfl
    have hmul : (c - 1 + 1) * Layout.sizeof_node T =
        (c - 1) * Layout.sizeof_node T + Layout.sizeof_node T := by ring
    rw [hmul]
    constructor
    · intro h
      refine ⟨h1, ?_⟩
      by_contra hge
      have hb := Nat.mod_lt (Layout.sizeof_page T + (c - 1) * Layout.sizeof_node T) hpos
      omega
    · rintro ⟨_, hlt⟩
      rw [Nat.mod_eq_of_lt hlt]
      omega

/-- What `insert` does to a well-formed arena. -/
theorem wf_insert [Layout T] {F w : Nat} {s : pyramid T} {occ fre : List Ptr} (hF : 2 ≤ F)
    (hFw : F < 2 ^ w) (h : WellFormed F w s occ fre) (ok : Bool) (v : T) :
    (∃ s1 x fre1, insert F w ok v s = Outcome.returned s1 x ∧
        WellFormed F w s1 (occ ++ [x]) fre1 ∧
        (∀ y, (s1.memory y).item = if y = x then some v else (s.memory y).item) ∧
        ((s.capacity_ ≠ s.size_ ∧ fre = x :: fre1 ∧ s1.pages_ = s.pages_ ∧
            s1.capacity_ = s.capacity_ ∧ s1.next_page_estimate_ = s.next_page_estimate_) ∨
          (s.capacity_ = s.size_ ∧ fre = [] ∧ ok = true ∧
            ¬ s.next_page_estimate_ * F % 2 ^ w < s.next_page_estimate_ ∧
            page_fits T w (page_capacity w s) = true ∧
            x :: fre1 = slots ⟨s.pages_.length, page_capacity w s⟩ ∧
            s1.pages_ = ⟨s.pages_.length, page_capacity w s⟩ :: s.pages_ ∧
            s1.capacity_ = s.next_page_estimate_ ∧
            s1.next_page_estimate_ = s.next_page_estimate_ * F % 2 ^ w))) ∨
    (∃ s1, insert F w ok v s = Outcome.thrown Exception.bad_alloc s1 ∧
        WellFormed F w s1 occ fre ∧ s.capacity_ = s.size_ ∧ s1.memory = s.memory ∧
        s1.pages_ = s.pages_ ∧ s1.capacity_ = s.capacity_ ∧ s1.size_ = s.size_ ∧
        ((s.next_page_estimate_ * F % 2 ^ w < s.next_page_estimate_ ∧ s1 = s) ∨
          (¬ s.next_page_estimate_ * F % 2 ^ w < s.next_page_estimate_ ∧ ok = false ∧
            s1.next_page_estimate_ = s.next_page_estimate_ * F % 2 ^ w))) ∨
    (insert F w ok v s = Outcome.undefined
          { s with next_page_estimate_ := s.next_page_estimate_ * F % 2 ^ w } ∧
        s.capacity_ = s.size_ ∧ ok = true ∧
        ¬ s.next_page_estimate_ * F % 2 ^ w < s.next_page_estimate_ ∧
        page_fits T w (page_capacity w s) = false) := by
  have hsz := h.size_eq
  have hcap := h.capacity_eq
  by_cases hfull : s.capacity_ = s.size_
  · have hfre : fre = [] := by
      apply List.eq_nil_of_length_eq_zero; omega
    subst hfre
    by_cases hov : s.next_page_estimate_ * F % 2 ^ w < s.next_page_estimate_
    · right; left
      refine ⟨s, ?_, h, hfull, rfl, rfl, rfl, rfl, Or.inl ⟨hov, rfl⟩⟩
      simp [pyramid.insert, allocate_node, hfull, hov]
    · cases ok with
      | false =>
        right; left
        refine ⟨{ s with next_page_estimate_ := s.next_page_estimate_ * F % 2 ^ w }, ?_,
          wf_estimate hFw h hov, hfull, rfl, rfl, rfl, rfl, Or.inr ⟨hov, rfl, rfl⟩⟩
        simp [pyramid.insert, allocate_node, hfull, hov]
      | true =>
        by_cases hfit : page_fits T w (page_capacity w s) = true
        swap
        · right; right
          have hfit2 : page_fits T w (page_capacity w s) = false := by
            cases hb : page_fits T w (page_capacity w s) with
            | false => rfl
            | true => exact absurd hb hfit
          refine ⟨?_, hfull, rfl, hov, hfit2⟩
          unfold pyramid.insert allocate_node
          rw [if_pos hfull]
          simp only [hov, hfit2, ↓reduceIte, Bool.false_eq_true]
        left
        obtain ⟨hc1, hwf⟩ := wf_append_page hF hFw h hov
        obtain ⟨x, fre1, hxf⟩ : ∃ x fre1,
            slots ⟨s.pages_.length, page_capacity w s⟩ = x :: fre1 := by
          cases hsl : slots ⟨s.pages_.length, page_capacity w s⟩ with
          | nil =>
            have := slots_length ⟨s.pages_.length, page_capacity w s⟩
            rw [hsl] at this
            simp at this
            omega
          | cons x t => exact ⟨x, t, rfl⟩
        rw [hxf] at hwf
        obtain ⟨hx, hwf2⟩ := wf_take_node hwf v
        refine ⟨_, x, fre1, ?_, hwf2, ?_,
          Or.inr ⟨hfull, rfl, rfl, hov, hfit, hxf.symm, ?_, ?_, ?_⟩⟩
        · subst hx
          unfold pyramid.insert allocate_node
          rw [if_pos hfull]
          simp only [hov, hfit, ↓reduceIte]
        · intro y
          simp only [take_node, set_item_item, link_occupied_item, unlink_allocated_item,
            append_page_item]
        · simp [take_node, append_page]
        · have hgt := h.estimate_gt
          have hlt := h.estimate_lt
          simp only [take_node, append_page, page_capacity]
          have : s.next_page_estimate_ + 2 ^ w - s.size_ =
              (s.next_page_estimate_ - s.size_) + 2 ^ w := by omega
          rw [this, Nat.add_mod_right, Nat.mod_eq_of_lt (a := s.next_page_estimate_ - s.size_)
            (by omega), Nat.mod_eq_of_lt (by omega)]
          omega
        · simp [take_node, append_page]
  · have hfre : ∃ x fre1, fre = x :: fre1 := by
      cases fre with
      | nil => simp at hcap; omega
      | cons x t => exact ⟨x, t, rfl⟩
    obtain ⟨x, fre1, rfl⟩ := hfre
    left
    obtain ⟨hx, hwf2⟩ := wf_take_node h v
    refine ⟨_, x, fre1, ?_, hwf2, ?_, Or.inl ⟨hfull, rfl, ?_, ?_, ?_⟩⟩
    · subst hx
      unfold pyramid.insert allocate_node
      rw [if_neg hfull]
    · intro y
      simp only [take_node, set_item_item, link_occupied_item, unlink_allocated_item]
    · simp [take_node]
    · simp [take_node]
    · simp [take_node]

/-- What `erase` does to a well-formed arena, given a live handle. -/
theorem wf_erase {F w : Nat} {s : pyramid T} {l1 l2 fre : List Ptr} {x : Ptr}
    (h : WellFormed F w s (l1 ++ x :: l2) fre) :
    WellFormed F w (erase w s x).1 (l1 ++ l2) (x :: fre) ∧
    (l2 ++ [Ptr.occupied_nodes_]).head? = some (erase w s x).2 ∧
    (∀ y, ((erase w s x).1.memory y).item = if y = x then none else (s.memory y).item) ∧
    (erase w s x).1.pages_ = s.pages_ ∧ (erase w s x).1.capacity_ = s.capacity_ ∧
    (erase w s x).1.next_page_estimate_ = s.next_page_estimate_ ∧
    (erase w s x).1.size_ + 1 = s.size_ := by
  have hslot : ∀ p ∈ (l1 ++ x :: l2) ++ fre, ∃ b i, p = Ptr.nodes b i :=
    fun p hp => by obtain ⟨b, i, hp, _⟩ := h.slot hp; exact ⟨b, i, hp⟩
  have ho0 := path_set_item h.occupied x none
  have hf0 := path_set_item h.free x none
  obtain ⟨ho, hf, hoth⟩ := give_lists ho0 hf0 h.nodup hslot
  have hsz := h.size_eq
  have hcap := h.capacity_eq
  have hgt := h.estimate_gt
  have hlt := h.estimate_lt
  simp only [List.length_append, List.length_cons] at hsz hcap
  have hxs : ∃ b i, x = Ptr.nodes b i ∧ b < s.pages_.length := h.slot (by simp)
  have hitem : ∀ y, ((erase w s x).1.memory y).item = if y = x then none else (s.memory y).item := by
    intro y
    simp only [erase, free_node, link_free_item, unlink_freed_item, set_item_item]
  have hsize : (s.size_ + 2 ^ w - 1) % 2 ^ w = s.size_ - 1 := by
    have : s.size_ + 2 ^ w - 1 = (s.size_ - 1) + 2 ^ w := by omega
    rw [this, Nat.add_mod_right, Nat.mod_eq_of_lt (by omega)]
  refine ⟨?_, ?_, hitem, rfl, rfl, rfl, ?_⟩
  · refine ⟨ho, hf, ?_, h.chained, ?_, ?_, hgt, hlt, h.parity, ?_, ?_, ?_, ?_, ?_⟩
    · refine List.Perm.trans ?_ h.perm
      simp only [List.append_assoc, List.cons_append]
      refine List.Perm.append_left _ ?_
      exact List.perm_middle
    · show (s.size_ + 2 ^ w - 1) % 2 ^ w = (l1 ++ l2).length
      rw [hsize, List.length_append]; omega
    · show s.capacity_ = (l1 ++ l2).length + (x :: fre).length
      simp only [List.length_append, List.length_cons]; omega
    · intro p hp
      rw [hitem, if_neg]
      · exact h.live p (by simp only [List.mem_append, List.mem_cons] at hp ⊢; tauto)
      · rintro rfl
        have := h.nodup
        rw [List.nodup_append] at this
        have := List.nodup_middle.mp this.1
        exact (List.nodup_cons.mp this).1 hp
    · intro b i hb
      replace hb : s.pages_.length ≤ b := hb
      show link_free (unlink_freed (set_item s.memory x none) x) x (Ptr.nodes b i) = blank T
      rw [hoth _ (by simp) (by simp)]
      · obtain ⟨bx, ix, rfl, hbx⟩ := hxs
        have hne : Ptr.nodes b i ≠ Ptr.nodes bx ix := by
          simp only [ne_eq, Ptr.nodes.injEq, not_and]; omega
        simp only [set_item, if_neg hne]
        exact h.unmapped b i hb
      · intro hmem
        obtain ⟨b1, i1, h1, h2⟩ := h.slot hmem
        simp only [Ptr.nodes.injEq] at h1
        omega
    · show link_free (unlink_freed (set_item s.memory x none) x) x Ptr.null = blank T
      rw [hoth _ (by simp) (by simp)]
      · obtain ⟨bx, ix, rfl, hbx⟩ := hxs
        simp only [set_item, if_neg (show Ptr.null ≠ Ptr.nodes bx ix by simp)]
        exact h.null_blank
      · intro hmem
        obtain ⟨b1, i1, h1, h2⟩ := h.slot hmem
        cases h1
    · obtain ⟨bx, ix, rfl, hbx⟩ := hxs
      rw [hitem, if_neg (by simp)]; exact h.free_item
    · obtain ⟨bx, ix, rfl, hbx⟩ := hxs
      rw [hitem, if_neg (by simp)]; exact h.occupied_item
  · have := path_next_head (path_append.mp h.occupied).2
    rw [this]
    rfl
  · show (s.size_ + 2 ^ w - 1) % 2 ^ w + 1 = s.size_
    rw [hsize]; omega

/-- Assignment through a live handle keeps the lists. -/
theorem wf_assign {F w : Nat} {s : pyramid T} {occ fre : List Ptr}
    (h : WellFormed F w s occ fre) {x : Ptr} (hx : x ∈ occ) (v : T) :
    WellFormed F w (assign s x v) occ fre := by
  obtain ⟨bx, ix, rfl, hbx⟩ := h.slot (List.mem_append_left _ hx)
  refine ⟨path_set_item h.occupied _ _, path_set_item h.free _ _, h.perm, h.chained, h.size_eq,
    h.capacity_eq, h.estimate_gt, h.estimate_lt, h.parity, ?_, ?_, ?_, ?_, ?_⟩
  · intro p hp
    simp only [assign, set_item_item]
    split_ifs
    · rfl
    · exact h.live p hp
  · intro b i hb
    replace hb : s.pages_.length ≤ b := hb
    have hne : Ptr.nodes b i ≠ Ptr.nodes bx ix := by
      simp only [ne_eq, Ptr.nodes.injEq, not_and]; omega
    simp only [assign, set_item, if_neg hne]
    exact h.unmapped b i hb
  · simp only [assign, set_item, if_neg (show Ptr.null ≠ Ptr.nodes bx ix by simp)]
    exact h.null_blank
  · simp only [assign, set_item_item]
    rw [if_neg (by simp)]; exact h.free_item
  · simp only [assign, set_item_item]
    rw [if_neg (by simp)]; exact h.occupied_item

/-! ## Iteration over a well-formed arena -/

theorem walk_path (s : pyramid T) {a : Ptr} {l : List Ptr}
    (h : Path s.memory a l Ptr.occupied_nodes_) (hl : Ptr.occupied_nodes_ ∉ l) (fuel : Nat) :
    walk s fuel (s.memory a).next_node = l.take fuel := by
  induction l generalizing a fuel with
  | nil =>
    cases fuel with
    | zero => simp [walk]
    | succ f => simp [walk, h.1, end_]
  | cons b t ih =>
    cases fuel with
    | zero => simp [walk]
    | succ f =>
      have hb : b ≠ Ptr.occupied_nodes_ := fun hb => hl (by simp [hb])
      simp only [walk, h.1.1, end_, if_neg hb, List.take_succ_cons, pyramid.next]
      rw [ih h.2 (fun h1 => hl (List.mem_cons_of_mem _ h1))]

theorem collect_path (s : pyramid T) {a : Ptr} {l : List Ptr} {vs : List T}
    (h : Path s.memory a l Ptr.occupied_nodes_) (hl : Ptr.occupied_nodes_ ∉ l)
    (hv : l.map (deref s) = vs.map some) {fuel : Nat} (hf : l.length ≤ fuel) :
    collect s fuel (s.memory a).next_node = some vs := by
  induction l generalizing a fuel vs with
  | nil =>
    have : vs = [] := by
      cases vs with
      | nil => rfl
      | cons _ _ => simp at hv
    subst this
    cases fuel with
    | zero => simp [collect, h.1, end_]
    | succ f => simp [collect, h.1, end_]
  | cons b t ih =>
    cases vs with
    | nil => simp at hv
    | cons v vt =>
      simp only [List.map_cons, List.cons.injEq] at hv
      cases fuel with
      | zero => simp at hf
      | succ f =>
        have hb : b ≠ Ptr.occupied_nodes_ := fun hb => hl (by simp [hb])
        simp only [collect, h.1.1, end_, if_neg hb, hv.1, pyramid.next]
        rw [ih h.2 (fun h1 => hl (List.mem_cons_of_mem _ h1)) hv.2
          (by simp only [List.length_cons] at hf; omega)]
        rfl

theorem exists_values {α β : Type} {f : α → Option β} {l : List α}
    (h : ∀ p ∈ l, (f p).isSome = true) : ∃ vs : List β, l.map f = vs.map some := by
  induction l with
  | nil => exact ⟨[], rfl⟩
  | cons b t ih =>
    obtain ⟨vt, hvt⟩ := ih (fun p hp => h p (List.mem_cons_of_mem _ hp))
    obtain ⟨v, hv⟩ := Option.isSome_iff_exists.mp (h b (by simp))
    exact ⟨v :: vt, by simp [hv, hvt]⟩

theorem WellFormed.sentinel_not_mem {F w : Nat} {s : pyramid T} {occ fre : List Ptr}
    (h : WellFormed F w s occ fre) : Ptr.occupied_nodes_ ∉ occ := by
  intro hm
  obtain ⟨b, i, hp, _⟩ := h.slot (List.mem_append_left _ hm)
  cases hp

theorem WellFormed.handles_eq {F w : Nat} {s : pyramid T} {occ fre : List Ptr}
    (h : WellFormed F w s occ fre) : handles s = occ := by
  unfold handles begin
  rw [walk_path s h.occupied h.sentinel_not_mem, h.size_eq, List.take_length]

theorem WellFormed.elements_eq {F w : Nat} {s : pyramid T} {occ fre : List Ptr}
    (h : WellFormed F w s occ fre) {vs : List T} (hv : occ.map (deref s) = vs.map some)
    {fuel : Nat} (hf : s.size_ ≤ fuel) : elements fuel s = some vs := by
  unfold elements begin
  exact collect_path s h.occupied h.sentinel_not_mem hv (by rw [← h.size_eq]; exact hf)

/-! ## `clear` -/

theorem destroy_items_path {m : Memory T} {a : Ptr} {l : List Ptr}
    (h : Path m a l Ptr.occupied_nodes_) (hl : Ptr.occupied_nodes_ ∉ l) (fuel : Nat) :
    (l.length ≤ fuel → ∃ m1, destroy_items fuel (m a).next_node m = some m1 ∧
        ∀ y, y ∉ l → m1 y = m y) ∧
    (fuel < l.length → destroy_items fuel (m a).next_node m = none) := by
  induction l generalizing a m fuel with
  | nil =>
    refine ⟨fun _ => ⟨m, ?_, fun _ _ => rfl⟩, fun hf => by simp at hf⟩
    cases fuel <;> simp [destroy_items, h.1]
  | cons b t ih =>
    have hb : b ≠ Ptr.occupied_nodes_ := fun hb => hl (by simp [hb])
    have ht : Ptr.occupied_nodes_ ∉ t := fun h1 => hl (List.mem_cons_of_mem _ h1)
    cases fuel with
    | zero =>
      refine ⟨fun hf => by simp at hf, fun _ => ?_⟩
      simp [destroy_items, h.1.1, hb]
    | succ f =>
      have hp := path_set_item h.2 b (none : Option T)
      obtain ⟨ih1, ih2⟩ := ih hp ht f
      simp only [destroy_items, h.1.1, if_neg hb, List.length_cons]
      constructor
      · intro hf
        obtain ⟨m1, hm1, hm2⟩ := ih1 (by omega)
        refine ⟨m1, hm1, ?_⟩
        intro y hy
        simp only [List.mem_cons, not_or] at hy
        rw [hm2 y hy.2]
        simp [set_item, hy.1]
      · intro hf
        exact ih2 (by omega)

theorem free_pages_nodes (ps : List pyramid_page) (m : Memory T) (b i : Nat) :
    free_pages ps m (Ptr.nodes b i) =
      if b ∈ ps.map (fun p => p.base) then blank T else m (Ptr.nodes b i) := by
  induction ps generalizing m with
  | nil => simp [free_pages]
  | cons p t ih =>
    simp only [free_pages, ih, List.map_cons, List.mem_cons, free]
    by_cases h1 : b ∈ t.map (fun p => p.base)
    · simp [h1]
    · by_cases h2 : b = p.base
      · simp [h2]
      · simp [h1, h2]

theorem free_pages_sentinel (ps : List pyramid_page) (m : Memory T) (y : Ptr)
    (hy : ∀ b i, y ≠ Ptr.nodes b i) : free_pages ps m y = m y := by
  induction ps generalizing m with
  | nil => simp [free_pages]
  | cons p t ih =>
    simp only [free_pages, ih]
    cases y with
    | nodes b i => exact absurd rfl (hy b i)
    | _ => rfl

theorem chained_bases {ps : List pyramid_page} (h : Chained ps) (b : Nat) :
    b ∈ ps.map (fun p => p.base) ↔ b < ps.length := by
  induction ps with
  | nil => simp
  | cons p t ih =>
    simp only [List.map_cons, List.mem_cons, List.length_cons, ih h.2, h.1]
    omega

/-- On a well-formed arena `clear` ends once the steps cover the live elements, and
what it leaves is the default-constructed arena. -/
theorem wf_clear {F w : Nat} {s : pyramid T} {occ fre : List Ptr}
    (h : WellFormed F w s occ fre) (fuel : Nat) :
    (s.size_ ≤ fuel → clear F fuel s = some (pyramid.new T F)) ∧
    (∀ s1, clear F fuel s = some s1 → s1 = pyramid.new T F) := by
  obtain ⟨hd1, hd2⟩ := destroy_items_path h.occupied h.sentinel_not_mem fuel
  have key : ∀ m1, (∀ y, y ∉ occ → m1 y = s.memory y) →
      init F { s with memory := free_pages s.pages_ m1 } = pyramid.new T F := by
    intro m1 hm1
    simp only [pyramid.new, init, raw]
    congr 1
    funext y
    cases y with
    | null =>
      simp only [set_next_node, set_previous_node, if_neg (show Ptr.null ≠ Ptr.free_nodes_ by simp),
        if_neg (show Ptr.null ≠ Ptr.occupied_nodes_ by simp)]
      rw [free_pages_sentinel _ _ _ (by simp), hm1 _ ?_, h.null_blank]
      intro hm
      obtain ⟨b, i, hp, _⟩ := h.slot (List.mem_append_left _ hm)
      cases hp
    | free_nodes_ =>
      apply node_ext
      · simp only [set_next_node_item, set_previous_node_item]
        rw [free_pages_sentinel _ _ _ (by simp), hm1 _ ?_, h.free_item]
        · rfl
        · intro hm
          obtain ⟨b, i, hp, _⟩ := h.slot (List.mem_append_left _ hm)
          cases hp
      · simp
      · simp
    | occupied_nodes_ =>
      apply node_ext
      · simp only [set_next_node_item, set_previous_node_item]
        rw [free_pages_sentinel _ _ _ (by simp), hm1 _ h.sentinel_not_mem, h.occupied_item]
        rfl
      · simp
      · simp
    | nodes b i =>
      simp only [set_next_node, set_previous_node,
        if_neg (show Ptr.nodes b i ≠ Ptr.free_nodes_ by simp),
        if_neg (show Ptr.nodes b i ≠ Ptr.occupied_nodes_ by simp)]
      rw [free_pages_nodes]
      by_cases hb : b < s.pages_.length
      · rw [if_pos ((chained_bases h.chained b).mpr hb)]
      · rw [if_neg (fun hm => hb ((chained_bases h.chained b).mp hm)), hm1 _ ?_,
          h.unmapped b i (by omega)]
        intro hm
        obtain ⟨b1, i1, hp, hlt⟩ := h.slot (List.mem_append_left _ hm)
        simp only [Ptr.nodes.injEq] at hp
        omega
  constructor
  · intro hf
    obtain ⟨m1, hm1, hm2⟩ := hd1 (by rw [← h.size_eq]; exact hf)
    simp only [clear, hm1, key m1 hm2]
  · intro s1 hs1
    by_cases hf : occ.length ≤ fuel
    · obtain ⟨m1, hm1, hm2⟩ := hd1 hf
      simp only [clear, hm1, key m1 hm2, Option.some.injEq] at hs1
      exact hs1.symm
    · have := hd2 (by omega)
      simp [clear, this] at hs1

/-- Every state an arena can be in is well-formed. -/
theorem reachable_wf [Layout T] {F w : Nat} (hF : 2 ≤ F) (hFw : F < 2 ^ w) {s : pyramid T}
    (h : Reachable F w s) : ∃ occ fre, WellFormed F w s occ fre := by
  induction h with
  | new => exact ⟨[], [], wf_new (by omega) hFw⟩
  | @insert_returned s s1 ok v node _ heq ih =>
    obtain ⟨occ, fre, hwf⟩ := ih
    rcases wf_insert hF hFw hwf ok v with ⟨s2, x, fre1, h1, h2, _⟩ | ⟨s2, h1, _⟩ | ⟨h1, _⟩
    · rw [heq] at h1
      cases h1
      exact ⟨_, _, h2⟩
    · rw [heq] at h1; cases h1
    · rw [heq] at h1; cases h1
  | @insert_thrown s s1 ok v e _ heq ih =>
    obtain ⟨occ, fre, hwf⟩ := ih
    rcases wf_insert hF hFw hwf ok v with ⟨s2, x, fre1, h1, _⟩ | ⟨s2, h1, h2, _⟩ | ⟨h1, _⟩
    · rw [heq] at h1; cases h1
    · rw [heq] at h1
      cases h1
      exact ⟨_, _, h2⟩
    · rw [heq] at h1; cases h1
  | @erase s x _ hx ih =>
    obtain ⟨occ, fre, hwf⟩ := ih
    rw [hwf.handles_eq] at hx
    obtain ⟨l1, l2, rfl⟩ := List.append_of_mem hx
    exact ⟨_, _, (wf_erase hwf).1⟩
  | @assign s x v _ hx ih =>
    obtain ⟨occ, fre, hwf⟩ := ih
    rw [hwf.handles_eq] at hx
    exact ⟨_, _, wf_assign hwf hx v⟩
  | @clear s s1 fuel _ heq ih =>
    obtain ⟨occ, fre, hwf⟩ := ih
    rw [(wf_clear hwf fuel).2 s1 heq]
    exact ⟨[], [], wf_new (by omega) hFw⟩

/-! ## The four ways through `insert` -/

theorem insert_take [Layout T] {F w : Nat} {s : pyramid T} (hfull : s.capacity_ ≠ s.size_) (ok : Bool)
    (v : T) :
    pyramid.insert F w ok v s = Outcome.returned
      { (take_node w s).1 with
        memory := set_item (take_node w s).1.memory (take_node w s).2 (some v) }
      (take_node w s).2 := by
  unfold pyramid.insert allocate_node
  rw [if_neg hfull]

theorem insert_grow [Layout T] {F w : Nat} {s : pyramid T} (hfull : s.capacity_ = s.size_)
    (hov : ¬ s.next_page_estimate_ * F % 2 ^ w < s.next_page_estimate_)
    (hfit : page_fits T w (page_capacity w s) = true) (v : T) :
    pyramid.insert F w true v s = Outcome.returned
      { (take_node w (append_page w (page_capacity w s)
          { s with next_page_estimate_ := s.next_page_estimate_ * F % 2 ^ w })).1 with
        memory := set_item (take_node w (append_page w (page_capacity w s)
            { s with next_page_estimate_ := s.next_page_estimate_ * F % 2 ^ w })).1.memory
          (take_node w (append_page w (page_capacity w s)
            { s with next_page_estimate_ := s.next_page_estimate_ * F % 2 ^ w })).2 (some v) }
      (take_node w (append_page w (page_capacity w s)
        { s with next_page_estimate_ := s.next_page_estimate_ * F % 2 ^ w })).2 := by
  unfold pyramid.insert allocate_node
  rw [if_pos hfull]
  simp only [hov, hfit, ↓reduceIte]

theorem insert_out_of_block [Layout T] {F w : Nat} {s : pyramid T}
    (hfull : s.capacity_ = s.size_)
    (hov : ¬ s.next_page_estimate_ * F % 2 ^ w < s.next_page_estimate_)
    (hfit : page_fits T w (page_capacity w s) = false) (v : T) :
    pyramid.insert F w true v s = Outcome.undefined
      { s with next_page_estimate_ := s.next_page_estimate_ * F % 2 ^ w } := by
  unfold pyramid.insert allocate_node
  rw [if_pos hfull]
  simp only [hov, hfit, ↓reduceIte, Bool.false_eq_true]

theorem insert_no_memory [Layout T] {F w : Nat} {s : pyramid T} (hfull : s.capacity_ = s.size_)
    (hov : ¬ s.next_page_estimate_ * F % 2 ^ w < s.next_page_estimate_) (v : T) :
    pyramid.insert F w false v s = Outcome.thrown Exception.bad_alloc
      { s with next_page_estimate_ := s.next_page_estimate_ * F % 2 ^ w } := by
  unfold pyramid.insert allocate_node
  rw [if_pos hfull]
  simp [hov]

theorem insert_overflow [Layout T] {F w : Nat} {s : pyramid T} (hfull : s.capacity_ = s.size_)
    (hov : s.next_page_estimate_ * F % 2 ^ w < s.next_page_estimate_) (ok : Bool) (v : T) :
    pyramid.insert F w ok v s = Outcome.thrown Exception.bad_alloc s := by
  unfold pyramid.insert allocate_node
  rw [if_pos hfull]
  simp [hov]

/-! ## Growth without wrap -/

theorem geometric_new {F w : Nat} (hFw : F < 2 ^ w) :
    Geometric F w (pyramid.new T F) 0 := by
  refine ⟨rfl, by simp [pyramid.new, init], by simpa using hFw, rfl, le_refl _, Or.inl (by omega)⟩

/-- One `insert` that finds memory, on an arena whose target has not wrapped and
does not wrap now, the bytes of the page asked for not wrapping either. -/
theorem geometric_insert [Layout T] {F w : Nat} {s : pyramid T} {k : Nat} (hF : 2 ≤ F)
    (hg : Geometric F w s k) (hnext : s.capacity_ = s.size_ → F ^ (k + 2) < 2 ^ w)
    (hbytes : s.capacity_ = s.size_ →
      Layout.sizeof_page T + F ^ (k + 1) * Layout.sizeof_node T ≤ 2 ^ w) (v : T) :
    ∃ s1 x k1, pyramid.insert F w true v s = Outcome.returned s1 x ∧ Geometric F w s1 k1 ∧
      s1.size_ = s.size_ + 1 ∧
      ((s.capacity_ ≠ s.size_ ∧ k1 = k) ∨ (s.capacity_ = s.size_ ∧ k1 = k + 1)) := by
  obtain ⟨hp, he, hew, hc, hsc, hmin⟩ := hg
  have hpow : F ^ k < F ^ (k + 1) := Nat.pow_lt_pow_right (by omega) (by omega)
  have hpos : 0 < F ^ k := Nat.pow_pos (by omega)
  have hcle : s.capacity_ ≤ F ^ k := by
    rw [hc]; split_ifs <;> omega
  by_cases hfull : s.capacity_ = s.size_
  · have hnw := hnext hfull
    have hmul : s.next_page_estimate_ * F % 2 ^ w = F ^ (k + 2) := by
      rw [he, ← pow_succ, Nat.mod_eq_of_lt hnw]
    have hpow2 : F ^ (k + 1) < F ^ (k + 2) := Nat.pow_lt_pow_right (by omega) (by omega)
    have hov : ¬ s.next_page_estimate_ * F % 2 ^ w < s.next_page_estimate_ := by
      rw [hmul, he]; omega
    have hpc : page_capacity w s = F ^ (k + 1) - s.size_ := by
      unfold page_capacity
      rw [he]
      have : F ^ (k + 1) + 2 ^ w - s.size_ = (F ^ (k + 1) - s.size_) + 2 ^ w := by omega
      rw [this, Nat.add_mod_right, Nat.mod_eq_of_lt (by omega)]
    have hfit : page_fits T w (page_capacity w s) = true := by
      rw [page_fits_iff (by rw [hpc]; omega), hpc]
      refine ⟨by omega, ?_⟩
      have hb := hbytes hfull
      have hn : 0 < Layout.sizeof_node T := Layout.node_pos
      have h1 : (F ^ (k + 1) - s.size_ - 1) * Layout.sizeof_node T ≤
          (F ^ (k + 1) - 1) * Layout.sizeof_node T :=
        Nat.mul_le_mul_right _ (by omega)
      have h2 : (F ^ (k + 1) - 1) * Layout.sizeof_node T + Layout.sizeof_node T =
          F ^ (k + 1) * Layout.sizeof_node T := by
        have h3 : F ^ (k + 1) = (F ^ (k + 1) - 1) + 1 := by omega
        nth_rewrite 2 [h3]
        ring
      omega
    refine ⟨_, _, k + 1, insert_grow hfull hov hfit v, ?_, ?_, Or.inr ⟨hfull, rfl⟩⟩
    · refine ⟨?_, ?_, hnw, ?_, ?_, ?_⟩
      · simp [take_node, append_page, hp]
      · simp only [take_node, append_page]; exact hmul
      · simp only [take_node, append_page, hpc]
        rw [if_neg (by omega), hfull, Nat.mod_eq_of_lt (by omega)]
        omega
      · simp only [take_node, append_page, hpc]
        rw [hfull, Nat.mod_eq_of_lt (a := s.size_ + 1) (by omega),
          Nat.mod_eq_of_lt (by omega)]
        have : F ^ k * 2 ≤ F ^ (k + 1) := by
          rw [pow_succ]; exact Nat.mul_le_mul_left _ hF
        omega
      · simp only [take_node, append_page]
        rw [Nat.mod_eq_of_lt (by omega)]
        rcases Nat.eq_zero_or_pos k with hk | hk
        · left; omega
        · right
          simp only [Nat.add_sub_cancel]
          rw [← hfull, hc, if_neg (by omega)]
          omega
    · simp only [take_node, append_page]
      rw [Nat.mod_eq_of_lt (by omega)]
  · refine ⟨_, _, k, insert_take hfull true v, ?_, ?_, Or.inl ⟨hfull, rfl⟩⟩
    · refine ⟨hp, he, hew, hc, ?_, ?_⟩
      · simp only [take_node]
        rw [Nat.mod_eq_of_lt (by omega)]
        omega
      · simp only [take_node]
        rw [Nat.mod_eq_of_lt (by omega)]
        omega
    · simp only [take_node]
      rw [Nat.mod_eq_of_lt (by omega)]

/-- A run of inserts that find memory, none of whose growth steps wraps, in the
target or in the bytes of the page. -/
theorem geometric_insert_each [Layout T] {F w : Nat} (hF : 2 ≤ F) (n : Nat)
    (hn : ∀ j, (if j = 0 then 0 else F ^ j) < n → F ^ (j + 2) < 2 ^ w)
    (hb : ∀ j, (if j = 0 then 0 else F ^ j) < n →
      Layout.sizeof_page T + F ^ (j + 1) * Layout.sizeof_node T ≤ 2 ^ w)
    (vs : List T) {s : pyramid T} {k : Nat} (hg : Geometric F w s k)
    (hs : s.size_ + vs.length = n) :
    ∃ s1 k1, insert_each F w (fun _ => true) vs s = Except.ok s1 ∧ Geometric F w s1 k1 ∧
      s1.size_ = n := by
  induction vs generalizing s k with
  | nil => exact ⟨s, k, rfl, hg, by simpa using hs⟩
  | cons v t ih =>
    simp only [List.length_cons] at hs
    have hnext : s.capacity_ = s.size_ → F ^ (k + 2) < 2 ^ w := by
      intro hfull
      apply hn
      rw [← hg.2.2.2.1, hfull]; omega
    have hbytes : s.capacity_ = s.size_ →
        Layout.sizeof_page T + F ^ (k + 1) * Layout.sizeof_node T ≤ 2 ^ w := by
      intro hfull
      apply hb
      rw [← hg.2.2.2.1, hfull]; omega
    obtain ⟨s1, x, k1, h1, h2, h3, _⟩ := geometric_insert hF hg hnext hbytes v
    obtain ⟨s2, k2, h4, h5, h6⟩ := ih h2 (by omega)
    exact ⟨s2, k2, by simp only [insert_each, h1, h4], h5, h6⟩

/-! ## Values along the occupied list -/

theorem map_deref_congr {s s1 : pyramid T} {l : List Ptr}
    (h : ∀ y ∈ l, (s1.memory y).item = (s.memory y).item) :
    l.map (deref s1) = l.map (deref s) := by
  apply List.map_congr_left
  intro y hy
  exact h y hy

/-- The values of the live elements after an `insert` that returned. -/
theorem insert_values {F w : Nat} {s s1 : pyramid T} {occ fre1 : List Ptr} {x : Ptr} {v : T}
    {xs : List T} (hwf : WellFormed F w s1 (occ ++ [x]) fre1)
    (hitem : ∀ y, (s1.memory y).item = if y = x then some v else (s.memory y).item)
    (hv : occ.map (deref s) = xs.map some) :
    (occ ++ [x]).map (deref s1) = (xs ++ [v]).map some := by
  have hnd := hwf.nodup
  rw [List.append_assoc, List.nodup_append] at hnd
  have hx : x ∉ occ := fun h => hnd.2.2 h (by simp)
  rw [List.map_append, List.map_append, ← hv]
  congr 1
  · apply map_deref_congr
    intro y hy
    rw [hitem, if_neg]
    rintro rfl
    exact hx hy
  · simp [deref, hitem]

/-- A run of inserts that all returned appends its values to the live elements. -/
theorem insert_each_wf [Layout T] {F w : Nat} (hF : 2 ≤ F) (hFw : F < 2 ^ w) (malloc_ok : Nat → Bool)
    (vs : List T) {s s1 : pyramid T} {occ fre : List Ptr} {xs : List T}
    (hwf : WellFormed F w s occ fre) (hv : occ.map (deref s) = xs.map some)
    (hrun : insert_each F w malloc_ok vs s = Except.ok s1) :
    ∃ occ1 fre1, WellFormed F w s1 occ1 fre1 ∧ occ1.map (deref s1) = (xs ++ vs).map some := by
  induction vs generalizing s occ fre xs with
  | nil =>
    simp only [insert_each, Except.ok.injEq] at hrun
    subst hrun
    exact ⟨occ, fre, hwf, by simpa using hv⟩
  | cons v t ih =>
    rcases wf_insert hF hFw hwf (malloc_ok s.pages_.length) v with
      ⟨s2, x, fre1, h1, h2, h3, _⟩ | ⟨s2, h1, _⟩ | ⟨h1, _⟩
    · simp only [insert_each, h1] at hrun
      obtain ⟨occ1, fre2, h4, h5⟩ := ih h2 (insert_values h2 h3 hv) hrun
      exact ⟨occ1, fre2, h4, by simpa using h5⟩
    · simp only [insert_each, h1] at hrun
      cases hrun
    · simp only [insert_each, h1] at hrun
      cases hrun

theorem reachable_insert_each [Layout T] {F w : Nat} (malloc_ok : Nat → Bool) (vs : List T)
    {s s1 : pyramid T} (hr : Reachable F w s)
    (hrun : insert_each F w malloc_ok vs s = Except.ok s1) : Reachable F w s1 := by
  induction vs generalizing s with
  | nil =>
    simp only [insert_each, Except.ok.injEq] at hrun
    subst hrun
    exact hr
  | cons v t ih =>
    simp only [insert_each] at hrun
    cases hi : pyramid.insert F w (malloc_ok s.pages_.length) v s with
    | returned s2 node =>
      rw [hi] at hrun
      exact ih (Reachable.insert_returned hr hi) hrun
    | thrown e s2 =>
      rw [hi] at hrun
      cases hrun
    | undefined s2 =>
      rw [hi] at hrun
      cases hrun

/-- The arena a run of inserts into a default-constructed arena leaves. -/
theorem insert_each_new_elements [Layout T] {F w : Nat} (hF : 2 ≤ F) (hFw : F < 2 ^ w)
    (malloc_ok : Nat → Bool) (vs : List T) {s : pyramid T}
    (hrun : insert_each F w malloc_ok vs (pyramid.new T F) = Except.ok s) :
    Reachable F w s ∧ size s = vs.length ∧
      ∀ fuel, vs.length ≤ fuel → elements fuel s = some vs := by
  obtain ⟨occ1, fre1, hwf, hv⟩ :=
    insert_each_wf hF hFw malloc_ok vs (wf_new (by omega) hFw)
      (show ([] : List Ptr).map (deref (pyramid.new T F)) = ([] : List T).map some by simp) hrun
  simp only [List.nil_append] at hv
  have hlen : occ1.length = vs.length := by
    have := congrArg List.length hv
    simpa using this
  have hsize : s.size_ = vs.length := by rw [hwf.size_eq, hlen]
  exact ⟨reachable_insert_each malloc_ok vs Reachable.new hrun, hsize,
    fun fuel hf => hwf.elements_eq hv (by omega)⟩

/-- Without wrap, of the growth target or of the bytes of a page, and with memory at
hand a run of inserts returns. -/
theorem insert_each_new_returns [Layout T] {F w : Nat} (hF : 2 ≤ F) (hFw : F < 2 ^ w)
    (vs : List T) (hn : vs.length * F * F < 2 ^ w)
    (hb : Layout.sizeof_page T + vs.length * F * Layout.sizeof_node T ≤ 2 ^ w) :
    ∃ s, insert_each F w (fun _ => true) vs (pyramid.new T F) = Except.ok s := by
  obtain ⟨s1, k1, h1, _, _⟩ :=
    geometric_insert_each (T := T) hF vs.length (w := w) (by
      intro j hj
      have hFF : 0 < F * F := Nat.mul_pos (by omega) (by omega)
      have : F ^ (j + 2) = F ^ j * (F * F) := by ring
      rw [this]
      by_cases hj0 : j = 0
      · subst hj0
        simp only [if_true] at hj
        simp only [pow_zero, one_mul]
        calc F * F ≤ vs.length * (F * F) := Nat.le_mul_of_pos_left _ hj
          _ = vs.length * F * F := by ring
          _ < 2 ^ w := hn
      · rw [if_neg hj0] at hj
        calc F ^ j * (F * F) < vs.length * (F * F) := Nat.mul_lt_mul_of_pos_right hj hFF
          _ = vs.length * F * F := by ring
          _ < 2 ^ w := hn) (by
      intro j hj
      have hle : F ^ (j + 1) ≤ vs.length * F := by
        rw [pow_succ]
        by_cases hj0 : j = 0
        · subst hj0
          simp only [if_true] at hj
          simp only [pow_zero]
          exact Nat.mul_le_mul_right _ hj
        · rw [if_neg hj0] at hj
          exact Nat.mul_le_mul_right _ (le_of_lt hj)
      have := Nat.mul_le_mul_right (Layout.sizeof_node T) hle
      omega) vs (geometric_new hFw) (by simp [pyramid.new, init])
  exact ⟨s1, h1⟩

/-- C1: for every growth factor `F >= 2`, a run of `insert` calls on a freshly
constructed arena, with no `erase` in between and every call returning, leaves
`size()` at the number of calls, and the iteration from `begin()` by `++` to `end()`
yields the inserted values in the order of the calls. When no growth step can wrap,
in the growth target (`n * F * F < 2 ^ w`) or in the bytes asked for a page
(`sizeof(page) + n * F * sizeof(node) <= 2 ^ w`), and `malloc` never fails, every call
does return. -/
theorem insertion_order_preserved [Layout T] (F w : Nat) (hF : 2 ≤ F) (hFw : F < 2 ^ w)
    (malloc_ok : Nat → Bool) (vs : List T) :
    (∀ s, insert_each F w malloc_ok vs (pyramid.new T F) = Except.ok s →
      size s = vs.length ∧ ∀ fuel, vs.length ≤ fuel → elements fuel s = some vs) ∧
    (vs.length * F * F < 2 ^ w →
      Layout.sizeof_page T + vs.length * F * Layout.sizeof_node T ≤ 2 ^ w →
      ∃ s, insert_each F w (fun _ => true) vs (pyramid.new T F) = Except.ok s) :=
  ⟨fun _ hrun => (insert_each_new_elements hF hFw malloc_ok vs hrun).2,
    insert_each_new_returns hF hFw vs⟩

/-- An instance of C1: three values into an arena of growth factor 2. -/
theorem insertion_order_preserved_witness :
    ∃ s : pyramid Nat, insert_each 2 64 (fun _ => true) [1, 2, 3] (pyramid.new Nat 2) = Except.ok s ∧
      size s = 3 ∧ elements 3 s = some [1, 2, 3] := by
  have h := insertion_order_preserved (T := Nat) 2 64 (by decide) (by decide) (fun _ => true)
    [1, 2, 3]
  obtain ⟨s, hs⟩ := h.2 (by decide) (by decide)
  exact ⟨s, hs, (h.1 s hs).1, (h.1 s hs).2 3 (by decide)⟩

/-- C4: for every growth factor `F >= 2` and every `n >= 1`, `n` inserts into a
freshly constructed arena (no `erase`, `malloc` never failing, the growth target
`F ^ (k + 1)` and the bytes of a page of `F ^ k` nodes in range) all return and leave
`capacity()` at `F ^ k` and `k` pages in the chain, `k >= 1` being the least exponent with `n <= F ^ k`. So `F` inserts give
capacity `F` with one page, and `F + 1` up to `F * F` inserts give capacity `F * F`
with two pages. -/
theorem capacity_after_inserts [Layout T] (F w : Nat) (hF : 2 ≤ F) (vs : List T) (k : Nat) (hk : 1 ≤ k)
    (hn : 1 ≤ vs.length) (hle : vs.length ≤ F ^ k) (hmin : k = 1 ∨ F ^ (k - 1) < vs.length)
    (hw : F ^ (k + 1) < 2 ^ w)
    (hb : Layout.sizeof_page T + F ^ k * Layout.sizeof_node T ≤ 2 ^ w) :
    ∃ s, insert_each F w (fun _ => true) vs (pyramid.new T F) = Except.ok s ∧
      capacity s = F ^ k ∧ s.pages_.length = k := by
  have hF1 : 1 < F := by omega
  have hFw : F < 2 ^ w := by
    calc F = F ^ 1 := (pow_one F).symm
      _ ≤ F ^ (k + 1) := Nat.pow_le_pow_right (by omega) (by omega)
      _ < 2 ^ w := hw
  obtain ⟨s1, k1, h1, hg, hsz⟩ :=
    geometric_insert_each (T := T) hF vs.length (w := w) (by
      intro j hj
      have hjk : j + 2 ≤ k + 1 := by
        by_cases hj0 : j = 0
        · omega
        · rw [if_neg hj0] at hj
          have : F ^ j < F ^ k := lt_of_lt_of_le hj hle
          have := (Nat.pow_lt_pow_iff_right hF1).mp this
          omega
      exact lt_of_le_of_lt (Nat.pow_le_pow_right (by omega) hjk) hw) (by
      intro j hj
      have hjk : j + 1 ≤ k := by
        by_cases hj0 : j = 0
        · omega
        · rw [if_neg hj0] at hj
          have : F ^ j < F ^ k := lt_of_lt_of_le hj hle
          have := (Nat.pow_lt_pow_iff_right hF1).mp this
          omega
      have hle2 : F ^ (j + 1) ≤ F ^ k := Nat.pow_le_pow_right (by omega) hjk
      have := Nat.mul_le_mul_right (Layout.sizeof_node T) hle2
      omega)
      vs (geometric_new hFw) (by simp [pyramid.new, init])
  obtain ⟨hp, he, hew, hc, hsc, hm⟩ := hg
  have hk1 : k1 ≠ 0 := by
    intro h0
    rw [hc, if_pos h0] at hsc
    omega
  rw [hc, if_neg hk1, hsz] at hsc
  rw [hsz] at hm
  have hkk : k1 = k := by
    rcases Nat.lt_trichotomy k1 k with hlt | heq | hgt
    · exfalso
      have h2 : F ^ (k - 1) < vs.length := by
        rcases hmin with h | h
        · omega
        · exact h
      have : F ^ k1 ≤ F ^ (k - 1) := Nat.pow_le_pow_right (by omega) (by omega)
      omega
    · exact heq
    · exfalso
      have h2 : F ^ (k1 - 1) < vs.length := by
        rcases hm with h | h
        · omega
        · exact h
      have : F ^ k ≤ F ^ (k1 - 1) := Nat.pow_le_pow_right (by omega) (by omega)
      omega
  subst hkk
  exact ⟨s1, h1, by rw [capacity, hc, if_neg hk1], hp⟩

/-- An instance of C4: three inserts with growth factor 2 give capacity 4 in two
pages. -/
theorem capacity_after_inserts_witness :
    ∃ s : pyramid Nat, insert_each 2 64 (fun _ => true) [7, 8, 9] (pyramid.new Nat 2) = Except.ok s ∧
      capacity s = 2 ^ 2 ∧ s.pages_.length = 2 :=
  capacity_after_inserts (T := Nat) 2 64 (by decide) [7, 8, 9] 2 (by decide) (by decide)
    (by decide) (by decide) (by decide) (by decide)

/-! ## `erase` -/

theorem split_at_index {α : Type} {l : List α} {i : Nat} {a : α} (h : l[i]? = some a) :
    ∃ l1 l2, l = l1 ++ a :: l2 ∧ l1.length = i := by
  obtain ⟨hi, ha⟩ := List.getElem?_eq_some.mp h
  refine ⟨l.take i, l.drop (i + 1), ?_, ?_⟩
  · rw [← ha, ← List.drop_eq_getElem_cons hi, List.take_append_drop]
  · rw [List.length_take]; omega

/-- What `erase` of the live handle at position `l1.length` does, in terms of the
lists and values. -/
theorem erase_spec {F w : Nat} {s : pyramid T} {l1 l2 fre : List Ptr} {x : Ptr}
    (h : WellFormed F w s (l1 ++ x :: l2) fre) :
    ∃ xs1 v xs2, xs1.length = l1.length ∧
      (l1 ++ x :: l2).map (deref s) = (xs1 ++ v :: xs2).map some ∧
      (l1 ++ l2).map (deref (erase w s x).1) = (xs1 ++ xs2).map some := by
  obtain ⟨xs1, h1⟩ := exists_values (f := deref s) (l := l1)
    (fun p hp => h.live p (by simp [hp]))
  obtain ⟨xs2, h2⟩ := exists_values (f := deref s) (l := l2)
    (fun p hp => h.live p (by simp [hp]))
  obtain ⟨v, hv⟩ := Option.isSome_iff_exists.mp (h.live x (by simp))
  have hitem := (wf_erase h).2.2.1
  have hnd := h.nodup
  rw [List.nodup_append] at hnd
  have hnd2 := List.nodup_cons.mp (List.nodup_middle.mp hnd.1)
  refine ⟨xs1, v, xs2, ?_, ?_, ?_⟩
  · have := congrArg List.length h1
    simpa using this.symm
  · simp only [List.map_append, List.map_cons, h1, h2]
    congr 2
  · rw [map_deref_congr (s := s), List.map_append, List.map_append, h1, h2]
    intro y hy
    rw [hitem, if_neg]
    rintro rfl
    exact hnd2.1 hy

/-- C2: in every reachable state, `erase` of the handle `h` to the live element at
position `i` leaves the occupied sequence as it was with position `i` removed (the
other elements keep order and value), takes exactly 1 from `size()` and leaves
`capacity()` as it was. -/
theorem erase_removes_position [Layout T] (F w : Nat) (hF : 2 ≤ F) (hFw : F < 2 ^ w) {s : pyramid T}
    (hr : Reachable F w s) (i : Nat) (h : Ptr) (hh : (handles s)[i]? = some h) :
    ∃ xs : List T, xs.length = size s ∧ i < xs.length ∧
      (∀ fuel, size s ≤ fuel → elements fuel s = some xs) ∧
      (∀ fuel, size s ≤ fuel + 1 → elements fuel (erase w s h).1 = some (xs.eraseIdx i)) ∧
      handles (erase w s h).1 = (handles s).eraseIdx i ∧
      size (erase w s h).1 + 1 = size s ∧
      capacity (erase w s h).1 = capacity s := by
  obtain ⟨occ, fre, hwf⟩ := reachable_wf hF hFw hr
  rw [hwf.handles_eq] at hh ⊢
  obtain ⟨l1, l2, rfl, hl1⟩ := split_at_index hh
  obtain ⟨xs1, v, xs2, hlen, hv, hv1⟩ := erase_spec (w := w) hwf
  obtain ⟨hwf1, _, _, _, hcap, _, hsz⟩ := wf_erase hwf
  have hxl : (xs1 ++ v :: xs2).length = s.size_ := by
    have := congrArg List.length hv
    simp only [List.length_map] at this
    rw [← this, hwf.size_eq]
  have he1 : (xs1 ++ v :: xs2).eraseIdx i = xs1 ++ xs2 := by
    rw [List.eraseIdx_append_of_length_le (by omega)]
    have : i - xs1.length = 0 := by omega
    rw [this]; rfl
  have he2 : (l1 ++ h :: l2).eraseIdx i = l1 ++ l2 := by
    rw [List.eraseIdx_append_of_length_le (by omega)]
    have : i - l1.length = 0 := by omega
    rw [this]; rfl
  refine ⟨xs1 ++ v :: xs2, hxl, ?_, ?_, ?_, ?_, hsz, hcap⟩
  · simp only [List.length_append, List.length_cons]; omega
  · intro fuel hf
    exact hwf.elements_eq hv hf
  · intro fuel hf
    rw [he1]
    refine hwf1.elements_eq hv1 ?_
    have : (erase w s h).1.size_ + 1 = s.size_ := hsz
    have : s.size_ ≤ fuel + 1 := hf
    omega
  · rw [hwf1.handles_eq, he2]

/-- An instance of C2: the test "erase from the middle" (lines 93-102 of the tests),
where the handle to 2 is erased from 1, 2, 3. -/
theorem erase_removes_position_witness :
    Reachable 16 64 (filled 16 64 [(1 : Int), 2, 3]) ∧
    (handles (filled 16 64 [(1 : Int), 2, 3]))[1]? = some (Ptr.nodes 0 1) ∧
    elements 2 (erase 64 (filled 16 64 [(1 : Int), 2, 3]) (Ptr.nodes 0 1)).1 = some [1, 3] ∧
    ∃ xs : List Int, xs.length = size (filled 16 64 [(1 : Int), 2, 3]) ∧ 1 < xs.length ∧
      (∀ fuel, size (filled 16 64 [(1 : Int), 2, 3]) ≤ fuel →
        elements fuel (filled 16 64 [(1 : Int), 2, 3]) = some xs) ∧
      (∀ fuel, size (filled 16 64 [(1 : Int), 2, 3]) ≤ fuel + 1 →
        elements fuel (erase 64 (filled 16 64 [(1 : Int), 2, 3]) (Ptr.nodes 0 1)).1 =
          some (xs.eraseIdx 1)) ∧
      handles (erase 64 (filled 16 64 [(1 : Int), 2, 3]) (Ptr.nodes 0 1)).1 =
        (handles (filled 16 64 [(1 : Int), 2, 3])).eraseIdx 1 ∧
      size (erase 64 (filled 16 64 [(1 : Int), 2, 3]) (Ptr.nodes 0 1)).1 + 1 =
        size (filled 16 64 [(1 : Int), 2, 3]) ∧
      capacity (erase 64 (filled 16 64 [(1 : Int), 2, 3]) (Ptr.nodes 0 1)).1 =
        capacity (filled 16 64 [(1 : Int), 2, 3]) :=
  ⟨reachable_insert_each (fun _ => true) [1, 2, 3] Reachable.new (by rfl), by rfl, by rfl,
    erase_removes_position 16 64 (by decide) (by decide)
      (reachable_insert_each (fun _ => true) [1, 2, 3] Reachable.new (by rfl)) 1 (Ptr.nodes 0 1)
      (by rfl)⟩

/-- C3: in every reachable state, for the handle `h` to the live element at
position `i`, `erase(h)` returns the handle that followed `h` in the occupied order
before the call (position `i + 1`, with `end()` after the last element): when `h`
was the last element it returns `end()`, otherwise the handle returned is now the
element at position `i`. -/
theorem erase_returns_successor [Layout T] (F w : Nat) (hF : 2 ≤ F) (hFw : F < 2 ^ w) {s : pyramid T}
    (hr : Reachable F w s) (i : Nat) (h : Ptr) (hh : (handles s)[i]? = some h) :
    (handles s ++ [end_ s])[i + 1]? = some (erase w s h).2 ∧
    (erase w s h).2 = next s h ∧
    (i + 1 = size s → (erase w s h).2 = end_ (erase w s h).1) ∧
    (i + 1 < size s → (handles s)[i + 1]? = some (erase w s h).2 ∧
      (handles (erase w s h).1)[i]? = some (erase w s h).2) := by
  obtain ⟨occ, fre, hwf⟩ := reachable_wf hF hFw hr
  rw [hwf.handles_eq] at hh ⊢
  obtain ⟨l1, l2, rfl, hl1⟩ := split_at_index hh
  obtain ⟨hwf1, hhead, _, _, _, _, _⟩ := wf_erase hwf
  have hsz : size s = l1.length + (l2.length + 1) := by
    rw [size, hwf.size_eq]; simp
  rw [hwf1.handles_eq]
  refine ⟨?_, rfl, ?_, ?_⟩
  · have : l1 ++ h :: l2 ++ [end_ s] = (l1 ++ [h]) ++ (l2 ++ [Ptr.occupied_nodes_]) := by
      simp [end_]
    rw [this, List.getElem?_append_right (by simp; omega)]
    have : i + 1 - (l1 ++ [h]).length = 0 := by simp; omega
    rw [this, ← hhead, List.head?_eq_getElem?]
  · intro hi
    have hl2 : l2 = [] := by
      apply List.eq_nil_of_length_eq_zero; omega
    subst hl2
    simp only [List.nil_append, List.head?_cons, Option.some.injEq] at hhead
    rw [← hhead]; rfl
  · intro hi
    cases l2 with
    | nil => simp at hsz; omega
    | cons b t =>
      simp only [List.cons_append, List.head?_cons, Option.some.injEq] at hhead
      rw [← hhead]
      constructor
      · have : l1 ++ h :: b :: t = (l1 ++ [h]) ++ b :: t := by simp
        rw [this, List.getElem?_append_right (by simp; omega)]
        have : i + 1 - (l1 ++ [h]).length = 0 := by simp; omega
        rw [this]; simp
      · rw [List.getElem?_append_right (by omega)]
        have : i - l1.length = 0 := by omega
        rw [this]; simp

/-- An instance of C3: the test "erase item" (lines 35-44 of the tests), where the
only element is erased and `end()` comes back. -/
theorem erase_returns_successor_witness :
    (handles (filled 16 64 [(-1 : Int)]))[0]? = some (Ptr.nodes 0 0) ∧
    (erase 64 (filled 16 64 [(-1 : Int)]) (Ptr.nodes 0 0)).2 =
      end_ (erase 64 (filled 16 64 [(-1 : Int)]) (Ptr.nodes 0 0)).1 :=
  ⟨by rfl,
    (erase_returns_successor 16 64 (by decide) (by decide)
      (reachable_insert_each (fun _ => true) [-1] Reachable.new (by rfl)) 0 (Ptr.nodes 0 0)
      (by rfl)).2.2.1 (by rfl)⟩

/-! ## Handles stay valid -/

theorem survives_wf [Layout T] {F w : Nat} (hF : 2 ≤ F) (hFw : F < 2 ^ w) {s s1 : pyramid T} {v v1 : T}
    {h : Ptr} {occ fre : List Ptr} (hwf : WellFormed F w s occ fre) (hh : h ∈ occ)
    (hv : deref s h = some v) (hs : Survives F w h s v s1 v1) :
    ∃ occ1 fre1, WellFormed F w s1 occ1 fre1 ∧ h ∈ occ1 ∧ deref s1 h = some v1 ∧
      s.pages_ <:+ s1.pages_ := by
  induction hs with
  | refl => exact ⟨occ, fre, hwf, hh, hv, List.suffix_refl _⟩
  | @insert_returned s2 s3 v1 x ok node _ heq ih =>
    obtain ⟨occ1, fre1, hwf1, hh1, hv1, hp1⟩ := ih
    rcases wf_insert hF hFw hwf1 ok x with
      ⟨s4, y, fre2, h1, h2, h3, h4⟩ | ⟨s4, h1, _⟩ | ⟨h1, _⟩
    rotate_left
    · rw [heq] at h1; cases h1
    · rw [heq] at h1; cases h1
    · rw [heq] at h1
      cases h1
      have hnd := h2.nodup
      rw [List.append_assoc, List.nodup_append] at hnd
      have hy : h ≠ node := by
        rintro rfl
        exact hnd.2.2 hh1 (by simp)
      refine ⟨_, _, h2, List.mem_append_left _ hh1, ?_, hp1.trans ?_⟩
      · rw [deref, h3, if_neg hy]; exact hv1
      · rcases h4 with h4 | h4
        · rw [h4.2.2.1]
        · rw [h4.2.2.2.2.2.2.1]; exact List.suffix_cons _ _
  | @insert_thrown s2 s3 v1 x ok e _ heq ih =>
    obtain ⟨occ1, fre1, hwf1, hh1, hv1, hp1⟩ := ih
    rcases wf_insert hF hFw hwf1 ok x with
      ⟨s4, y, fre2, h1, _⟩ | ⟨s4, h1, h2, _, h3, h4, _⟩ | ⟨h1, _⟩
    rotate_right
    · rw [heq] at h1; cases h1
    · rw [heq] at h1; cases h1
    · rw [heq] at h1
      cases h1
      refine ⟨_, _, h2, hh1, ?_, ?_⟩
      · rw [deref, h3]; exact hv1
      · rw [h4]; exact hp1
  | @erase s2 v1 g _ hg hne ih =>
    obtain ⟨occ1, fre1, hwf1, hh1, hv1, hp1⟩ := ih
    rw [hwf1.handles_eq] at hg
    obtain ⟨l1, l2, rfl⟩ := List.append_of_mem hg
    obtain ⟨hwf2, _, hitem, hpg, _⟩ := wf_erase hwf1
    refine ⟨_, _, hwf2, ?_, ?_, ?_⟩
    · simp only [List.mem_append, List.mem_cons] at hh1 ⊢
      rcases hh1 with h1 | h1 | h1
      · exact Or.inl h1
      · exact absurd h1.symm hne
      · exact Or.inr h1
    · rw [deref, hitem, if_neg (Ne.symm hne)]; exact hv1
    · rw [hpg]; exact hp1
  | @assign_other s2 v1 x g _ hg hne ih =>
    obtain ⟨occ1, fre1, hwf1, hh1, hv1, hp1⟩ := ih
    rw [hwf1.handles_eq] at hg
    refine ⟨_, _, wf_assign hwf1 hg x, hh1, ?_, hp1⟩
    simp only [deref, assign, set_item_item, if_neg (Ne.symm hne)]
    exact hv1
  | @assign_self s2 v1 x _ ih =>
    obtain ⟨occ1, fre1, hwf1, hh1, hv1, hp1⟩ := ih
    refine ⟨_, _, wf_assign hwf1 hh1 x, hh1, ?_, hp1⟩
    simp [deref, assign]

/-- C5: let `h` be the handle an `insert(v)` returned in a reachable state. After
any further calls of `insert` (returning or throwing, a page appended or not), of
`erase` on live handles other than `h` and of assignments through live handles, `h`
is still a live element, it is a node of the same page (the pages it knew are still
the tail of the chain, none moved or resized), and it dereferences to the value last
assigned through it, `v` when there was none. -/
theorem handle_stays_valid [Layout T] (F w : Nat) (hF : 2 ≤ F) (hFw : F < 2 ^ w) {s0 s s1 : pyramid T}
    {v v1 : T} {h : Ptr} {ok : Bool} (hr : Reachable F w s0)
    (hins : pyramid.insert F w ok v s0 = Outcome.returned s h)
    (hs : Survives F w h s v s1 v1) :
    h ∈ handles s1 ∧ deref s1 h = some v1 ∧ h ∈ all_slots s.pages_ ∧
      s.pages_ <:+ s1.pages_ := by
  obtain ⟨occ, fre, hwf⟩ := reachable_wf hF hFw hr
  rcases wf_insert hF hFw hwf ok v with ⟨s2, x, fre1, h1, h2, h3, _⟩ | ⟨s2, h1, _⟩ | ⟨h1, _⟩
  rotate_left
  · rw [hins] at h1; cases h1
  · rw [hins] at h1; cases h1
  · rw [hins] at h1
    cases h1
    have hv : deref s h = some v := by rw [deref, h3, if_pos rfl]
    obtain ⟨occ1, fre2, hwf1, hh1, hv1, hp1⟩ := survives_wf hF hFw h2 (by simp) hv hs
    refine ⟨by rw [hwf1.handles_eq]; exact hh1, hv1, ?_, hp1⟩
    exact h2.perm.subset (by simp)

/-- An instance of C5: with growth factor 2 the handle `insert(1)` returned is kept
across `insert(2)` and the growth-triggering `insert(3)`. -/
theorem handle_stays_valid_witness :
    Reachable 2 64 (pyramid.new Int 2) ∧
    pyramid.insert 2 64 true 1 (pyramid.new Int 2) =
      Outcome.returned (filled 2 64 [(1 : Int)]) (Ptr.nodes 0 0) ∧
    Survives 2 64 (Ptr.nodes 0 0) (filled 2 64 [(1 : Int)]) 1 (filled 2 64 [(1 : Int), 2, 3]) 1 ∧
    (filled 2 64 [(1 : Int)]).pages_.length + 1 = (filled 2 64 [(1 : Int), 2, 3]).pages_.length ∧
    (Ptr.nodes 0 0 ∈ handles (filled 2 64 [(1 : Int), 2, 3]) ∧
      deref (filled 2 64 [(1 : Int), 2, 3]) (Ptr.nodes 0 0) = some 1 ∧
      Ptr.nodes 0 0 ∈ all_slots (filled 2 64 [(1 : Int)]).pages_ ∧
      (filled 2 64 [(1 : Int)]).pages_ <:+ (filled 2 64 [(1 : Int), 2, 3]).pages_) := by
  have h1 : pyramid.insert 2 64 true 1 (pyramid.new Int 2) =
      Outcome.returned (filled 2 64 [(1 : Int)]) (Ptr.nodes 0 0) := by rfl
  have h2 : pyramid.insert 2 64 true 2 (filled 2 64 [(1 : Int)]) =
      Outcome.returned (filled 2 64 [(1 : Int), 2]) (Ptr.nodes 0 1) := by rfl
  have h3 : pyramid.insert 2 64 true 3 (filled 2 64 [(1 : Int), 2]) =
      Outcome.returned (filled 2 64 [(1 : Int), 2, 3]) (Ptr.nodes 1 0) := by rfl
  have hs : Survives 2 64 (Ptr.nodes 0 0) (filled 2 64 [(1 : Int)]) 1
      (filled 2 64 [(1 : Int), 2, 3]) 1 :=
    Survives.insert_returned (Survives.insert_returned Survives.refl h2) h3
  exact ⟨Reachable.new, h1, hs, by rfl,
    handle_stays_valid 2 64 (by decide) (by decide) Reachable.new h1 hs⟩

/-! ## Move construction -/

/-- C6, at the input of the test "move constructor" (lines 66-73 of the tests):
`source` holds -1 and `target` is constructed from `std::move(source)`. The target
holds -1, and so does the source still: `source.empty()` is false and
`source.size()` is 1, against the last line of the test. -/
theorem move_construct_keeps_source :
    move_construct 16 64 (fun _ => true) 1 (filled 16 64 [(-1 : Int)]) =
      some (Except.ok (filled 16 64 [(-1 : Int)], filled 16 64 [(-1 : Int)])) ∧
    elements 1 (filled 16 64 [(-1 : Int)]) = some [-1] ∧
    size (filled 16 64 [(-1 : Int)]) = 1 ∧
    empty (filled 16 64 [(-1 : Int)]) = false :=
  ⟨by rfl, by rfl, by rfl, by rfl⟩

/-- Whatever the source holds, a move construction that ends hands it back as it
was. -/
theorem move_construct_source [Layout T] {F w : Nat} {malloc_ok : Nat → Bool} {fuel : Nat}
    {source source1 target : pyramid T}
    (h : move_construct F w malloc_ok fuel source = some (Except.ok (source1, target))) :
    source1 = source := by
  unfold move_construct at h
  split at h
  · cases h
  · simp only [Option.some.injEq, Except.ok.injEq, Prod.mk.injEq] at h
    exact h.1.symm
  · cases h

/-! ## Failed growth -/

/-- C9, at a failing input: a default-constructed arena (`F = 16`) whose first
`insert` finds no memory. The call throws `std::bad_alloc`, and the growth target,
16 before the call, is 256 after it; the next `insert` that finds memory then
appends a page of 256 nodes where the arena that never failed appends 16. -/
theorem failed_insert_moves_estimate :
    size (pyramid.new Int 16) = capacity (pyramid.new Int 16) ∧
    (pyramid.new Int 16).next_page_estimate_ = 16 ∧
    ∃ s1, pyramid.insert 16 64 false (1 : Int) (pyramid.new Int 16) =
        Outcome.thrown Exception.bad_alloc s1 ∧
      s1.next_page_estimate_ = 256 ∧
      (∃ s2 h, pyramid.insert 16 64 true (1 : Int) s1 = Outcome.returned s2 h ∧
        capacity s2 = 256) ∧
      (∃ s3 h, pyramid.insert 16 64 true (1 : Int) (pyramid.new Int 16) =
        Outcome.returned s3 h ∧ capacity s3 = 16) :=
  ⟨by rfl, by rfl, _, by rfl, by rfl, ⟨_, _, by rfl, by rfl⟩, ⟨_, _, by rfl, by rfl⟩⟩

/-- In every well-formed arena that is full, an `insert` that finds no memory and
no wrap leaves the growth target changed. -/
theorem failed_insert_changes_estimate [Layout T] {F w : Nat} {s : pyramid T} {occ fre : List Ptr}
    (hF : 2 ≤ F) (hFw : F < 2 ^ w) (h : WellFormed F w s occ fre)
    (hfull : s.capacity_ = s.size_)
    (hov : ¬ s.next_page_estimate_ * F % 2 ^ w < s.next_page_estimate_) (v : T) :
    ∃ s1, pyramid.insert F w false v s = Outcome.thrown Exception.bad_alloc s1 ∧
      s1.next_page_estimate_ ≠ s.next_page_estimate_ := by
  refine ⟨_, insert_no_memory hfull hov v, ?_⟩
  have hgt := h.estimate_gt
  exact estimate_step_ne hF hFw (by omega) h.estimate_lt h.parity

/-! ## Growth overflow -/

/-- C10, at a failing input: a default-constructed arena with growth factor
`F = 2 ^ 32 + 1` on a 64-bit `size_type`. The growth target `F` times `F` is beyond
`2 ^ 64`, and the wrapped product `2 ^ 33 + 1` is not below `F`, so line 283 lets it
pass: with memory at hand `insert` returns with the growth target wrapped and a page
chained; without, the `std::bad_alloc` of line 290 leaves the target wrapped. -/
theorem overflow_not_reported :
    size (pyramid.new Int 4294967297) = capacity (pyramid.new Int 4294967297) ∧
    2 ^ 64 ≤ (pyramid.new Int 4294967297).next_page_estimate_ * 4294967297 ∧
    (∃ s1 h, pyramid.insert 4294967297 64 true (1 : Int) (pyramid.new Int 4294967297) =
        Outcome.returned s1 h ∧
      s1.next_page_estimate_ = 8589934593 ∧ s1.pages_ = [⟨0, 4294967297⟩] ∧
      capacity s1 = 4294967297 ∧ size s1 = 1) ∧
    (∃ s2, pyramid.insert 4294967297 64 false (1 : Int) (pyramid.new Int 4294967297) =
        Outcome.thrown Exception.bad_alloc s2 ∧
      s2.next_page_estimate_ = 8589934593) :=
  ⟨by rfl, by decide, ⟨_, _, by rfl, by rfl, by rfl, by rfl, by rfl⟩, ⟨_, by rfl, by rfl⟩⟩

/-! ## Copies -/

/-- The loop of the copy operations inserts the values of `other` one by one. -/
theorem insert_range_path [Layout T] {F w : Nat} (malloc_ok : Nat → Bool) (other : pyramid T) {a : Ptr}
    {l : List Ptr} {xs : List T} (h : Path other.memory a l Ptr.occupied_nodes_)
    (hl : Ptr.occupied_nodes_ ∉ l) (hv : l.map (deref other) = xs.map some) (fuel : Nat)
    (s : pyramid T) :
    (l.length ≤ fuel → insert_range F w malloc_ok other fuel (other.memory a).next_node s =
        some (insert_each F w malloc_ok xs s)) ∧
    (∀ t, insert_range F w malloc_ok other fuel (other.memory a).next_node s =
        some (Except.ok t) → insert_each F w malloc_ok xs s = Except.ok t) := by
  induction l generalizing a fuel xs s with
  | nil =>
    have : xs = [] := by
      cases xs with
      | nil => rfl
      | cons _ _ => simp at hv
    subst this
    have hr : insert_range F w malloc_ok other fuel (other.memory a).next_node s =
        some (Except.ok s) := by
      cases fuel <;> simp [insert_range, h.1, end_]
    rw [hr]
    exact ⟨fun _ => rfl, fun t ht => by simpa [insert_each] using ht⟩
  | cons b t ih =>
    cases xs with
    | nil => simp at hv
    | cons v vt =>
      simp only [List.map_cons, List.cons.injEq] at hv
      have hb : b ≠ Ptr.occupied_nodes_ := fun hb => hl (by simp [hb])
      have ht : Ptr.occupied_nodes_ ∉ t := fun h1 => hl (List.mem_cons_of_mem _ h1)
      cases fuel with
      | zero =>
        refine ⟨fun hf => by simp at hf, fun t1 ht1 => ?_⟩
        simp [insert_range, h.1.1, end_, hb] at ht1
      | succ f =>
        simp only [insert_range, h.1.1, end_, if_neg hb, hv.1, insert_each, pyramid.next]
        cases hi : pyramid.insert F w (malloc_ok s.pages_.length) v s with
        | returned s1 node =>
          simp only []
          obtain ⟨ih1, ih2⟩ := ih h.2 ht hv.2 f s1
          exact ⟨fun hf => ih1 (by simp only [List.length_cons] at hf; omega), ih2⟩
        | thrown e s1 =>
          simp
        | undefined s1 =>
          simp

/-- On a well-formed source the loop of the copy operations is a run of `insert`
over the values of the source. -/
theorem insert_range_wf [Layout T] {F w : Nat} (malloc_ok : Nat → Bool) {other : pyramid T}
    {occ fre : List Ptr} {xs : List T} (hwf : WellFormed F w other occ fre)
    (hv : occ.map (deref other) = xs.map some) (fuel : Nat) (s : pyramid T) :
    (size other ≤ fuel → insert_range F w malloc_ok other fuel (begin other) s =
        some (insert_each F w malloc_ok xs s)) ∧
    (∀ t, insert_range F w malloc_ok other fuel (begin other) s = some (Except.ok t) →
        insert_each F w malloc_ok xs s = Except.ok t) := by
  obtain ⟨h1, h2⟩ :=
    insert_range_path (F := F) (w := w) malloc_ok other hwf.occupied hwf.sentinel_not_mem hv
      fuel s
  refine ⟨fun hf => h1 ?_, h2⟩
  rw [← hwf.size_eq]; exact hf

/-- The copy constructor on a reachable `source`: when it ends without an exception
the new object is the arena that a run of `insert` over the values of the source
builds from the default-constructed state, with the `size()` and the
`begin()..end()` sequence of the source; with the steps to walk the source, memory
at hand and no wrap it does end so. -/
theorem copy_construct_copies [Layout T] (F w : Nat) (hF : 2 ≤ F) (hFw : F < 2 ^ w)
    {source : pyramid T} (hr : Reachable F w source) (malloc_ok : Nat → Bool) (fuel : Nat) :
    ∃ xs : List T, xs.length = size source ∧
      (∀ f, size source ≤ f → elements f source = some xs) ∧
      (∀ target, copy_construct F w malloc_ok fuel source = some (Except.ok target) →
        insert_each F w malloc_ok xs (pyramid.new T F) = Except.ok target ∧
        Reachable F w target ∧ size target = size source ∧
        ∀ f, size source ≤ f → elements f target = some xs) ∧
      (size source ≤ fuel → size source * F * F < 2 ^ w →
        Layout.sizeof_page T + size source * F * Layout.sizeof_node T ≤ 2 ^ w →
        ∃ target, copy_construct F w (fun _ => true) fuel source = some (Except.ok target)) := by
  obtain ⟨occ, fre, hwf⟩ := reachable_wf hF hFw hr
  obtain ⟨xs, hv⟩ := exists_values (f := deref source) (l := occ) hwf.live
  have hlen : xs.length = size source := by
    have := congrArg List.length hv
    simp only [List.length_map] at this
    rw [size, hwf.size_eq, this]
  refine ⟨xs, hlen, fun f hf => hwf.elements_eq hv hf, ?_, ?_⟩
  · intro target hc
    have hrun := (insert_range_wf malloc_ok hwf hv fuel _).2 target hc
    obtain ⟨h1, h2, h3⟩ := insert_each_new_elements hF hFw malloc_ok xs hrun
    exact ⟨hrun, h1, by rw [h2, hlen], fun f hf => h3 f (by rw [hlen]; exact hf)⟩
  · intro hf hn hb
    obtain ⟨t, ht⟩ := insert_each_new_returns (T := T) hF hFw xs (by rw [hlen]; exact hn)
      (by rw [hlen]; exact hb)
    refine ⟨t, ?_⟩
    unfold copy_construct
    rw [(insert_range_wf (fun _ => true) hwf hv fuel _).1 hf]
    exact congrArg some ht

/-- No call of the copy assignment ends with a `return`. -/
theorem copy_assign_not_ok [Layout T] (F w : Nat) (malloc_ok : Nat → Bool) (fuel : Nat)
    (source old target : pyramid T) :
    copy_assign F w malloc_ok fuel source old ≠ some (Except.ok target) := by
  unfold copy_assign
  intro h
  split at h
  · cases h
  · split at h
    · cases h
    · cases h
    · cases h

/-- Copy assignment between reachable arenas, with the steps to walk both, memory
at hand and no wrap: the loop copies the values of the source into the cleared
target, and then control flows off the end of `operator=`. -/
theorem copy_assign_runs_off [Layout T] (F w : Nat) (hF : 2 ≤ F) (hFw : F < 2 ^ w)
    {source old : pyramid T} (hr : Reachable F w source) (hold : Reachable F w old)
    (fuel : Nat) (hf : size source ≤ fuel) (hfo : size old ≤ fuel)
    (hn : size source * F * F < 2 ^ w)
    (hb : Layout.sizeof_page T + size source * F * Layout.sizeof_node T ≤ 2 ^ w) :
    ∃ xs target, (∀ f, size source ≤ f → elements f source = some xs) ∧
      copy_assign F w (fun _ => true) fuel source old =
        some (Except.error (Failure.undefined target)) ∧
      size target = size source ∧ ∀ f, size source ≤ f → elements f target = some xs := by
  obtain ⟨occ, fre, hwf⟩ := reachable_wf hF hFw hr
  obtain ⟨occ1, fre1, hwf1⟩ := reachable_wf hF hFw hold
  obtain ⟨xs, hv⟩ := exists_values (f := deref source) (l := occ) hwf.live
  have hlen : xs.length = size source := by
    have := congrArg List.length hv
    simp only [List.length_map] at this
    rw [size, hwf.size_eq, this]
  obtain ⟨t, ht⟩ := insert_each_new_returns (T := T) hF hFw xs (by rw [hlen]; exact hn)
    (by rw [hlen]; exact hb)
  obtain ⟨_, h2, h3⟩ := insert_each_new_elements hF hFw (fun _ => true) xs ht
  refine ⟨xs, t, fun f hf1 => hwf.elements_eq hv hf1, ?_, by rw [h2, hlen],
    fun f hf1 => h3 f (by rw [hlen]; exact hf1)⟩
  unfold copy_assign
  rw [(wf_clear hwf1 fuel).1 hfo]
  simp only []
  rw [(insert_range_wf (fun _ => true) hwf hv fuel _).1 hf, ht]

/-- C7, at the input of the test "assignment" (lines 56-63 of the tests): `source`
holds -1, `target` is default-constructed and `target = source` runs. The loop of
`operator=` copies -1 into the target, and then control reaches the end of the
body, lines 183-185, which holds no `return` statement for the declared `pyramid&`:
the call does not return, its behaviour is undefined from there on. Whatever
`malloc` does and however many steps are given, the call never ends with a
`return`. The copy constructor on the same source does return, with a target that
holds -1. -/
theorem copy_assign_falls_off_end :
    Reachable 16 64 (filled 16 64 [(-1 : Int)]) ∧
    (∃ target, copy_assign 16 64 (fun _ => true) 1 (filled 16 64 [(-1 : Int)])
        (pyramid.new Int 16) = some (Except.error (Failure.undefined target)) ∧
      size target = 1 ∧ elements 1 target = some [-1]) ∧
    (∀ malloc_ok fuel target, copy_assign 16 64 malloc_ok fuel (filled 16 64 [(-1 : Int)])
        (pyramid.new Int 16) ≠ some (Except.ok target)) ∧
    (∃ target, copy_construct 16 64 (fun _ => true) 1 (filled 16 64 [(-1 : Int)]) =
        some (Except.ok target) ∧ size target = 1 ∧ elements 1 target = some [-1]) :=
  ⟨reachable_insert_each (fun _ => true) [-1] Reachable.new (by rfl),
    ⟨_, by rfl, by rfl, by rfl⟩,
    fun malloc_ok fuel target => copy_assign_not_ok 16 64 malloc_ok fuel _ _ target,
    ⟨_, by rfl, by rfl, by rfl⟩⟩

/-! ## `clear` -/

/-- C8: in every reachable state `clear()` ends (given the steps to walk the live
elements) and what it leaves is the just-constructed state: `size() == 0`,
`capacity() == 0`, `begin() == end()`, growth target `F`, no pages, an empty free
list; the first page it appends will hold `F` nodes, and every run of inserts goes
as on a default-constructed arena. -/
theorem clear_resets [Layout T] (F w : Nat) (hF : 2 ≤ F) (hFw : F < 2 ^ w) {s : pyramid T}
    (hr : Reachable F w s) :
    (∀ fuel, size s ≤ fuel → clear F fuel s = some (pyramid.new T F)) ∧
    (∀ fuel s1, clear F fuel s = some s1 →
      s1 = pyramid.new T F ∧ size s1 = 0 ∧ capacity s1 = 0 ∧ begin s1 = end_ s1 ∧
      s1.next_page_estimate_ = F ∧ s1.pages_ = [] ∧
      (s1.memory Ptr.free_nodes_).next_node = Ptr.free_nodes_ ∧
      (s1.memory Ptr.free_nodes_).previous_node = Ptr.free_nodes_ ∧
      page_capacity w s1 = F ∧
      ∀ malloc_ok (vs : List T),
        insert_each F w malloc_ok vs s1 = insert_each F w malloc_ok vs (pyramid.new T F)) := by
  obtain ⟨occ, fre, hwf⟩ := reachable_wf hF hFw hr
  refine ⟨fun fuel hf => (wf_clear hwf fuel).1 hf, ?_⟩
  intro fuel s1 hs1
  have := (wf_clear hwf fuel).2 s1 hs1
  subst this
  refine ⟨rfl, rfl, rfl, ?_, rfl, rfl, ?_, ?_, ?_, fun _ _ => rfl⟩
  · simp [begin, end_, pyramid.new, init]
  · simp [pyramid.new, init]
  · simp [pyramid.new, init]
  · simp only [page_capacity, pyramid.new, init, raw, Nat.sub_zero]
    rw [Nat.add_mod_right, Nat.mod_eq_of_lt hFw]

/-- An instance of C8: `clear()` on the arena that holds 1, 2, 3. -/
theorem clear_resets_witness :
    Reachable 16 64 (filled 16 64 [(1 : Int), 2, 3]) ∧
    capacity (filled 16 64 [(1 : Int), 2, 3]) = 16 ∧
    (∀ fuel, size (filled 16 64 [(1 : Int), 2, 3]) ≤ fuel →
      clear 16 fuel (filled 16 64 [(1 : Int), 2, 3]) = some (pyramid.new Int 16)) :=
  ⟨reachable_insert_each (fun _ => true) [1, 2, 3] Reachable.new (by rfl), by rfl,
    (clear_resets 16 64 (by decide) (by decide)
      (reachable_insert_each (fun _ => true) [1, 2, 3] Reachable.new (by rfl))).1⟩

/-! ## Both lists as lists -/

theorem list_from_path {m : Memory T} {a z : Ptr} {l : List Ptr} (h : Path m a l z)
    (hl : z ∉ l) {fuel : Nat} (hf : l.length ≤ fuel) :
    list_from m z fuel (m a).next_node = some l := by
  induction l generalizing a fuel with
  | nil => cases fuel <;> simp [list_from, h.1]
  | cons b t ih =>
    have hb : b ≠ z := fun hb => hl (by simp [hb])
    cases fuel with
    | zero => simp at hf
    | succ f =>
      simp only [list_from, h.1.1, if_neg hb]
      rw [ih h.2 (fun h1 => hl (List.mem_cons_of_mem _ h1))
        (by simp only [List.length_cons] at hf; omega)]
      rfl

theorem WellFormed.occupied_list_eq {F w : Nat} {s : pyramid T} {occ fre : List Ptr}
    (h : WellFormed F w s occ fre) {fuel : Nat} (hf : size s ≤ fuel) :
    occupied_list fuel s = some occ :=
  list_from_path h.occupied h.sentinel_not_mem (by rw [← h.size_eq]; exact hf)

theorem WellFormed.free_list_eq {F w : Nat} {s : pyramid T} {occ fre : List Ptr}
    (h : WellFormed F w s occ fre) {fuel : Nat} (hf : capacity s - size s ≤ fuel) :
    free_list fuel s = some fre := by
  refine list_from_path h.free ?_ ?_
  · intro hm
    obtain ⟨b, i, hp, _⟩ := h.slot (List.mem_append_right _ hm)
    cases hp
  · have h1 := h.size_eq
    have h2 := h.capacity_eq
    simp only [capacity, size] at hf
    omega

/-- C12: in every reachable state (a superset of the states reached by successful
`insert`, `erase` of live handles and `clear`), the occupied list and the free list
close on their sentinels, the occupied list has `size()` members, the free list
`capacity() - size()`, and every node of every page of the chain is a member of one
of the two lists and not of both, once. -/
theorem slots_partitioned [Layout T] (F w : Nat) (hF : 2 ≤ F) (hFw : F < 2 ^ w) {s : pyramid T}
    (hr : Reachable F w s) :
    ∃ occ fre : List Ptr,
      (∀ fuel, size s ≤ fuel → occupied_list fuel s = some occ) ∧
      (∀ fuel, capacity s - size s ≤ fuel → free_list fuel s = some fre) ∧
      occ.length = size s ∧ fre.length = capacity s - size s ∧
      (∀ p, p ∈ all_slots s.pages_ ↔ (p ∈ occ ∨ p ∈ fre)) ∧
      (∀ p, ¬ (p ∈ occ ∧ p ∈ fre)) ∧
      occ.Nodup ∧ fre.Nodup ∧ (all_slots s.pages_).Nodup := by
  obtain ⟨occ, fre, hwf⟩ := reachable_wf hF hFw hr
  have hnd := hwf.nodup
  rw [List.nodup_append] at hnd
  refine ⟨occ, fre, fun _ hf => hwf.occupied_list_eq hf, fun _ hf => hwf.free_list_eq hf,
    hwf.size_eq.symm, ?_, ?_, ?_, hnd.1, hnd.2.1, all_slots_nodup hwf.chained⟩
  · have h1 := hwf.size_eq
    have h2 := hwf.capacity_eq
    simp only [capacity, size]
    omega
  · intro p
    rw [← hwf.perm.mem_iff, List.mem_append]
  · intro p hp
    exact hnd.2.2 hp.1 hp.2

/-- An instance of C12: the arena of 1, 2, 3 after the handle to 2 was erased. -/
theorem slots_partitioned_witness :
    Reachable 16 64 (erase 64 (filled 16 64 [(1 : Int), 2, 3]) (Ptr.nodes 0 1)).1 ∧
    occupied_list 2 (erase 64 (filled 16 64 [(1 : Int), 2, 3]) (Ptr.nodes 0 1)).1 =
      some [Ptr.nodes 0 0, Ptr.nodes 0 2] ∧
    ∃ occ fre : List Ptr,
      (∀ fuel, size (erase 64 (filled 16 64 [(1 : Int), 2, 3]) (Ptr.nodes 0 1)).1 ≤ fuel →
        occupied_list fuel (erase 64 (filled 16 64 [(1 : Int), 2, 3]) (Ptr.nodes 0 1)).1 =
          some occ) ∧
      (∀ fuel, capacity (erase 64 (filled 16 64 [(1 : Int), 2, 3]) (Ptr.nodes 0 1)).1 -
          size (erase 64 (filled 16 64 [(1 : Int), 2, 3]) (Ptr.nodes 0 1)).1 ≤ fuel →
        free_list fuel (erase 64 (filled 16 64 [(1 : Int), 2, 3]) (Ptr.nodes 0 1)).1 =
          some fre) ∧
      occ.length = size (erase 64 (filled 16 64 [(1 : Int), 2, 3]) (Ptr.nodes 0 1)).1 ∧
      fre.length = capacity (erase 64 (filled 16 64 [(1 : Int), 2, 3]) (Ptr.nodes 0 1)).1 -
        size (erase 64 (filled 16 64 [(1 : Int), 2, 3]) (Ptr.nodes 0 1)).1 ∧
      (∀ p, p ∈ all_slots (erase 64 (filled 16 64 [(1 : Int), 2, 3]) (Ptr.nodes 0 1)).1.pages_ ↔
        (p ∈ occ ∨ p ∈ fre)) ∧
      (∀ p, ¬ (p ∈ occ ∧ p ∈ fre)) ∧
      occ.Nodup ∧ fre.Nodup ∧
      (all_slots (erase 64 (filled 16 64 [(1 : Int), 2, 3]) (Ptr.nodes 0 1)).1.pages_).Nodup := by
  have hh : Ptr.nodes 0 1 ∈ handles (filled 16 64 [(1 : Int), 2, 3]) := by
    have : handles (filled 16 64 [(1 : Int), 2, 3]) =
        [Ptr.nodes 0 0, Ptr.nodes 0 1, Ptr.nodes 0 2] := by rfl
    rw [this]; decide
  have hr : Reachable 16 64 (erase 64 (filled 16 64 [(1 : Int), 2, 3]) (Ptr.nodes 0 1)).1 :=
    Reachable.erase (reachable_insert_each (fun _ => true) [1, 2, 3] Reachable.new (by rfl)) hh
  exact ⟨hr, by rfl, slots_partitioned 16 64 (by decide) (by decide) hr⟩

/-! ## `insert` on reachable states -/

/-- C13: in every reachable state `size() <= capacity()`, and an `insert` that
returns has appended a page exactly when `size() == capacity()` held before the
call, and then `capacity()` has grown; otherwise the page chain and `capacity()` are
as before. -/
theorem page_appended_iff_full [Layout T] (F w : Nat) (hF : 2 ≤ F) (hFw : F < 2 ^ w) {s : pyramid T}
    (hr : Reachable F w s) :
    size s ≤ capacity s ∧
    ∀ (ok : Bool) (v : T) (s1 : pyramid T) (h : Ptr),
      pyramid.insert F w ok v s = Outcome.returned s1 h →
      ((∃ page, s1.pages_ = page :: s.pages_) ↔ size s = capacity s) ∧
      (capacity s < capacity s1 ↔ size s = capacity s) ∧
      (size s ≠ capacity s → s1.pages_ = s.pages_ ∧ capacity s1 = capacity s) := by
  obtain ⟨occ, fre, hwf⟩ := reachable_wf hF hFw hr
  have h1 := hwf.size_eq
  have h2 := hwf.capacity_eq
  refine ⟨by simp only [size, capacity]; omega, ?_⟩
  intro ok v s1 h hins
  rcases wf_insert hF hFw hwf ok v with
    ⟨s2, x, fre1, e1, _, _, hcase⟩ | ⟨s2, e1, _⟩ | ⟨e1, _⟩
  rotate_left
  · rw [hins] at e1; cases e1
  · rw [hins] at e1; cases e1
  · rw [hins] at e1
    cases e1
    rcases hcase with ⟨hne, _, hp, hc, _⟩ | ⟨hfull, _, _, _, _, _, hp, hc, _⟩
    · have hne1 : ¬ size s = capacity s := fun h => hne h.symm
      refine ⟨⟨?_, fun h => absurd h hne1⟩, ⟨?_, fun h => absurd h hne1⟩, fun _ => ⟨hp, hc⟩⟩
      · rintro ⟨page, hpage⟩
        rw [hp] at hpage
        have := congrArg List.length hpage
        simp at this
      · intro hlt
        simp only [capacity] at hlt
        omega
    · have hgt := hwf.estimate_gt
      refine ⟨⟨fun _ => hfull.symm, fun _ => ⟨_, hp⟩⟩, ⟨fun _ => hfull.symm, fun _ => ?_⟩,
        fun hne => absurd hfull.symm hne⟩
      simp only [capacity]
      omega

/-- An instance of C13: with growth factor 2 the arena of 1, 2 is full, and the
third `insert` appends the second page. -/
theorem page_appended_iff_full_witness :
    Reachable 2 64 (filled 2 64 [(1 : Int), 2]) ∧
    pyramid.insert 2 64 true 3 (filled 2 64 [(1 : Int), 2]) =
      Outcome.returned (filled 2 64 [(1 : Int), 2, 3]) (Ptr.nodes 1 0) ∧
    size (filled 2 64 [(1 : Int), 2]) = capacity (filled 2 64 [(1 : Int), 2]) ∧
    capacity (filled 2 64 [(1 : Int), 2]) < capacity (filled 2 64 [(1 : Int), 2, 3]) ∧
    ∃ page, (filled 2 64 [(1 : Int), 2, 3]).pages_ = page :: (filled 2 64 [(1 : Int), 2]).pages_ := by
  have hr : Reachable 2 64 (filled 2 64 [(1 : Int), 2]) :=
    reachable_insert_each (fun _ => true) [1, 2] Reachable.new (by rfl)
  have hins : pyramid.insert 2 64 true 3 (filled 2 64 [(1 : Int), 2]) =
      Outcome.returned (filled 2 64 [(1 : Int), 2, 3]) (Ptr.nodes 1 0) := by rfl
  have hfull : size (filled 2 64 [(1 : Int), 2]) = capacity (filled 2 64 [(1 : Int), 2]) := by
    rfl
  obtain ⟨_, h⟩ := page_appended_iff_full 2 64 (by decide) (by decide) hr
  obtain ⟨h1, h2, _⟩ := h true 3 _ _ hins
  exact ⟨hr, hins, hfull, h2.mpr hfull, h1.mpr hfull⟩

theorem path_last_next {m : Memory T} {a x z : Ptr} {l : List Ptr}
    (h : Path m a (l ++ [x]) z) : (m x).next_node = z ∧ (m z).previous_node = x :=
  (path_append.mp h).2

/-- C14: in every reachable state with occupied sequence `xs`, an `insert(v)` that
returns (into a fresh node or one erased before) makes the occupied sequence `xs`
followed by `v`, adds exactly 1 to `size()`, and returns a handle that dereferences
to `v`, is the last element (`++` leads to `end()`, `--end()` leads to it) and is
`begin()` when `xs` is empty. -/
theorem insert_appends [Layout T] (F w : Nat) (hF : 2 ≤ F) (hFw : F < 2 ^ w) {s s1 : pyramid T}
    {ok : Bool} {v : T} {h : Ptr} (hr : Reachable F w s)
    (hins : pyramid.insert F w ok v s = Outcome.returned s1 h) :
    ∃ xs : List T, xs.length = size s ∧
      (∀ fuel, size s ≤ fuel → elements fuel s = some xs) ∧
      (∀ fuel, size s + 1 ≤ fuel → elements fuel s1 = some (xs ++ [v])) ∧
      size s1 = size s + 1 ∧
      handles s1 = handles s ++ [h] ∧
      deref s1 h = some v ∧
      next s1 h = end_ s1 ∧
      prev s1 (end_ s1) = h ∧
      (xs = [] → begin s1 = h) := by
  obtain ⟨occ, fre, hwf⟩ := reachable_wf hF hFw hr
  obtain ⟨xs, hv⟩ := exists_values (f := deref s) (l := occ) hwf.live
  have hlen : xs.length = occ.length := by
    have := congrArg List.length hv
    simpa using this.symm
  rcases wf_insert hF hFw hwf ok v with
    ⟨s2, x, fre1, e1, hwf1, hitem, _⟩ | ⟨s2, e1, _⟩ | ⟨e1, _⟩
  rotate_left
  · rw [hins] at e1; cases e1
  · rw [hins] at e1; cases e1
  · rw [hins] at e1
    cases e1
    have hv1 := insert_values hwf1 hitem hv
    have hsz : s1.size_ = s.size_ + 1 := by
      rw [hwf1.size_eq, hwf.size_eq]; simp
    have hlast := path_last_next hwf1.occupied
    refine ⟨xs, by rw [hlen, size, hwf.size_eq], fun fuel hf => hwf.elements_eq hv hf, ?_, hsz,
      ?_, ?_, hlast.1, hlast.2, ?_⟩
    · intro fuel hf
      exact hwf1.elements_eq hv1 (by rw [hsz]; exact hf)
    · rw [hwf1.handles_eq, hwf.handles_eq]
    · rw [deref, hitem, if_pos rfl]
    · intro hxs
      subst hxs
      have : occ = [] := List.eq_nil_of_length_eq_zero (by simpa using hlen.symm)
      subst this
      exact hwf1.occupied.1.1

/-- An instance of C14: the test "insert item" (lines 21-32 of the tests). -/
theorem insert_appends_witness :
    Reachable 16 64 (pyramid.new Int 16) ∧
    pyramid.insert 16 64 true (-1) (pyramid.new Int 16) =
      Outcome.returned (filled 16 64 [(-1 : Int)]) (Ptr.nodes 0 0) ∧
    size (filled 16 64 [(-1 : Int)]) = 1 ∧
    deref (filled 16 64 [(-1 : Int)]) (Ptr.nodes 0 0) = some (-1) ∧
    begin (filled 16 64 [(-1 : Int)]) = Ptr.nodes 0 0 ∧
    elements 1 (filled 16 64 [(-1 : Int)]) = some [-1] := by
  have hins : pyramid.insert 16 64 true (-1) (pyramid.new Int 16) =
      Outcome.returned (filled 16 64 [(-1 : Int)]) (Ptr.nodes 0 0) := by rfl
  obtain ⟨xs, h0, h1, h2, h3, _, h5, _, _, h8⟩ :=
    insert_appends 16 64 (by decide) (by decide) Reachable.new hins
  have hxs : xs = [] := List.eq_nil_of_length_eq_zero (by rw [h0]; rfl)
  subst hxs
  exact ⟨Reachable.new, hins, by rw [h3]; rfl, h5, h8 rfl, h2 1 (by decide)⟩

/-- C16: in every reachable state `empty()` holds exactly when `size() == 0`, and
that exactly when `begin() == end()`; the default-constructed arena satisfies all
three and has `capacity() == 0`. -/
theorem empty_iff_size_zero [Layout T] (F w : Nat) (hF : 2 ≤ F) (hFw : F < 2 ^ w) {s : pyramid T}
    (hr : Reachable F w s) :
    (empty s = true ↔ size s = 0) ∧ (size s = 0 ↔ begin s = end_ s) ∧
    empty (pyramid.new T F) = true ∧ size (pyramid.new T F) = 0 ∧
    begin (pyramid.new T F) = end_ (pyramid.new T F) ∧ capacity (pyramid.new T F) = 0 := by
  obtain ⟨occ, fre, hwf⟩ := reachable_wf hF hFw hr
  refine ⟨by simp [empty, size], ?_, rfl, rfl, by simp [begin, end_, pyramid.new, init], rfl⟩
  rw [size, hwf.size_eq]
  constructor
  · intro h0
    have : occ = [] := List.eq_nil_of_length_eq_zero h0
    subst this
    exact hwf.occupied.1
  · intro hb
    cases occ with
    | nil => rfl
    | cons b t =>
      exfalso
      have h1 : (s.memory Ptr.occupied_nodes_).next_node = b := hwf.occupied.1.1
      have h2 : b = Ptr.occupied_nodes_ := by rw [← h1]; exact hb
      exact hwf.sentinel_not_mem (by simp [h2])

/-- An instance of C16: the test "erase item" (lines 35-44 of the tests), an arena
that is empty with capacity 16. -/
theorem empty_iff_size_zero_witness :
    Reachable 16 64 (erase 64 (filled 16 64 [(-1 : Int)]) (Ptr.nodes 0 0)).1 ∧
    capacity (erase 64 (filled 16 64 [(-1 : Int)]) (Ptr.nodes 0 0)).1 = 16 ∧
    empty (erase 64 (filled 16 64 [(-1 : Int)]) (Ptr.nodes 0 0)).1 = true ∧
    begin (erase 64 (filled 16 64 [(-1 : Int)]) (Ptr.nodes 0 0)).1 =
      end_ (erase 64 (filled 16 64 [(-1 : Int)]) (Ptr.nodes 0 0)).1 := by
  have hh : Ptr.nodes 0 0 ∈ handles (filled 16 64 [(-1 : Int)]) := by
    have : handles (filled 16 64 [(-1 : Int)]) = [Ptr.nodes 0 0] := by rfl
    rw [this]; decide
  have hr : Reachable 16 64 (erase 64 (filled 16 64 [(-1 : Int)]) (Ptr.nodes 0 0)).1 :=
    Reachable.erase (reachable_insert_each (fun _ => true) [-1] Reachable.new (by rfl)) hh
  obtain ⟨h1, h2, _⟩ := empty_iff_size_zero 16 64 (by decide) (by decide) hr
  have hsz : size (erase 64 (filled 16 64 [(-1 : Int)]) (Ptr.nodes 0 0)).1 = 0 := by rfl
  exact ⟨hr, by rfl, h1.mpr hsz, h2.mp hsz⟩

/-- C19: in every reachable state and for every live handle `h`, `erase(h)` makes
the node of `h` the head of the free list, and the `insert(v)` that follows, with or
without memory at hand, returns the handle `h`, appends no page and leaves
`capacity()` as it was. -/
theorem erased_slot_reused [Layout T] (F w : Nat) (hF : 2 ≤ F) (hFw : F < 2 ^ w) {s : pyramid T}
    {h : Ptr} (hr : Reachable F w s) (hh : h ∈ handles s) :
    (∃ fre : List Ptr,
      (∀ fuel, capacity s - size s ≤ fuel → free_list fuel s = some fre) ∧
      (∀ fuel, capacity s - size s + 1 ≤ fuel →
        free_list fuel (erase w s h).1 = some (h :: fre))) ∧
    ∀ (ok : Bool) (v : T), ∃ s1,
      pyramid.insert F w ok v (erase w s h).1 = Outcome.returned s1 h ∧
      s1.pages_ = s.pages_ ∧ capacity s1 = capacity s ∧ deref s1 h = some v := by
  obtain ⟨occ, fre, hwf⟩ := reachable_wf hF hFw hr
  rw [hwf.handles_eq] at hh
  obtain ⟨l1, l2, rfl⟩ := List.append_of_mem hh
  obtain ⟨hwf1, _, _, hp, hc, _, hsz⟩ := wf_erase hwf
  have h1 := hwf.size_eq
  have h2 := hwf.capacity_eq
  constructor
  · refine ⟨fre, fun fuel hf => hwf.free_list_eq hf, fun fuel hf => hwf1.free_list_eq ?_⟩
    simp only [capacity, size] at hf ⊢
    omega
  · intro ok v
    rcases wf_insert hF hFw hwf1 ok v with
      ⟨s2, x, fre1, e1, _, hitem, hcase⟩ | ⟨s2, _, _, hfull, _⟩ | ⟨_, hfull, _⟩
    · rcases hcase with ⟨_, hx, hp2, hc2, _⟩ | ⟨hfull, _⟩
      · simp only [List.cons.injEq] at hx
        obtain ⟨rfl, _⟩ := hx
        exact ⟨s2, e1, by rw [hp2, hp], by simp only [capacity]; rw [hc2, hc],
          by rw [deref, hitem, if_pos rfl]⟩
      · exfalso
        simp only [List.length_append, List.length_cons] at h1 h2
        omega
    · exfalso
      simp only [List.length_append, List.length_cons] at h1 h2
      omega
    · exfalso
      simp only [List.length_append, List.length_cons] at h1 h2
      omega

/-- An instance of C19: in the arena of 1, 2, 3 the handle to 2 is erased and the
next `insert` returns it. -/
theorem erased_slot_reused_witness :
    Reachable 16 64 (filled 16 64 [(1 : Int), 2, 3]) ∧
    Ptr.nodes 0 1 ∈ handles (filled 16 64 [(1 : Int), 2, 3]) ∧
    ∃ s1, pyramid.insert 16 64 false 9
        (erase 64 (filled 16 64 [(1 : Int), 2, 3]) (Ptr.nodes 0 1)).1 =
        Outcome.returned s1 (Ptr.nodes 0 1) ∧
      s1.pages_ = (filled 16 64 [(1 : Int), 2, 3]).pages_ ∧
      capacity s1 = capacity (filled 16 64 [(1 : Int), 2, 3]) ∧
      deref s1 (Ptr.nodes 0 1) = some 9 := by
  have hh : Ptr.nodes 0 1 ∈ handles (filled 16 64 [(1 : Int), 2, 3]) := by
    have : handles (filled 16 64 [(1 : Int), 2, 3]) =
        [Ptr.nodes 0 0, Ptr.nodes 0 1, Ptr.nodes 0 2] := by rfl
    rw [this]; decide
  have hr : Reachable 16 64 (filled 16 64 [(1 : Int), 2, 3]) :=
    reachable_insert_each (fun _ => true) [1, 2, 3] Reachable.new (by rfl)
  exact ⟨hr, hh, (erased_slot_reused 16 64 (by decide) (by decide) hr hh).2 false 9⟩

/-! ## The error of a failed `insert` -/

/-- C11 fails: with `F = 16` on a 64-bit `size_type`, the arena that 14 inserts
without memory left behind is full and its growth target times 16 is `2 ^ 64`, so the
next `insert`, memory at hand, fails for growth overflow; the first `insert` into a
default-constructed arena without memory fails for lack of memory. Both throw
`std::bad_alloc`: the errors are equal. -/
theorem failures_throw_same_error :
    size (starved 16 64 (1 : Int) 14) = capacity (starved 16 64 (1 : Int) 14) ∧
    (starved 16 64 (1 : Int) 14).next_page_estimate_ * 16 = 2 ^ 64 ∧
    (pyramid.insert 16 64 true 1 (starved 16 64 (1 : Int) 14)).exception =
      some Exception.bad_alloc ∧
    size (pyramid.new Int 16) = capacity (pyramid.new Int 16) ∧
    (pyramid.new Int 16).next_page_estimate_ * 16 < 2 ^ 64 ∧
    (pyramid.insert 16 64 false 1 (pyramid.new Int 16)).exception =
      some Exception.bad_alloc ∧
    (pyramid.insert 16 64 true 1 (starved 16 64 (1 : Int) 14)).exception =
      (pyramid.insert 16 64 false 1 (pyramid.new Int 16)).exception :=
  ⟨by rfl, by rfl, by rfl, by rfl, by decide, by rfl, by rfl⟩

/-- C11 as amended: an `insert` that fails for growth overflow (the arena full, the
growth target times `F` wrapping below the target) and an `insert` that fails for
lack of memory (the arena full, no wrap seen, `malloc` returning null) report the
same error, `std::bad_alloc`. -/
theorem failures_throw_bad_alloc [Layout T] (F w : Nat) (s s2 : pyramid T) (ok : Bool) (v : T)
    (hfull : s.capacity_ = s.size_)
    (hov : s.next_page_estimate_ * F % 2 ^ w < s.next_page_estimate_)
    (hfull2 : s2.capacity_ = s2.size_)
    (hno : ¬ s2.next_page_estimate_ * F % 2 ^ w < s2.next_page_estimate_) :
    (pyramid.insert F w ok v s).exception = some Exception.bad_alloc ∧
    (pyramid.insert F w false v s2).exception = some Exception.bad_alloc ∧
    (pyramid.insert F w ok v s).exception = (pyramid.insert F w false v s2).exception := by
  rw [insert_overflow hfull hov ok v, insert_no_memory hfull2 hno v]
  exact ⟨rfl, rfl, rfl⟩

/-- An instance of the amended C11, at the two arenas of `failures_throw_same_error`. -/
theorem failures_throw_bad_alloc_witness :
    (pyramid.insert 16 64 true 1 (starved 16 64 (1 : Int) 14)).exception =
      some Exception.bad_alloc ∧
    (pyramid.insert 16 64 false 1 (pyramid.new Int 16)).exception =
      some Exception.bad_alloc ∧
    (pyramid.insert 16 64 true 1 (starved 16 64 (1 : Int) 14)).exception =
      (pyramid.insert 16 64 false 1 (pyramid.new Int 16)).exception :=
  failures_throw_bad_alloc 16 64 (starved 16 64 (1 : Int) 14) (pyramid.new Int 16) true 1
    (by rfl) (by decide) (by rfl) (by decide)

/-! ## Page sizes -/

/-- C15 fails at page 0: with `F = 16` the first page appended holds 16 nodes, not
`16 ^ 1 - 16 ^ 0 = 15`; and with no page the capacity is 0, not `16 ^ 0 = 1`. -/
theorem first_page_holds_F :
    (filled 16 64 [(1 : Int)]).pages_.reverse[0]? = some ⟨0, 16⟩ ∧
    16 ^ (0 + 1) - 16 ^ 0 = 15 ∧
    (pyramid.new Int 16).pages_.length = 0 ∧ capacity (pyramid.new Int 16) = 0 ∧
    ¬ (∀ (i : Nat) (page : pyramid_page), (filled 16 64 [(1 : Int)]).pages_.reverse[i]? = some page →
      page.capacity = 16 ^ (i + 1) - 16 ^ i) := by
  refine ⟨by rfl, by decide, by rfl, by rfl, ?_⟩
  intro h
  have := h 0 ⟨0, 16⟩ (by rfl)
  simp at this

theorem built_clear_fields {F : Nat} {fuel : Nat} {s s1 : pyramid T}
    (h : clear F fuel s = some s1) :
    s1.pages_ = [] ∧ s1.capacity_ = 0 ∧ s1.next_page_estimate_ = F := by
  unfold clear at h
  split at h
  · cases h
  · simp only [Option.some.injEq] at h
    subst h
    exact ⟨rfl, rfl, rfl⟩

/-- The sizes of the arena while `malloc` never fails and the target never wraps. -/
theorem built_sizes [Layout T] {F w : Nat} (hF : 2 ≤ F) {s : pyramid T} (hb : Built F w s)
    (hw : F ^ (s.pages_.length + 1) < 2 ^ w) :
    s.next_page_estimate_ = F ^ (s.pages_.length + 1) ∧
    s.capacity_ = (if s.pages_.length = 0 then 0 else F ^ s.pages_.length) ∧
    ∀ (i : Nat) (page : pyramid_page), s.pages_.reverse[i]? = some page →
      page.base = i ∧ page.capacity = page_size F i := by
  induction hb with
  | new =>
    refine ⟨by simp [pyramid.new, init], by simp [pyramid.new, init], ?_⟩
    intro i page hp
    simp [pyramid.new, init] at hp
  | @insert_returned s s1 v node _ heq ih =>
    by_cases hfull : s.capacity_ = s.size_
    · by_cases hov : s.next_page_estimate_ * F % 2 ^ w < s.next_page_estimate_
      · rw [insert_overflow hfull hov true v] at heq
        cases heq
      · have hfit : page_fits T w (page_capacity w s) = true := by
          cases hb : page_fits T w (page_capacity w s) with
          | true => rfl
          | false =>
            rw [insert_out_of_block hfull hov hb v] at heq
            cases heq
        rw [insert_grow hfull hov hfit v] at heq
        simp only [Outcome.returned.injEq] at heq
        obtain ⟨hs1, _⟩ := heq
        have hp1 : s1.pages_ = ⟨s.pages_.length, page_capacity w s⟩ :: s.pages_ := by
          rw [← hs1]; rfl
        have he1 : s1.next_page_estimate_ = s.next_page_estimate_ * F % 2 ^ w := by
          rw [← hs1]; rfl
        have hc1 : s1.capacity_ = (s.capacity_ + page_capacity w s) % 2 ^ w := by
          rw [← hs1]; rfl
        rw [hp1] at hw ⊢
        simp only [List.length_cons] at hw ⊢
        have hpow : F ^ (s.pages_.length + 1) < F ^ (s.pages_.length + 1 + 1) :=
          Nat.pow_lt_pow_right (by omega) (by omega)
        obtain ⟨ihe, ihc, ihp⟩ := ih (by omega)
        have hpow0 : F ^ s.pages_.length < F ^ (s.pages_.length + 1) :=
          Nat.pow_lt_pow_right (by omega) (by omega)
        have hpos : 0 < F ^ s.pages_.length := Nat.pow_pos (by omega)
        have hsz : s.size_ < F ^ (s.pages_.length + 1) := by
          rw [← hfull, ihc]; split_ifs <;> omega
        have hpc : page_capacity w s = F ^ (s.pages_.length + 1) - s.size_ := by
          unfold page_capacity
          rw [ihe]
          have : F ^ (s.pages_.length + 1) + 2 ^ w - s.size_ =
              (F ^ (s.pages_.length + 1) - s.size_) + 2 ^ w := by omega
          rw [this, Nat.add_mod_right, Nat.mod_eq_of_lt (by omega)]
        refine ⟨?_, ?_, ?_⟩
        · rw [he1, ihe, ← pow_succ, Nat.mod_eq_of_lt hw]
        · rw [hc1, hpc, if_neg (by omega), hfull, Nat.mod_eq_of_lt (by omega)]
          omega
        · intro i page hp
          rw [List.reverse_cons] at hp
          by_cases hi : i < s.pages_.length
          · rw [List.getElem?_append_left (by simpa using hi)] at hp
            exact ihp i page hp
          · rw [List.getElem?_append_right (by simp; omega)] at hp
            simp only [List.length_reverse] at hp
            have hi0 : i - s.pages_.length = 0 := by
              by_contra hne
              rw [List.getElem?_eq_none (by simp; omega)] at hp
              cases hp
            rw [hi0] at hp
            simp only [List.getElem?_cons_zero, Option.some.injEq] at hp
            have hil : i = s.pages_.length := by omega
            subst hp
            refine ⟨hil.symm, ?_⟩
            simp only [hpc, page_size, hil]
            rw [← hfull, ihc]
            split_ifs with h0
            · simp [h0]
            · rfl
    · rw [insert_take hfull true v] at heq
      simp only [Outcome.returned.injEq] at heq
      obtain ⟨hs1, _⟩ := heq
      have hp1 : s1.pages_ = s.pages_ := by rw [← hs1]; rfl
      have he1 : s1.next_page_estimate_ = s.next_page_estimate_ := by rw [← hs1]; rfl
      have hc1 : s1.capacity_ = s.capacity_ := by rw [← hs1]; rfl
      rw [hp1, he1, hc1]
      rw [hp1] at hw
      exact ih hw
  | @erase s h _ _ ih => exact ih hw
  | @assign s h v _ _ ih => exact ih hw
  | @clear s s1 fuel _ heq ih =>
    obtain ⟨h1, h2, h3⟩ := built_clear_fields heq
    rw [h1, h2, h3]
    refine ⟨by simp, by simp, ?_⟩
    intro i page hp
    simp at hp

/-- C15 as amended: for every growth factor `F >= 2`, while `malloc` never fails
and the growth target `F ^ (page_count + 1)` stays in range, the page appended first
(index 0) holds `F` nodes and the page of index `i >= 1` holds `F ^ (i + 1) - F ^ i`,
so that the capacity is `F ^ page_count` for every number of pages
`page_count >= 1` (and 0 with no page). -/
theorem page_sizes_geometric [Layout T] (F w : Nat) (hF : 2 ≤ F) {s : pyramid T} (hb : Built F w s)
    (hw : F ^ (s.pages_.length + 1) < 2 ^ w) :
    (∀ (i : Nat) (page : pyramid_page), s.pages_.reverse[i]? = some page →
      page.capacity = if i = 0 then F else F ^ (i + 1) - F ^ i) ∧
    (1 ≤ s.pages_.length → capacity s = F ^ s.pages_.length) ∧
    (s.pages_.length = 0 → capacity s = 0) := by
  obtain ⟨_, hc, hp⟩ := built_sizes hF hb hw
  refine ⟨fun i page h => (hp i page h).2, ?_, ?_⟩
  · intro h1
    rw [capacity, hc, if_neg (by omega)]
  · intro h0
    rw [capacity, hc, if_pos h0]

/-- An instance of the amended C15: with growth factor 2, three inserts leave a
first page of 2 nodes, a second of `2 ^ 2 - 2 ^ 1` and capacity `2 ^ 2`. -/
theorem page_sizes_geometric_witness :
    Built 2 64 (filled 2 64 [(1 : Int), 2, 3]) ∧
    (filled 2 64 [(1 : Int), 2, 3]).pages_ = [⟨1, 2⟩, ⟨0, 2⟩] ∧
    capacity (filled 2 64 [(1 : Int), 2, 3]) = 2 ^ 2 ∧
    ∀ (i : Nat) (page : pyramid_page),
      (filled 2 64 [(1 : Int), 2, 3]).pages_.reverse[i]? = some page →
      page.capacity = if i = 0 then 2 else 2 ^ (i + 1) - 2 ^ i := by
  have h1 : pyramid.insert 2 64 true 1 (pyramid.new Int 2) =
      Outcome.returned (filled 2 64 [(1 : Int)]) (Ptr.nodes 0 0) := by rfl
  have h2 : pyramid.insert 2 64 true 2 (filled 2 64 [(1 : Int)]) =
      Outcome.returned (filled 2 64 [(1 : Int), 2]) (Ptr.nodes 0 1) := by rfl
  have h3 : pyramid.insert 2 64 true 3 (filled 2 64 [(1 : Int), 2]) =
      Outcome.returned (filled 2 64 [(1 : Int), 2, 3]) (Ptr.nodes 1 0) := by rfl
  have hb : Built 2 64 (filled 2 64 [(1 : Int), 2, 3]) :=
    Built.insert_returned (Built.insert_returned (Built.insert_returned Built.new h1) h2) h3
  have hp : (filled 2 64 [(1 : Int), 2, 3]).pages_ = [⟨1, 2⟩, ⟨0, 2⟩] := by rfl
  obtain ⟨ha, hc, _⟩ := page_sizes_geometric 2 64 (by decide) hb (by rw [hp]; decide)
  exact ⟨hb, hp, hc (by rw [hp]; decide), ha⟩

/-! ## Backward iteration -/

theorem head_append_singleton {α : Type} (l : List α) (x z : α) :
    (l ++ [x] ++ [z]).head? = (l ++ [x]).head? := by
  cases l <;> simp

/-- The loop from `z` back to `begin()` reads the nodes before `z` last to first. -/
theorem collect_back_path (s : pyramid T) {a : Ptr} (r : List Ptr) {z : Ptr} {vs : List T}
    (h : Path s.memory a r.reverse z) (hnd : (r.reverse ++ [z]).Nodup)
    (hb : (r.reverse ++ [z]).head? = some (begin s))
    (hv : r.map (deref s) = vs.map some) {fuel : Nat} (hf : r.length ≤ fuel) :
    collect_back s fuel z = some vs := by
  induction r generalizing z vs fuel with
  | nil =>
    have : vs = [] := by
      cases vs with
      | nil => rfl
      | cons _ _ => simp at hv
    subst this
    simp only [List.reverse_nil, List.nil_append, List.head?_cons, Option.some.injEq] at hb
    cases fuel <;> simp [collect_back, hb]
  | cons x t ih =>
    cases vs with
    | nil => simp at hv
    | cons v vt =>
      simp only [List.map_cons, List.cons.injEq] at hv
      rw [List.reverse_cons] at h hnd hb
      obtain ⟨h1, h2⟩ := path_append.mp h
      have hpz : (s.memory z).previous_node = x := h2.2
      have hzb : z ≠ begin s := by
        intro hz
        rw [head_append_singleton] at hb
        have hm : begin s ∈ t.reverse ++ [x] := List.mem_of_mem_head? hb
        rw [← hz] at hm
        rw [List.nodup_append] at hnd
        exact hnd.2.2 hm (by simp)
      cases fuel with
      | zero => simp at hf
      | succ f =>
        simp only [collect_back, if_neg hzb, pyramid.prev, hpz, hv.1]
        rw [ih h1 (List.Nodup.of_append_left hnd) (by rw [← hb, head_append_singleton]) hv.2
          (by simp only [List.length_cons] at hf; omega)]
        rfl

theorem WellFormed.elements_back_eq {F w : Nat} {s : pyramid T} {occ fre : List Ptr}
    (h : WellFormed F w s occ fre) {xs : List T} (hv : occ.map (deref s) = xs.map some)
    {fuel : Nat} (hf : s.size_ ≤ fuel) : elements_back fuel s = some xs.reverse := by
  unfold elements_back end_
  have hnd : (occ ++ [Ptr.occupied_nodes_]).Nodup := by
    rw [List.nodup_append]
    have := h.nodup
    rw [List.nodup_append] at this
    refine ⟨this.1, by simp, ?_⟩
    intro p hp hp2
    simp only [List.mem_singleton] at hp2
    rw [hp2] at hp
    exact h.sentinel_not_mem hp
  refine collect_back_path s occ.reverse (by rw [List.reverse_reverse]; exact h.occupied)
    (by rw [List.reverse_reverse]; exact hnd) ?_ ?_ ?_
  · rw [List.reverse_reverse]
    exact path_next_head h.occupied
  · rw [List.map_reverse, hv, List.map_reverse]
  · rw [List.length_reverse, ← h.size_eq]; exact hf

/-- Along a path every inner node is the predecessor of its successor and the
successor of its predecessor. -/
theorem path_inverse {m : Memory T} {a z : Ptr} {l : List Ptr} (h : Path m a l z) :
    ∀ n ∈ l, (m (m n).next_node).previous_node = n ∧ (m (m n).previous_node).next_node = n := by
  induction l generalizing a with
  | nil => intro n hn; cases hn
  | cons b t ih =>
    intro n hn
    simp only [List.mem_cons] at hn
    rcases hn with rfl | hn
    · constructor
      · cases t with
        | nil => rw [h.2.1]; exact h.2.2
        | cons c u => rw [h.2.1.1]; exact h.2.1.2
      · rw [h.1.2]; exact h.1.1
    · exact ih h.2 n hn

/-- C17: in every reachable state the walk from `end()` by `--` until `begin()`
ends and reads the elements in the reverse of the `begin()..end()` order; for every
occupied node the predecessor of its successor is the node (and the successor of its
predecessor); on a non-empty arena `--end()` is the last handle of the forward order
and dereferences to the last element, which after an `insert(v)` that returned is
the value `v` just inserted. -/
theorem backward_is_reverse [Layout T] (F w : Nat) (hF : 2 ≤ F) (hFw : F < 2 ^ w) {s : pyramid T}
    (hr : Reachable F w s) :
    ∃ xs : List T,
      (∀ fuel, size s ≤ fuel → elements fuel s = some xs) ∧
      (∀ fuel, size s ≤ fuel → elements_back fuel s = some xs.reverse) ∧
      (∀ n ∈ handles s, prev s (next s n) = n ∧ next s (prev s n) = n) ∧
      (size s ≠ 0 → (handles s).getLast? = some (prev s (end_ s)) ∧
        deref s (prev s (end_ s)) = xs.getLast?) ∧
      ∀ (ok : Bool) (v : T) (s1 : pyramid T) (h : Ptr),
        pyramid.insert F w ok v s = Outcome.returned s1 h →
        prev s1 (end_ s1) = h ∧ deref s1 (prev s1 (end_ s1)) = some v := by
  obtain ⟨occ, fre, hwf⟩ := reachable_wf hF hFw hr
  obtain ⟨xs, hv⟩ := exists_values (f := deref s) (l := occ) hwf.live
  refine ⟨xs, fun fuel hf => hwf.elements_eq hv hf, fun fuel hf => hwf.elements_back_eq hv hf,
    ?_, ?_, ?_⟩
  · rw [hwf.handles_eq]
    exact path_inverse hwf.occupied
  · intro hne
    rw [hwf.handles_eq]
    rcases List.eq_nil_or_concat occ with h0 | ⟨l, x, h1⟩
    · subst h0
      exact absurd (by rw [size, hwf.size_eq]; rfl) hne
    · rw [List.concat_eq_append] at h1
      subst h1
      have hlast := path_last_next hwf.occupied
      obtain ⟨ys, y, rfl⟩ : ∃ ys y, xs = ys ++ [y] := by
        rcases List.eq_nil_or_concat xs with h0 | ⟨ys, y, h1⟩
        · subst h0; simp at hv
        · exact ⟨ys, y, by rw [h1, List.concat_eq_append]⟩
      have hxy : deref s x = some y := by
        have := congrArg List.getLast? hv
        simpa using this
      refine ⟨by simp [prev, end_, hlast.2], ?_⟩
      simp [prev, end_, hlast.2, hxy]
  · intro ok v s1 h hins
    rcases wf_insert hF hFw hwf ok v with
      ⟨s2, x, fre1, e1, hwf1, hitem, _⟩ | ⟨s2, e1, _⟩ | ⟨e1, _⟩
    rotate_left
    · rw [hins] at e1; cases e1
    · rw [hins] at e1; cases e1
    · rw [hins] at e1
      cases e1
      have hlast := path_last_next hwf1.occupied
      refine ⟨hlast.2, ?_⟩
      simp only [prev, end_, hlast.2, deref, hitem, if_true]

/-- An instance of C17: the arena of 1, 2, 3 read backward. -/
theorem backward_is_reverse_witness :
    Reachable 16 64 (filled 16 64 [(1 : Int), 2, 3]) ∧
    elements 3 (filled 16 64 [(1 : Int), 2, 3]) = some [1, 2, 3] ∧
    elements_back 3 (filled 16 64 [(1 : Int), 2, 3]) = some [3, 2, 1] ∧
    deref (filled 16 64 [(1 : Int), 2, 3])
      (prev (filled 16 64 [(1 : Int), 2, 3]) (end_ (filled 16 64 [(1 : Int), 2, 3]))) =
        some 3 := by
  have hr : Reachable 16 64 (filled 16 64 [(1 : Int), 2, 3]) :=
    reachable_insert_each (fun _ => true) [1, 2, 3] Reachable.new (by rfl)
  obtain ⟨xs, h1, h2, _, _, _⟩ := backward_is_reverse 16 64 (by decide) (by decide) hr
  have hsz : size (filled 16 64 [(1 : Int), 2, 3]) = 3 := by rfl
  have hxs : some xs = some [(1 : Int), 2, 3] := by
    rw [← h1 3 (by rw [hsz])]; rfl
  simp only [Option.some.injEq] at hxs
  subst hxs
  exact ⟨hr, h1 3 (by rw [hsz]), h2 3 (by rw [hsz]), by rfl⟩

/-! ## `expected` -/

/-- C18: for every value `v` and every error `e`, an `expected<T, E>` constructed
from `v` has `has_value() == true`, converts to `true`, and `value()` and
`operator*` give `v`; one constructed from `make_unexpected(e)` has
`has_value() == false`, converts to `false`, and `error()` gives `e`. -/
theorem expected_constructed {E : Type} (v : T) (e : E) :
    expected.has_value (expected.of_value v : expected T E) = true ∧
    expected.to_bool (expected.of_value v : expected T E) = true ∧
    expected.value (expected.of_value v : expected T E) = some v ∧
    expected.star (expected.of_value v : expected T E) = some v ∧
    expected.has_value (expected.of_unexpected (make_unexpected e) : expected T E) = false ∧
    expected.to_bool (expected.of_unexpected (make_unexpected e) : expected T E) = false ∧
    expected.error (expected.of_unexpected (make_unexpected e) : expected T E) = some e :=
  ⟨rfl, rfl, rfl, rfl, rfl, rfl, rfl⟩

/-! ## Self-assignment -/

/-- The self-assignment of a reachable arena leaves the default-constructed arena
when control flows off the end of `operator=`. -/
theorem copy_assign_self_clears [Layout T] {F w : Nat} (hF : 2 ≤ F) (hFw : F < 2 ^ w) {s : pyramid T}
    (hr : Reachable F w s) (malloc_ok : Nat → Bool) {fuel : Nat} (hf : size s ≤ fuel) :
    copy_assign_self F w malloc_ok fuel s =
      some (Except.error (Failure.undefined (pyramid.new T F))) := by
  obtain ⟨occ, fre, hwf⟩ := reachable_wf hF hFw hr
  unfold copy_assign_self
  rw [(wf_clear hwf fuel).1 hf]
  have hb : begin (pyramid.new T F) = end_ (pyramid.new T F) := by
    simp [begin, end_, pyramid.new, init]
  simp only [hb]
  cases fuel <;> simp [insert_range_self]

/-- C20, at a failing input: the arena `p` that holds 1 (`F = 16`), assigned to
itself. `operator=` runs `clear()` on `p` before the loop reads `p`, so the loop
finds `begin() == end()`: when control reaches the end of the body, which holds no
`return` statement, `p` has `size() == 0` and no element, where it had `size() == 1`
and the element 1. -/
theorem self_assignment_empties :
    size (filled 16 64 [(1 : Int)]) = 1 ∧
    elements 1 (filled 16 64 [(1 : Int)]) = some [1] ∧
    ∃ p1, copy_assign_self 16 64 (fun _ => true) 1 (filled 16 64 [(1 : Int)]) =
        some (Except.error (Failure.undefined p1)) ∧
      size p1 = 0 ∧ empty p1 = true ∧ elements 1 p1 = some [] :=
  ⟨by rfl, by rfl, _, by rfl, by rfl, by rfl, by rfl⟩

/-! ## The capacity of a new page -/

/-- An `insert` that finds no memory leaves a reachable state. -/
theorem reachable_insert_arena [Layout T] {F w : Nat} {s : pyramid T} (hr : Reachable F w s)
    (v : T) : Reachable F w (pyramid.insert F w false v s).arena := by
  cases hi : pyramid.insert F w false v s with
  | returned s1 node => exact Reachable.insert_returned hr hi
  | thrown e s1 => exact Reachable.insert_thrown hr hi
  | undefined s1 =>
    exfalso
    by_cases hfull : s.capacity_ = s.size_
    · by_cases hov : s.next_page_estimate_ * F % 2 ^ w < s.next_page_estimate_
      · rw [insert_overflow hfull hov false v] at hi
        cases hi
      · rw [insert_no_memory hfull hov v] at hi
        cases hi
    · rw [insert_take hfull false v] at hi
      cases hi

/-- The arena that `n` inserts without memory left behind is reachable. -/
theorem reachable_starved [Layout T] (F w : Nat) (v : T) (n : Nat) :
    Reachable F w (starved F w v n) := by
  induction n with
  | zero => exact Reachable.new
  | succ n ih => exact reachable_insert_arena ih v

/-- The nodes of a page whose bytes did not wrap lie inside the block. -/
theorem node_in_block_of_fits [Layout T] {w c : Nat} (hc : c < 2 ^ w)
    (hfit : page_fits T w c = true) :
    1 ≤ c ∧ page_bytes T w c = Layout.sizeof_page T + (c - 1) * Layout.sizeof_node T ∧
      ∀ i, i < c → node_in_block T (page_bytes T w c) i = true := by
  obtain ⟨h1, hlt⟩ := (page_fits_iff hc).mp hfit
  have hp : Layout.sizeof_node T ≤ Layout.sizeof_page T := Layout.node_le_page
  have hlast : (c + 2 ^ w - 1) % 2 ^ w = c - 1 := by
    have : c + 2 ^ w - 1 = (c - 1) + 2 ^ w := by omega
    rw [this, Nat.add_mod_right, Nat.mod_eq_of_lt (by omega)]
  have hbytes : page_bytes T w c =
      Layout.sizeof_page T + (c - 1) * Layout.sizeof_node T := by
    unfold page_bytes nodes_size
    rw [hlast, Nat.add_mod_mod, Nat.mod_eq_of_lt hlt]
  refine ⟨h1, hbytes, ?_⟩
  intro i hi
  unfold node_in_block
  rw [decide_eq_true_iff, hbytes]
  have hle : (i + 1) * Layout.sizeof_node T ≤ c * Layout.sizeof_node T :=
    Nat.mul_le_mul_right _ (by omega)
  have hmul : c * Layout.sizeof_node T =
      (c - 1) * Layout.sizeof_node T + Layout.sizeof_node T := by
    have h3 : c = (c - 1) + 1 := by omega
    nth_rewrite 1 [h3]
    ring
  omega

/-- C21 fails. At `F = 1` the arena that holds one element is full, its growth
target stayed at `1 * 1 = 1`, and the growth step computes a page capacity of
`1 - 1 = 0`: the factor `page_capacity - 1` of line 287 wraps to `2 ^ 64 - 1`, the
bytes of the nodes to `2 ^ 64 - 24` and the request of line 288 to 16 bytes, so that
`nodes[0]`, which lines 298 and 304 take as the node to hand out, lies outside the
block and `insert` writes outside it. At `F = 2` the arena that 60 inserts without
memory left behind is empty with a growth target of `2 ^ 61`: the page capacity is
`2 ^ 61`, the factor does not wrap, but the bytes of line 288 wrap to 16, and again
`nodes[0]` lies outside the block and `insert` writes outside it. -/
theorem growth_step_leaves_block :
    (Reachable 1 64 (filled 1 64 [(1 : Int)]) ∧
      size (filled 1 64 [(1 : Int)]) = capacity (filled 1 64 [(1 : Int)]) ∧
      page_capacity 64 (filled 1 64 [(1 : Int)]) = 0 ∧
      (page_capacity 64 (filled 1 64 [(1 : Int)]) + 2 ^ 64 - 1) % 2 ^ 64 = 2 ^ 64 - 1 ∧
      nodes_size 64 (Layout.sizeof_node Int) (page_capacity 64 (filled 1 64 [(1 : Int)])) =
        2 ^ 64 - 24 ∧
      page_bytes Int 64 (page_capacity 64 (filled 1 64 [(1 : Int)])) = 16 ∧
      node_in_block Int 16 0 = false ∧
      ∃ s1, pyramid.insert 1 64 true 2 (filled 1 64 [(1 : Int)]) = Outcome.undefined s1) ∧
    (Reachable 2 64 (starved 2 64 (1 : Int) 60) ∧
      size (starved 2 64 (1 : Int) 60) = capacity (starved 2 64 (1 : Int) 60) ∧
      page_capacity 64 (starved 2 64 (1 : Int) 60) = 2 ^ 61 ∧
      page_bytes Int 64 (page_capacity 64 (starved 2 64 (1 : Int) 60)) = 16 ∧
      node_in_block Int 16 0 = false ∧
      ∃ s1, pyramid.insert 2 64 true 1 (starved 2 64 (1 : Int) 60) = Outcome.undefined s1) :=
  ⟨⟨reachable_insert_each (fun _ => true) [1] Reachable.new (by rfl), by rfl, by rfl, by rfl,
      by rfl, by rfl, by rfl, _, by rfl⟩,
    ⟨reachable_starved 2 64 1 60, by rfl, by rfl, by rfl, by rfl, _, by rfl⟩⟩

/-- C21 as amended: for every growth factor `F >= 2` and every reachable state with
`size() == capacity()`, the page capacity of a growth step is at least 1, so the
factor `page_capacity - 1` of line 287 does not wrap below zero. An `insert` that
returns from such a state has asked for `sizeof(page) + (page_capacity - 1) *
sizeof(node)` bytes, a number that did not wrap; every node of the new page lies
inside the block, and the node handed out is `nodes[0]` of the new page, which is
at the head of the chain. With memory at hand `insert` does return when neither the
growth target nor that number of bytes leaves the range of `size_type`. -/
theorem page_capacity_positive [Layout T] (F w : Nat) (hF : 2 ≤ F) (hFw : F < 2 ^ w)
    {s : pyramid T} (hr : Reachable F w s) (hfull : size s = capacity s) :
    1 ≤ page_capacity w s ∧
    (page_capacity w s + 2 ^ w - 1) % 2 ^ w = page_capacity w s - 1 ∧
    (∀ sizeof_node, nodes_size w sizeof_node (page_capacity w s) =
      (page_capacity w s - 1) * sizeof_node % 2 ^ w) ∧
    (∀ (ok : Bool) (v : T) (s1 : pyramid T) (h : Ptr),
      pyramid.insert F w ok v s = Outcome.returned s1 h →
      page_bytes T w (page_capacity w s) =
        Layout.sizeof_page T + (page_capacity w s - 1) * Layout.sizeof_node T ∧
      (∀ i, i < page_capacity w s →
        node_in_block T (page_bytes T w (page_capacity w s)) i = true) ∧
      h = Ptr.nodes s.pages_.length 0 ∧
      h ∈ slots ⟨s.pages_.length, page_capacity w s⟩ ∧
      s1.pages_ = ⟨s.pages_.length, page_capacity w s⟩ :: s.pages_) ∧
    ∀ v : T, ¬ s.next_page_estimate_ * F % 2 ^ w < s.next_page_estimate_ →
      Layout.sizeof_page T + (page_capacity w s - 1) * Layout.sizeof_node T < 2 ^ w →
      ∃ s1 h, pyramid.insert F w true v s = Outcome.returned s1 h := by
  obtain ⟨occ, fre, hwf⟩ := reachable_wf hF hFw hr
  have h1 := hwf.size_eq
  have h2 := hwf.capacity_eq
  have hgt := hwf.estimate_gt
  have hlt := hwf.estimate_lt
  simp only [size, capacity] at hfull
  have hc : page_capacity w s = s.next_page_estimate_ - s.size_ := by
    unfold page_capacity
    have : s.next_page_estimate_ + 2 ^ w - s.size_ =
        (s.next_page_estimate_ - s.size_) + 2 ^ w := by omega
    rw [this, Nat.add_mod_right, Nat.mod_eq_of_lt (by omega)]
  have hcw : page_capacity w s < 2 ^ w := by omega
  have hlast : (page_capacity w s + 2 ^ w - 1) % 2 ^ w = page_capacity w s - 1 := by
    have : page_capacity w s + 2 ^ w - 1 = (page_capacity w s - 1) + 2 ^ w := by omega
    rw [this, Nat.add_mod_right, Nat.mod_eq_of_lt (by omega)]
  refine ⟨by omega, hlast, fun sz => by rw [nodes_size, hlast], ?_, ?_⟩
  · intro ok v s1 h hins
    rcases wf_insert hF hFw hwf ok v with
      ⟨s2, x, fre1, e1, _, _, hcase⟩ | ⟨s2, e1, _⟩ | ⟨e1, _⟩
    rotate_left
    · rw [hins] at e1; cases e1
    · rw [hins] at e1; cases e1
    · rw [hins] at e1
      cases e1
      rcases hcase with ⟨hne, _⟩ | ⟨_, _, _, _, hfit, hx, hp, _⟩
      · exact absurd hfull.symm hne
      · obtain ⟨hpos, hb, hin⟩ := node_in_block_of_fits hcw hfit
        have hhead : h = Ptr.nodes s.pages_.length 0 := by
          have hs : slots ⟨s.pages_.length, page_capacity w s⟩ =
              Ptr.nodes s.pages_.length 0 ::
                ((List.range (page_capacity w s - 1)).map
                  (fun i => Ptr.nodes s.pages_.length (i + 1))) := by
            unfold slots
            have h3 : page_capacity w s = (page_capacity w s - 1) + 1 := by omega
            simp only []
            nth_rewrite 1 [h3]
            rw [List.range_succ_eq_map, List.map_cons, List.map_map]
            rfl
          rw [hs] at hx
          simp only [List.cons.injEq] at hx
          exact hx.1
        exact ⟨hb, hin, hhead, by rw [← hx]; simp, hp⟩
  · intro v hov hbytes
    have hfit : page_fits T w (page_capacity w s) = true :=
      (page_fits_iff hcw).mpr ⟨by omega, hbytes⟩
    exact ⟨_, _, insert_grow hfull.symm hov hfit v⟩

/-- An instance of the amended C21: with growth factor 2 the arena of 1, 2 is full,
the growth step computes a page of `4 - 2 = 2` nodes and asks for `40 + 24` bytes,
and `insert(3)` hands out `nodes[0]` of that page. -/
theorem page_capacity_positive_witness :
    Reachable 2 64 (filled 2 64 [(1 : Int), 2]) ∧
    size (filled 2 64 [(1 : Int), 2]) = capacity (filled 2 64 [(1 : Int), 2]) ∧
    page_capacity 64 (filled 2 64 [(1 : Int), 2]) = 2 ∧
    1 ≤ page_capacity 64 (filled 2 64 [(1 : Int), 2]) ∧
    nodes_size 64 24 (page_capacity 64 (filled 2 64 [(1 : Int), 2])) =
      (page_capacity 64 (filled 2 64 [(1 : Int), 2]) - 1) * 24 % 2 ^ 64 ∧
    page_bytes Int 64 (page_capacity 64 (filled 2 64 [(1 : Int), 2])) = 64 ∧
    ∃ s1 h, pyramid.insert 2 64 true 3 (filled 2 64 [(1 : Int), 2]) = Outcome.returned s1 h ∧
      h = Ptr.nodes 1 0 ∧
      h ∈ slots ⟨(filled 2 64 [(1 : Int), 2]).pages_.length,
        page_capacity 64 (filled 2 64 [(1 : Int), 2])⟩ := by
  have hr : Reachable 2 64 (filled 2 64 [(1 : Int), 2]) :=
    reachable_insert_each (fun _ => true) [1, 2] Reachable.new (by rfl)
  have hfull : size (filled 2 64 [(1 : Int), 2]) = capacity (filled 2 64 [(1 : Int), 2]) := by
    rfl
  obtain ⟨h1, _, h3, h4, h5⟩ := page_capacity_positive 2 64 (by decide) (by decide) hr hfull
  obtain ⟨s1, h, hins⟩ := h5 3 (by decide) (by decide)
  obtain ⟨_, _, hh, hmem, _⟩ := h4 true 3 s1 h hins
  exact ⟨hr, hfull, by rfl, h1, h3 24, by rfl, s1, h, hins, hh, hmem⟩

/-! ## Copies of `expected` -/

/-- What the copy constructor and copy assignment of `expected` make of a source
built by one of the constructors, case by case. -/
theorem expected_copy_cases {E : Type} (T_of_E : E → T) (E_of_T : T → E) (v v0 : T)
    (e e0 : E) :
    expected.copy_construct T_of_E (expected.of_value v : expected T E) =
      some (expected.of_value v) ∧
    expected.copy_construct T_of_E (expected.of_unexpected (make_unexpected e) : expected T E) =
      some ⟨false, expected_data.value (T_of_E e)⟩ ∧
    expected.copy_assign E_of_T (expected.of_value v) (expected.of_value v0 : expected T E) =
      some (expected.of_value v) ∧
    expected.copy_assign E_of_T (expected.of_unexpected (make_unexpected e))
      (expected.of_unexpected (make_unexpected e0) : expected T E) =
      some (expected.of_unexpected (make_unexpected e)) ∧
    expected.copy_assign E_of_T (expected.of_unexpected (make_unexpected e))
      (expected.of_value v0 : expected T E) =
      some (expected.of_unexpected (make_unexpected e)) ∧
    expected.copy_assign E_of_T (expected.of_value v)
      (expected.of_unexpected (make_unexpected e0) : expected T E) =
      some ⟨true, expected_data.error (E_of_T v)⟩ :=
  ⟨rfl, rfl, rfl, rfl, rfl, rfl⟩

/-- C22, at two failing inputs for `expected<int, bool>`. Copy assignment of a
source that holds the value 42 to a target that holds the error `true` builds a
`bool` from the value (line 78, `E(other.data_.value)`): the target has
`has_value() == true` and a `bool` in the union, so `value()` finds no `int` there,
where the source gives 42. The copy constructor on a source that holds the error
`true` builds an `int` from it (line 62, `T(other.data_.error)`): the copy has
`has_value() == false` and an `int` in the union, so `error()` finds no `bool`
there, where the source gives `true`. -/
theorem expected_copy_builds_wrong_type :
    expected.valid (expected.of_value 42 : expected Int Bool) = true ∧
    expected.value (expected.of_value 42 : expected Int Bool) = some 42 ∧
    expected.valid (expected.of_unexpected (make_unexpected true) : expected Int Bool) = true ∧
    expected.copy_assign (fun i : Int => i != 0) (expected.of_value 42 : expected Int Bool)
      (expected.of_unexpected (make_unexpected true)) =
      some ⟨true, expected_data.error true⟩ ∧
    expected.has_value (⟨true, expected_data.error true⟩ : expected Int Bool) = true ∧
    expected.value (⟨true, expected_data.error true⟩ : expected Int Bool) = none ∧
    expected.valid (⟨true, expected_data.error true⟩ : expected Int Bool) = false ∧
    expected.error (expected.of_unexpected (make_unexpected true) : expected Int Bool) =
      some true ∧
    expected.copy_construct (fun b : Bool => if b then 1 else 0)
      (expected.of_unexpected (make_unexpected true) : expected Int Bool) =
      some ⟨false, expected_data.value 1⟩ ∧
    expected.has_value (⟨false, expected_data.value 1⟩ : expected Int Bool) = false ∧
    expected.error (⟨false, expected_data.value 1⟩ : expected Int Bool) = none ∧
    expected.valid (⟨false, expected_data.value 1⟩ : expected Int Bool) = false :=
  ⟨rfl, rfl, rfl, rfl, rfl, rfl, rfl, rfl, rfl, rfl, rfl, rfl⟩

end etceteras
